import Mathlib

/-!
Verification development for the splatter engine (pivot-blender-bridge).

The C++ sources under `src/splatter/engine/` are shallowly embedded over `ℚ`
(the C++ code computes in `float`; we model the real-number intent of each
arithmetic expression exactly, keeping every branch and comparison of the
source).  Arrays are embedded as `List`s, out-of-range reads as `List.getD`
with the C++ value-initialised default, out-of-range writes as the no-op
`List.set` (the source only writes in range on the paths we reason about).
-/

namespace Splatter

/-- `Vec2` from `util.h`: a 2-D float pair, embedded over `ℚ`. -/
structure Vec2 where
  x : ℚ
  y : ℚ
deriving DecidableEq, Repr

instance : Inhabited Vec2 := ⟨⟨0, 0⟩⟩

instance : Add Vec2 := ⟨fun a b => ⟨a.x + b.x, a.y + b.y⟩⟩

instance : Sub Vec2 := ⟨fun a b => ⟨a.x - b.x, a.y - b.y⟩⟩

instance : Neg Vec2 := ⟨fun a => ⟨-a.x, -a.y⟩⟩

theorem Vec2.sub_def (a b : Vec2) : a - b = ⟨a.x - b.x, a.y - b.y⟩ := rfl

/-- `Vec2::cross` from `util.h`: `x * other.y - y * other.x`. -/
def Vec2.cross (a b : Vec2) : ℚ := a.x * b.y - a.y * b.x

/-- `Vec2::length_squared` from `util.h`. -/
def Vec2.length_squared (a : Vec2) : ℚ := a.x * a.x + a.y * a.y

/-- `Vec3` from `util.h`, embedded over `ℚ`. -/
structure Vec3 where
  x : ℚ
  y : ℚ
  z : ℚ
deriving DecidableEq, Repr

instance : Inhabited Vec3 := ⟨⟨0, 0, 0⟩⟩

/-- `uVec2i`: an unordered index pair (edge), as used by the engine. -/
structure uVec2i where
  x : ℕ
  y : ℕ
deriving DecidableEq, Repr

/-- `uVec3i`: an index triple (face), as used by `build_adj_vertices`. -/
structure uVec3i where
  x : ℕ
  y : ℕ
  z : ℕ
deriving DecidableEq, Repr

/-- `BoundingBox3D`: axis-aligned 3-D box (min/max corner), as used by
`calc_cog_volume_edges_intersections`. -/
structure BoundingBox3D where
  min_corner : Vec3
  max_corner : Vec3
deriving DecidableEq, Repr

/-! ## List access helpers

Small lemmas about `List.getD`/`List.set`, the embedding of C++
`std::vector` indexed reads and writes. -/

theorem getD_set_ne {α : Type} (l : List α) (i j : ℕ) (x d : α) (h : i ≠ j) :
    (l.set j x).getD i d = l.getD i d := by
  rw [List.getD_eq_getElem?_getD, List.getD_eq_getElem?_getD,
    List.getElem?_set_ne (Ne.symm h)]

theorem getD_set_self {α : Type} (l : List α) (j : ℕ) (x d : α) (h : j < l.length) :
    (l.set j x).getD j d = x := by
  rw [List.getD_eq_getElem?_getD, List.getElem?_set_self h, Option.getD_some]

theorem getD_replicate {α : Type} (n i : ℕ) (d x : α) :
    (List.replicate n x).getD i d = if i < n then x else d := by
  rw [List.getD_eq_getElem?_getD, List.getElem?_replicate]
  by_cases h : i < n
  · rw [if_pos h, if_pos h, Option.getD_some]
  · rw [if_neg h, if_neg h, Option.getD_none]

/-! ## Adjacency graph builder (faces) — `bounds.cpp`, `build_adj_vertices`

The face-list variant.  For each face it adds each of the three vertex pairs
in both directions, but only when **both** endpoints of the pair are below
`vertCount`; afterwards each neighbour list is sorted and deduplicated. -/

/-- One `push_back(b)` on `adj[a]` followed by `push_back(a)` on `adj[b]`. -/
def add_pair (adj : List (List ℕ)) (a b : ℕ) : List (List ℕ) :=
  (adj.set a (adj.getD a [] ++ [b])).set b
    ((adj.set a (adj.getD a [] ++ [b])).getD b [] ++ [a])

/-- The three guarded pair insertions of `build_adj_vertices` for one face. -/
def add_face_adj (vertCount : ℕ) (adj : List (List ℕ)) (f : uVec3i) : List (List ℕ) :=
  let adj1 := if f.x < vertCount ∧ f.y < vertCount then add_pair adj f.x f.y else adj
  let adj2 := if f.y < vertCount ∧ f.z < vertCount then add_pair adj1 f.y f.z else adj1
  if f.z < vertCount ∧ f.x < vertCount then add_pair adj2 f.z f.x else adj2

/-- `build_adj_vertices(verts, vertCount, faces, faceCount, out_adj_verts)`
from `bounds.cpp`.  The caller passes `out_adj_verts` as `vertCount` empty
lists; the early-out on empty inputs leaves them untouched. -/
def build_adj_vertices_faces (verts : List Vec3) (faces : List uVec3i) : List (List ℕ) :=
  if verts = [] ∨ faces = [] then List.replicate verts.length []
  else
    (faces.foldl (add_face_adj verts.length) (List.replicate verts.length [])).map
      (fun neighbors => (neighbors.insertionSort (· ≤ ·)).dedup)

/-- The unordered vertex pairs contributed by one face in the source. -/
def facePair (f : uVec3i) (i j : ℕ) : Prop :=
  (f.x = i ∧ f.y = j) ∨ (f.y = i ∧ f.x = j) ∨
  (f.y = i ∧ f.z = j) ∨ (f.z = i ∧ f.y = j) ∨
  (f.z = i ∧ f.x = j) ∨ (f.x = i ∧ f.z = j)

theorem mem_getD_set_append (l : List (List ℕ)) (a v i j : ℕ)
    (h : j ∈ (l.set a (l.getD a [] ++ [v])).getD i []) :
    j ∈ l.getD i [] ∨ (i = a ∧ j = v) := by
  by_cases hia : i = a
  · subst hia
    by_cases hlen : i < l.length
    · rw [getD_set_self _ _ _ _ hlen] at h
      rcases List.mem_append.mp h with h2 | h2
      · exact Or.inl h2
      · exact Or.inr ⟨rfl, List.mem_singleton.mp h2⟩
    · rw [List.set_eq_of_length_le (Nat.le_of_not_lt hlen)] at h
      exact Or.inl h
  · rw [getD_set_ne _ _ _ _ _ hia] at h
    exact Or.inl h

theorem mem_add_pair (adj : List (List ℕ)) (a b i j : ℕ)
    (h : j ∈ (add_pair adj a b).getD i []) :
    j ∈ adj.getD i [] ∨ (i = a ∧ j = b) ∨ (i = b ∧ j = a) := by
  unfold add_pair at h
  rcases mem_getD_set_append _ _ _ _ _ h with h1 | h1
  · rcases mem_getD_set_append _ _ _ _ _ h1 with h2 | h2
    · exact Or.inl h2
    · exact Or.inr (Or.inl h2)
  · exact Or.inr (Or.inr h1)

theorem mem_ite_add_pair (c : Prop) [Decidable c] (adj : List (List ℕ)) (a b i j : ℕ)
    (h : j ∈ (if c then add_pair adj a b else adj).getD i []) :
    j ∈ adj.getD i [] ∨ (c ∧ ((i = a ∧ j = b) ∨ (i = b ∧ j = a))) := by
  split at h
  · rcases mem_add_pair _ _ _ _ _ h with h' | h'
    · exact Or.inl h'
    · exact Or.inr ⟨by assumption, h'⟩
  · exact Or.inl h

theorem mem_add_face_adj (n : ℕ) (adj : List (List ℕ)) (f : uVec3i) (i j : ℕ)
    (h : j ∈ (add_face_adj n adj f).getD i []) :
    j ∈ adj.getD i [] ∨ (facePair f i j ∧ i < n ∧ j < n) := by
  unfold add_face_adj at h
  rcases mem_ite_add_pair _ _ _ _ _ _ h with h1 | h1
  · rcases mem_ite_add_pair _ _ _ _ _ _ h1 with h2 | h2
    · rcases mem_ite_add_pair _ _ _ _ _ _ h2 with h3 | h3
      · exact Or.inl h3
      · obtain ⟨⟨hx, hy⟩, hp | hp⟩ := h3
        · exact Or.inr ⟨Or.inl ⟨hp.1.symm, hp.2.symm⟩, hp.1 ▸ hx, hp.2 ▸ hy⟩
        · exact Or.inr ⟨Or.inr (Or.inl ⟨hp.1.symm, hp.2.symm⟩), hp.1 ▸ hy, hp.2 ▸ hx⟩
    · obtain ⟨⟨hy, hz⟩, hp | hp⟩ := h2
      · exact Or.inr ⟨Or.inr (Or.inr (Or.inl ⟨hp.1.symm, hp.2.symm⟩)), hp.1 ▸ hy, hp.2 ▸ hz⟩
      · exact Or.inr ⟨Or.inr (Or.inr (Or.inr (Or.inl ⟨hp.1.symm, hp.2.symm⟩))),
          hp.1 ▸ hz, hp.2 ▸ hy⟩
  · obtain ⟨⟨hz, hx⟩, hp | hp⟩ := h1
    · exact Or.inr ⟨Or.inr (Or.inr (Or.inr (Or.inr (Or.inl ⟨hp.1.symm, hp.2.symm⟩)))),
        hp.1 ▸ hz, hp.2 ▸ hx⟩
    · exact Or.inr ⟨Or.inr (Or.inr (Or.inr (Or.inr (Or.inr ⟨hp.1.symm, hp.2.symm⟩)))),
        hp.1 ▸ hx, hp.2 ▸ hz⟩

theorem mem_foldl_add_face_adj (n : ℕ) (faces : List uVec3i) (adj : List (List ℕ)) (i j : ℕ)
    (h : j ∈ (faces.foldl (add_face_adj n) adj).getD i []) :
    j ∈ adj.getD i [] ∨ ∃ f ∈ faces, facePair f i j ∧ i < n ∧ j < n := by
  induction faces generalizing adj with
  | nil => exact Or.inl h
  | cons f fs ih =>
    rw [List.foldl_cons] at h
    rcases ih _ h with h' | h'
    · rcases mem_add_face_adj n adj f i j h' with h'' | h''
      · exact Or.inl h''
      · exact Or.inr ⟨f, List.mem_cons_self _ _, h''⟩
    · obtain ⟨g, hg, hgp⟩ := h'
      exact Or.inr ⟨g, List.mem_cons_of_mem _ hg, hgp⟩

/-- C6, amended half: the face-list adjacency builder never signals an error;
every recorded neighbour relation comes from a face pair **both** of whose
indices are below the vertex count — a pair with an index `≥ vertCount` is
silently dropped. -/
theorem build_adj_vertices_faces_inRange (verts : List Vec3) (faces : List uVec3i)
    (i j : ℕ) (h : j ∈ (build_adj_vertices_faces verts faces).getD i []) :
    i < verts.length ∧ j < verts.length ∧ ∃ f ∈ faces, facePair f i j := by
  unfold build_adj_vertices_faces at h
  by_cases hguard : verts = [] ∨ faces = []
  · rw [if_pos hguard, getD_replicate] at h
    split at h <;> simp at h
  · rw [if_neg hguard] at h
    rw [List.getD_eq_getElem?_getD, List.getElem?_map] at h
    match hfold : (faces.foldl (add_face_adj verts.length) (List.replicate verts.length []))[i]?
      with
    | none =>
      rw [hfold] at h
      simp at h
    | some nbrs =>
      rw [hfold] at h
      simp only [Option.map_some', Option.getD_some] at h
      rw [List.mem_dedup, (List.perm_insertionSort (· ≤ ·) nbrs).mem_iff] at h
      have h2 : j ∈ (faces.foldl (add_face_adj verts.length)
          (List.replicate verts.length [])).getD i [] := by
        rw [List.getD_eq_getElem?_getD, hfold, Option.getD_some]
        exact h
      rcases mem_foldl_add_face_adj _ _ _ _ _ h2 with h3 | h3
      · rw [getD_replicate] at h3
        split at h3 <;> simp at h3
      · obtain ⟨f, hf, hfp, hi, hj⟩ := h3
        exact ⟨hi, hj, f, hf, hfp⟩

/-- C6, counterexample: with 2 vertices and the single face `(0, 1, 5)` —
whose index 5 is out of range — the builder returns the ordinary adjacency
`[[1], [0]]`: no error is raised, and the pairs `(1,5)`, `(5,0)` are
silently dropped. -/
theorem build_adj_vertices_faces_oob_silent :
    build_adj_vertices_faces [⟨0, 0, 0⟩, ⟨1, 0, 0⟩] [⟨0, 1, 5⟩] = [[1], [0]] ∧
      ¬ (5 : ℕ) < ([⟨0, 0, 0⟩, ⟨1, 0, 0⟩] : List Vec3).length := by
  constructor
  · rfl
  · decide

/-- Witness for C6: applying the in-range theorem to the 2-vertex mesh with
face `(0, 1, 5)`; the recorded neighbour `1` of vertex `0` comes from a face
pair with both indices below the vertex count. -/
theorem build_adj_vertices_faces_inRange_witness :
    (0 : ℕ) < ([⟨0, 0, 0⟩, ⟨1, 0, 0⟩] : List Vec3).length ∧
      (1 : ℕ) < ([⟨0, 0, 0⟩, ⟨1, 0, 0⟩] : List Vec3).length ∧
      ∃ f ∈ [(⟨0, 1, 5⟩ : uVec3i)], facePair f 0 1 :=
  build_adj_vertices_faces_inRange [⟨0, 0, 0⟩, ⟨1, 0, 0⟩] [⟨0, 1, 5⟩] 0 1 (by
    have h : build_adj_vertices_faces [⟨0, 0, 0⟩, ⟨1, 0, 0⟩] [⟨0, 1, 5⟩] = [[1], [0]] := rfl
    rw [h]
    decide)

/-! ## Batch transport — `main.cpp`

`parse_uint_array` and the `prepare` request handling of the IPC loop,
embedded up to the decision taken before the shared-memory section.  The
C++ parser returns a `bool` and fills `out` by side effect; the embedding
returns `some (returnValue, out)`, and `none` for the `std::stoul`
out-of-range exception (which the request loop catches and turns into an
error response). -/

/-- Numeric value of an accumulated digit string (`std::stoul` on digits). -/
def digitsVal (num : List Char) : ℕ :=
  num.foldl (fun acc c => 10 * acc + (c.toNat - 48)) 0

/-- The character-scanning loop of `parse_uint_array` after the opening
bracket: state is (remaining input, `num`, `in_num`, `out`). -/
def parse_uint_loop : List Char → List Char → Bool → List ℕ → Option (Bool × List ℕ)
  | [], _num, _in_num, out => some (true, out)
  | c :: rest, num, in_num, out =>
    if '0' ≤ c ∧ c ≤ '9' then parse_uint_loop rest (num ++ [c]) true out
    else if c = ',' ∨ c = ']' then
      if in_num then
        let v := digitsVal num
        if 2 ^ 64 - 1 < v then none
        else if 2 ^ 32 - 1 < v then some (false, out)
        else if c = ']' then some (true, out ++ [v])
        else parse_uint_loop rest [] false (out ++ [v])
      else if c = ']' then some (true, out)
      else parse_uint_loop rest [] false out
    else if c = ' ' ∨ c = '\t' then parse_uint_loop rest num in_num out
    else some (false, out)

/-- Leading-whitespace skip and the opening-bracket check of
`parse_uint_array` (an empty or bracketless value returns `false` with
`out` untouched). -/
def parse_uint_start : List Char → Option (Bool × List ℕ)
  | [] => some (false, [])
  | c :: rest =>
    if c = ' ' ∨ c = '\t' then parse_uint_start rest
    else if c = '[' then parse_uint_loop rest [] false []
    else some (false, [])

/-- `parse_uint_array` from `main.cpp`. -/
def parse_uint_array (s : String) : Option (Bool × List ℕ) :=
  parse_uint_start s.toList

/-- Outcome of one `prepare` request, up to the shared-memory section:
`errResponse` is the `respond_error` reply (the loop continues), `okEmpty`
is the `num_objects == 0` success reply with empty `rots`/`trans`, and
`proceed` reaches the shared-memory mapping and geometry pipeline. -/
inductive PrepareOutcome where
  | errResponse (msg : String)
  | okEmpty
  | proceed (vertCounts edgeCounts : List ℕ)
deriving DecidableEq, Repr

/-- The `op == "prepare"` branch of `main` in `main.cpp`: field presence
checks in source order, then both count arrays are parsed — with the
`bool` result of `parse_uint_array` **discarded**, exactly as in the
source — then the `num_objects == 0` early success, then the
`edge_counts` size check. -/
def handle_prepare (shm_verts shm_edges vert_counts_field edge_counts_field :
    Option String) : PrepareOutcome :=
  match shm_verts with
  | none => .errResponse "missing shm_verts"
  | some _ =>
  match shm_edges with
  | none => .errResponse "missing shm_edges"
  | some _ =>
  match vert_counts_field with
  | none => .errResponse "missing vert_counts"
  | some vf =>
  match edge_counts_field with
  | none => .errResponse "missing edge_counts"
  | some ef =>
  match parse_uint_array vf with
  | none => .errResponse "stoul out of range"
  | some (_okV, vertCounts) =>
  match parse_uint_array ef with
  | none => .errResponse "stoul out of range"
  | some (_okE, edgeCounts) =>
  if vertCounts.length = 0 then .okEmpty
  else if ¬ edgeCounts.length = vertCounts.length then
    .errResponse "edge_counts size mismatch"
  else .proceed vertCounts edgeCounts

/-- C7: a `prepare` request whose `vert_counts` field is present but is not
an array at all — `parse_uint_array` reports `false` (malformed) and leaves
`out` empty — is answered with the **success** response with empty
`rots`/`trans`, not with an error: the source discards the parser's return
value, so the malformed array behaves like an empty batch. -/
theorem handle_prepare_malformed_vert_counts :
    parse_uint_array "\"notanarray\"" = some (false, []) ∧
      handle_prepare (some "v") (some "e") (some "\"notanarray\"") (some "[1]") =
        PrepareOutcome.okEmpty := by
  constructor
  · rfl
  · rfl

/-- C9: a `prepare` request whose `vert_counts` is the empty array is
answered with the empty success response before the `edge_counts` length
check runs — whatever `edge_counts` parses to (any count list, in
particular a non-empty one), the outcome is never the size-mismatch
error. -/
theorem handle_prepare_empty_vert_counts (sv se ef : String)
    (hef : parse_uint_array ef ≠ none) :
    handle_prepare (some sv) (some se) (some "[]") (some ef) =
      PrepareOutcome.okEmpty := by
  have hv : parse_uint_array "[]" = some (true, []) := rfl
  unfold handle_prepare
  dsimp only
  rw [hv]
  match hef2 : parse_uint_array ef with
  | none => exact absurd hef2 hef
  | some (okE, edgeCounts) => rfl

/-- Witness for C9 at a concrete request: `vert_counts = []`,
`edge_counts = [3]` (non-empty). -/
theorem handle_prepare_empty_vert_counts_witness :
    parse_uint_array "[3]" ≠ none ∧
      handle_prepare (some "v") (some "e") (some "[]") (some "[3]") =
        PrepareOutcome.okEmpty := by
  have h3 : parse_uint_array "[3]" = some (true, [3]) := rfl
  have hne : parse_uint_array "[3]" ≠ none := by simp [h3]
  exact ⟨hne, handle_prepare_empty_vert_counts "v" "e" "[3]" hne⟩

/-! ## 2-D convex hull

The repository only carries a stub and declarations of `convex_hull_2D`
(`chull.cpp` prints sizes; `geo2d.h` declares the overloads used by
`analysis.cpp`, `bounds.cpp` and `engine.cpp`); the hull construction
itself is not under `src/`.  It is modelled from the spec below. -/

/-- Strict lexicographic order on points (x first, then y). -/
def lexLt (a b : Vec2) : Prop := a.x < b.x ∨ (a.x = b.x ∧ a.y < b.y)

/-- Non-strict lexicographic order on points. -/
def lexLe (a b : Vec2) : Prop := a.x < b.x ∨ (a.x = b.x ∧ a.y ≤ b.y)

instance : DecidableRel lexLt := fun a b => by unfold lexLt; infer_instance

instance : DecidableRel lexLe := fun a b => by unfold lexLe; infer_instance

/-- Cross product of `b - o` and `c - o`: positive iff `o → b → c` is a
counter-clockwise turn. -/
def cross3 (o b c : Vec2) : ℚ := (b.x - o.x) * (c.y - o.y) - (b.y - o.y) * (c.x - o.x)

/-- Pop chain points that do not keep the chain strictly convex when `p` is
appended.  The chain is kept as a stack, head = most recently kept point. -/
def popBad (p : Vec2) : List Vec2 → List Vec2
  | b :: a :: rest => if cross3 a b p ≤ 0 then popBad p (a :: rest) else b :: a :: rest
  | l => l

/-- One monotone chain: fold the (sorted) points, popping then pushing. -/
def buildChain (pts : List Vec2) : List Vec2 :=
  pts.foldl (fun chain p => p :: popBad p chain) []

/-- Sort lexicographically and remove duplicate points. -/
def sortedDedup (pts : List Vec2) : List Vec2 :=
  (pts.insertionSort lexLe).dedup

/-- Modelled from the spec: the missing `convex_hull_2D` overloads
(declared in `geo2d.h`, stubbed in `chull.cpp`).  Spec §4.3: "Standard
planar hull construction (e.g., monotone chain): sort points
lexicographically, build lower and upper chains discarding points that do
not keep the chain convex, concatenate.  Degenerate inputs (<3 distinct
points) yield a degenerate hull (the distinct points themselves)."  The
result is counter-clockwise; each chain drops its last point before
concatenation so the shared endpoints are not duplicated. -/
def convex_hull_2D (pts : List Vec2) : List Vec2 :=
  let sorted := sortedDedup pts
  if sorted.length < 3 then sorted
  else
    let lower := (buildChain sorted).reverse
    let upper := (buildChain sorted.reverse).reverse
    lower.dropLast ++ upper.dropLast

/-! ## Slice mass-property estimator — `analysis.cpp` -/

/-- The `1e-8f` tolerance used by `build_slice_islands` (`EPS` and the
near-horizontal test share the constant). -/
def slice_EPS : ℚ := 1 / 100000000

/-- `A_inside` / `B_inside` of `build_slice_islands`: within the slice's
z-interval widened by `EPS` on both sides. -/
def z_inside (z_lower z_upper z : ℚ) : Bool :=
  decide (z_lower - slice_EPS ≤ z) && decide (z ≤ z_upper + slice_EPS)

/-- Parametric intersection of an edge with the horizontal plane `z = zp`. -/
def intersect_at (zp zA zB : ℚ) (A_xy B_xy : Vec2) : Vec2 :=
  let d := zB - zA
  let t := (zp - zA) / d
  ⟨A_xy.x + (B_xy.x - A_xy.x) * t, A_xy.y + (B_xy.y - A_xy.y) * t⟩

/-- The per-edge slice-plane intersection points contributed by one edge in
`build_slice_islands` (the body of its placement loop; the counting loop
computes the length of this list). -/
def edge_contrib (z_lower z_upper zA zB : ℚ) (A_xy B_xy : Vec2) : List Vec2 :=
  if |zB - zA| < slice_EPS then []
  else
    let A_in := z_inside z_lower z_upper zA
    let B_in := z_inside z_lower z_upper zB
    if A_in = false ∧ B_in = false then
      (if (zA - z_lower) * (zB - z_lower) < 0 then [intersect_at z_lower zA zB A_xy B_xy]
        else []) ++
      (if (zA - z_upper) * (zB - z_upper) < 0 then [intersect_at z_upper zA zB A_xy B_xy]
        else [])
    else if A_in ≠ B_in then
      if (zA - z_lower) * (zB - z_lower) < 0 then [intersect_at z_lower zA zB A_xy B_xy]
      else if (zA - z_upper) * (zB - z_upper) < 0 then [intersect_at z_upper zA zB A_xy B_xy]
      else []
    else []

/-- `std::unique` on an already sorted run: drop equal consecutive points. -/
def unique_consecutive : List Vec2 → List Vec2
  | [] => []
  | [a] => [a]
  | a :: b :: rest =>
    if a = b then unique_consecutive (a :: rest) else a :: unique_consecutive (b :: rest)
termination_by l => l.length

/-- `build_slice_islands` from `analysis.cpp`: group the slice's vertices
and edge-plane intersection points by global component id, then hull each
component's point set.  The source places points into one contiguous array
bucketed per component (a counting pass then a placement pass); the
embedding builds each component's bucket directly — same points, same
order: the slice's vertices first (in `slice_verts` order), then the edge
contributions (in `slice_edge_indices` order). -/
instance : Inhabited uVec2i := ⟨⟨0, 0⟩⟩

def build_slice_islands (vert_xy : List Vec2) (vert_z : List ℚ) (edges : List uVec2i)
    (slice_edge_indices : List ℕ) (z_lower z_upper : ℚ) (slice_verts : List ℕ)
    (vertex_comp : List ℕ) (cid_to_index : List ℕ) (num_components : ℕ) :
    List (List Vec2) :=
  if slice_edge_indices = [] then []
  else
    (List.range num_components).filterMap (fun idx =>
      let vertPts := (slice_verts.filter
          (fun vid => cid_to_index.getD (vertex_comp.getD vid 0) 0 = idx)).map
          (fun vid => vert_xy.getD vid default)
      let edgePts := (slice_edge_indices.filter
          (fun ei => cid_to_index.getD (vertex_comp.getD (edges.getD ei default).x 0) 0
            = idx)).flatMap
          (fun ei =>
            let e := edges.getD ei default
            edge_contrib z_lower z_upper (vert_z.getD e.x 0) (vert_z.getD e.y 0)
              (vert_xy.getD e.x default) (vert_xy.getD e.y default))
      let pts := vertPts ++ edgePts
      if pts.length < 3 then none
      else
        let uniq := unique_consecutive (pts.insertionSort lexLe)
        if uniq.length < 3 then none
        else
          let ch := convex_hull_2D uniq
          if ch = [] then none else some ch)

/-- `calc_cog_area` (`PolyData`) from `analysis.cpp`: shoelace signed area
and centroid, with the vertex-average fallback for near-zero area. -/
def calc_cog_area (vertices : List Vec2) : Vec2 × ℚ :=
  if vertices.length < 3 then (⟨0, 0⟩, 0)
  else
    let n := vertices.length
    let acc := (List.range n).foldl
      (fun (st : ℚ × ℚ × ℚ) i =>
        let p0 := vertices.getD i default
        let p1 := vertices.getD ((i + 1) % n) default
        let crossTerm := p0.x * p1.y - p1.x * p0.y
        (st.1 + crossTerm, st.2.1 + (p0.x + p1.x) * crossTerm,
          st.2.2 + (p0.y + p1.y) * crossTerm))
      (0, 0, 0)
    let signedArea := acc.1 * (1 / 2)
    if |signedArea| < 1 / 1000000000 then
      (⟨(vertices.foldl (fun a p => a + p.x) 0) / n,
        (vertices.foldl (fun a p => a + p.y) 0) / n⟩, |signedArea|)
    else
      (⟨acc.2.1 / (6 * signedArea), acc.2.2 / (6 * signedArea)⟩, |signedArea|)

/-- `bucket_edges_per_slice` from `analysis.cpp`: each edge is pushed into
every slice of the inclusive index range its z-span overlaps. -/
def bucket_edges_per_slice (edges : List uVec2i) (vert_z : List ℚ) (z0 slice_height : ℚ)
    (slice_count : ℕ) : List (List ℕ) :=
  (List.range edges.length).foldl
    (fun slice_edges ei =>
      let e := edges.getD ei default
      let zA := vert_z.getD e.x 0
      let zB := vert_z.getD e.y 0
      let zmin := min zA zB
      let zmax := max zA zB
      if zmax ≤ z0 ∨ zmin ≥ z0 + slice_height * slice_count then slice_edges
      else
        let first : ℤ := ⌈(zmin - z0) / slice_height⌉
        let last : ℤ := ⌊(zmax - z0) / slice_height⌋
        if first > last then slice_edges
        else if last < 0 ∨ first ≥ (slice_count : ℤ) then slice_edges
        else
          let first' := max first 0
          let last' := min last ((slice_count : ℤ) - 1)
          (List.range (last' - first' + 1).toNat).foldl
            (fun se k =>
              let si := first'.toNat + k
              se.set si (se.getD si [] ++ [ei]))
            slice_edges)
    (List.replicate slice_count [])

/-- `uf_find` with path compression, fuelled (the C++ recursion terminates
because the parent forest is acyclic; the fuel is the vertex count, enough
for any acyclic parent chain). -/
def uf_find : ℕ → List ℕ → ℕ → (List ℕ × ℕ)
  | 0, parent, x => (parent, x)
  | fuel + 1, parent, x =>
    let px := parent.getD x x
    if px = x then (parent, x)
    else
      let pr := uf_find fuel parent px
      (pr.1.set x pr.2, pr.2)

/-- `uf_unite` with union by rank, as in `calc_cog_volume_edges_intersections`. -/
def uf_unite (fuel : ℕ) (pr : List ℕ × List ℕ) (a b : ℕ) : List ℕ × List ℕ :=
  let f1 := uf_find fuel pr.1 a
  let f2 := uf_find fuel f1.1 b
  let ra := f1.2
  let rb := f2.2
  if ra = rb then (f2.1, pr.2)
  else
    let xy := if pr.2.getD ra 0 < pr.2.getD rb 0 then (rb, ra) else (ra, rb)
    let parent3 := f2.1.set xy.2 xy.1
    let rank3 := if pr.2.getD xy.1 0 = pr.2.getD xy.2 0 then
        pr.2.set xy.1 (pr.2.getD xy.1 0 + 1)
      else pr.2
    (parent3, rank3)

/-- Per-slice record (`struct Slice` of `analysis.cpp`; the `vert_indices`
member is unused by the driver and omitted).  `std::vector<Slice>
slices(slice_count)` value-initialises, so `cog`/`area` start at zero. -/
structure Slice where
  chulls : List (List Vec2)
  z_upper : ℚ
  z_lower : ℚ
  cog : Vec2
  area : ℚ
deriving Repr

/-- The slice construction and per-slice processing of
`calc_cog_volume_edges_intersections` (everything between the guards and
the final aggregation), returning the processed slices.  The component-id
remapping iterates the distinct roots in first-occurrence order (the
source iterates an `unordered_set`, whose order is unspecified; the choice
does not affect any slice's point buckets, only their relative order). -/
def calc_cog_slices (verts : List Vec3) (edges : List uVec2i) (full_box : BoundingBox3D)
    (slice_height : ℚ) : List Slice :=
  let vertCount := verts.length
  let vert_z := verts.map Vec3.z
  let vert_xy := verts.map (fun v => (⟨v.x, v.y⟩ : Vec2))
  let total_h := full_box.max_corner.z - full_box.min_corner.z
  let raw_count := ⌈total_h / slice_height⌉₊
  let slice_count := min raw_count 255
  let slice_edges := bucket_edges_per_slice edges vert_z full_box.min_corner.z
    slice_height slice_count
  let uf0 : List ℕ × List ℕ := (List.range vertCount, List.replicate vertCount 0)
  let uf1 := edges.foldl (fun pr e => uf_unite vertCount pr e.x e.y) uf0
  let slice_vertices := (List.range vertCount).foldl
    (fun sv vid =>
      let z := vert_z.getD vid 0
      if z < full_box.min_corner.z ∨ z > full_box.max_corner.z then sv
      else
        let si : ℤ := ⌊(z - full_box.min_corner.z) / slice_height⌋
        if 0 ≤ si ∧ si < (slice_count : ℤ) then
          sv.set si.toNat (sv.getD si.toNat [] ++ [vid])
        else sv)
    (List.replicate slice_count [])
  let comp := (List.range vertCount).foldl
    (fun (st : List ℕ × List ℕ) i =>
      let f := uf_find vertCount st.1 i
      (f.1, st.2 ++ [f.2]))
    (uf1.1, [])
  let vertex_comp := comp.2
  let unique_cids := vertex_comp.dedup
  let num_components := unique_cids.length
  let max_cid := vertex_comp.foldl max 0
  let cid_to_index := (List.range (max_cid + 1)).map (fun cid => unique_cids.indexOf cid)
  (List.range slice_count).map (fun (si : ℕ) =>
    let z_lower := full_box.min_corner.z + (si : ℚ) * slice_height
    let z_upper := min full_box.max_corner.z (z_lower + slice_height)
    let se := slice_edges.getD si []
    if se = [] then
      { chulls := [], z_lower := z_lower, z_upper := z_upper, cog := ⟨0, 0⟩, area := 0 }
    else
      let chulls := build_slice_islands vert_xy vert_z edges se z_lower z_upper
        (slice_vertices.getD si []) vertex_comp cid_to_index num_components
      let agg := chulls.foldl
        (fun (st : Vec2 × ℚ) h =>
          let pd := calc_cog_area h
          if pd.2 ≤ 0 then st
          else (⟨st.1.x + pd.1.x * pd.2, st.1.y + pd.1.y * pd.2⟩, st.2 + pd.2))
        (⟨0, 0⟩, 0)
      let cog := if 0 < agg.2 then (⟨agg.1.x / agg.2, agg.1.y / agg.2⟩ : Vec2) else agg.1
      { chulls := chulls, z_lower := z_lower, z_upper := z_upper, cog := cog,
        area := agg.2 })

/-- `calc_cog_volume_edges_intersections` from `analysis.cpp` (driver):
guards, then slice processing, then the area-weighted aggregation. -/
def calc_cog_volume_edges_intersections (verts : List Vec3) (edges : List uVec2i)
    (full_box : BoundingBox3D) (slice_height : ℚ) : Vec3 :=
  if verts = [] ∨ edges = [] ∨ slice_height ≤ 0 then ⟨0, 0, 0⟩
  else
    let total_h := full_box.max_corner.z - full_box.min_corner.z
    if total_h ≤ 0 then ⟨0, 0, full_box.min_corner.z⟩
    else
      let slices := calc_cog_slices verts edges full_box slice_height
      let agg := slices.foldl
        (fun (st : ℚ × ℚ × ℚ × ℚ) sl =>
          (st.1 + sl.cog.x * sl.area, st.2.1 + sl.cog.y * sl.area,
            st.2.2.1 + (sl.z_lower + sl.z_upper) * (1 / 2) * sl.area,
            st.2.2.2 + sl.area))
        (0, 0, 0, 0)
      if 0 < agg.2.2.2 then
        ⟨agg.1 / agg.2.2.2, agg.2.1 / agg.2.2.2, agg.2.2.1 / agg.2.2.2⟩
      else ⟨agg.1, agg.2.1, agg.2.2.1⟩

/-! ## Claims C3, C10, C5, C8 -/

theorem edge_contrib_unfold (z_lower z_upper zA zB : ℚ) (A_xy B_xy : Vec2)
    (hd : ¬ |zB - zA| < slice_EPS) :
    edge_contrib z_lower z_upper zA zB A_xy B_xy =
      (if z_inside z_lower z_upper zA = false ∧ z_inside z_lower z_upper zB = false then
        (if (zA - z_lower) * (zB - z_lower) < 0 then [intersect_at z_lower zA zB A_xy B_xy]
          else []) ++
        (if (zA - z_upper) * (zB - z_upper) < 0 then [intersect_at z_upper zA zB A_xy B_xy]
          else [])
      else if z_inside z_lower z_upper zA ≠ z_inside z_lower z_upper zB then
        if (zA - z_lower) * (zB - z_lower) < 0 then [intersect_at z_lower zA zB A_xy B_xy]
        else if (zA - z_upper) * (zB - z_upper) < 0 then
          [intersect_at z_upper zA zB A_xy B_xy]
        else []
      else []) := by
  unfold edge_contrib
  rw [if_neg hd]

/-- C3, counterexample: an edge whose endpoint `zA = 0` lies exactly on the
lower slice plane of the slice `[0, 1]` — hence counts as inside — with the
other endpoint at `z = -1` outside: exactly one endpoint is inside, yet the
edge contributes **no** boundary-crossing point (the strict sign test
`(zA - z_lower) * (zB - z_lower) < 0` fails at `0`). -/
theorem edge_contrib_one_inside_no_point :
    z_inside 0 1 0 = true ∧ z_inside 0 1 (-1) = false ∧
      edge_contrib 0 1 0 (-1) ⟨0, 0⟩ ⟨1, 1⟩ = [] ∧
      ¬ (edge_contrib 0 1 0 (-1) ⟨0, 0⟩ ⟨1, 1⟩).length = 1 := by
  have hA : z_inside 0 1 0 = true := by norm_num [z_inside, slice_EPS]
  have hB : z_inside 0 1 (-1) = false := by norm_num [z_inside, slice_EPS]
  have hd : ¬ |(-1 : ℚ) - 0| < slice_EPS := by norm_num [slice_EPS]
  have he : edge_contrib 0 1 0 (-1) ⟨0, 0⟩ ⟨1, 1⟩ = [] := by
    rw [edge_contrib_unfold _ _ _ _ _ _ hd, hA, hB]
    norm_num
  exact ⟨hA, hB, he, by rw [he]; simp⟩

/-- C3, amended: for a non-near-horizontal edge bucketed into a slice:
both endpoints outside ⇒ one point per strictly crossed plane (at most
two); exactly one endpoint inside ⇒ **at most** one point, and none
exactly when the endpoints' z values strictly straddle neither plane
(e.g. the inside endpoint lies on a plane or within the EPS tolerance band
beyond it); both endpoints inside ⇒ no extra points. -/
theorem edge_contrib_cases (z_lower z_upper zA zB : ℚ) (A_xy B_xy : Vec2)
    (hd : ¬ |zB - zA| < slice_EPS) :
    (z_inside z_lower z_upper zA = false ∧ z_inside z_lower z_upper zB = false →
      edge_contrib z_lower z_upper zA zB A_xy B_xy =
        (if (zA - z_lower) * (zB - z_lower) < 0 then [intersect_at z_lower zA zB A_xy B_xy]
          else []) ++
        (if (zA - z_upper) * (zB - z_upper) < 0 then [intersect_at z_upper zA zB A_xy B_xy]
          else []) ∧
      (edge_contrib z_lower z_upper zA zB A_xy B_xy).length ≤ 2) ∧
    (¬ z_inside z_lower z_upper zA = z_inside z_lower z_upper zB →
      (edge_contrib z_lower z_upper zA zB A_xy B_xy).length ≤ 1 ∧
      (edge_contrib z_lower z_upper zA zB A_xy B_xy = [] ↔
        ¬ (zA - z_lower) * (zB - z_lower) < 0 ∧ ¬ (zA - z_upper) * (zB - z_upper) < 0)) ∧
    (z_inside z_lower z_upper zA = true ∧ z_inside z_lower z_upper zB = true →
      edge_contrib z_lower z_upper zA zB A_xy B_xy = []) := by
  rw [edge_contrib_unfold _ _ _ _ _ _ hd]
  refine ⟨fun hout => ?_, fun hne => ?_, fun hin => ?_⟩
  · rw [if_pos hout]
    refine ⟨rfl, ?_⟩
    split_ifs <;> simp
  · have hnot : ¬ (z_inside z_lower z_upper zA = false ∧
        z_inside z_lower z_upper zB = false) := by
      rintro ⟨ha, hb⟩
      exact hne (ha.trans hb.symm)
    rw [if_neg hnot, if_pos hne]
    constructor
    · split_ifs <;> simp
    · split_ifs with h1 h2 <;> simp [*]
  · rw [if_neg (by simp [hin.1]), if_neg (by simp [hin.1, hin.2])]

/-- Witness for C3's amended theorem: the edge from `z = -1` to `z = 2`
through the slice `[0, 1]` (both endpoints outside) contributes exactly
its two plane crossings. -/
theorem edge_contrib_cases_witness :
    ¬ |(2 : ℚ) - (-1)| < slice_EPS ∧
      edge_contrib 0 1 (-1) 2 ⟨0, 0⟩ ⟨1, 1⟩ =
        [intersect_at 0 (-1) 2 ⟨0, 0⟩ ⟨1, 1⟩, intersect_at 1 (-1) 2 ⟨0, 0⟩ ⟨1, 1⟩] := by
  have hd : ¬ |(2 : ℚ) - (-1)| < slice_EPS := by norm_num [slice_EPS]
  refine ⟨hd, ?_⟩
  have hout : z_inside 0 1 (-1) = false ∧ z_inside 0 1 2 = false := by
    norm_num [z_inside, slice_EPS]
  have h := ((edge_contrib_cases 0 1 (-1) 2 ⟨0, 0⟩ ⟨1, 1⟩ hd).1 hout).1
  rw [h, if_pos (by norm_num), if_pos (by norm_num)]
  rfl

/-- C10: a near-horizontal edge (z-span smaller than `1e-8`) contributes no
slice-plane intersection points at all, and appending such an edge to a
slice's (non-empty) edge bucket leaves every component's hull list of
`build_slice_islands` unchanged. -/
theorem near_horizontal_edge_no_points (z_lower z_upper zA zB : ℚ) (A_xy B_xy : Vec2)
    (vert_xy : List Vec2) (vert_z : List ℚ) (edges : List uVec2i) (sei : List ℕ)
    (slice_verts vertex_comp cid_to_index : List ℕ) (num_components : ℕ) (ei : ℕ)
    (hz : |zB - zA| < slice_EPS)
    (hz2 : |vert_z.getD (edges.getD ei default).y 0 -
      vert_z.getD (edges.getD ei default).x 0| < slice_EPS)
    (hne : sei ≠ []) :
    edge_contrib z_lower z_upper zA zB A_xy B_xy = [] ∧
      build_slice_islands vert_xy vert_z edges (sei ++ [ei]) z_lower z_upper slice_verts
          vertex_comp cid_to_index num_components =
        build_slice_islands vert_xy vert_z edges sei z_lower z_upper slice_verts
          vertex_comp cid_to_index num_components := by
  constructor
  · unfold edge_contrib
    rw [if_pos hz]
  · have hcontrib : edge_contrib z_lower z_upper
        (vert_z.getD (edges.getD ei default).x 0) (vert_z.getD (edges.getD ei default).y 0)
        (vert_xy.getD (edges.getD ei default).x default)
        (vert_xy.getD (edges.getD ei default).y default) = [] := by
      unfold edge_contrib
      rw [if_pos hz2]
    unfold build_slice_islands
    rw [if_neg (by simp), if_neg hne]
    congr 1
    funext idx
    have heq : (List.filter
        (fun e2 => decide (cid_to_index.getD (vertex_comp.getD (edges.getD e2 default).x 0) 0
          = idx)) (sei ++ [ei])).flatMap
        (fun e2 =>
          let e := edges.getD e2 default
          edge_contrib z_lower z_upper (vert_z.getD e.x 0) (vert_z.getD e.y 0)
            (vert_xy.getD e.x default) (vert_xy.getD e.y default)) =
      (List.filter
        (fun e2 => decide (cid_to_index.getD (vertex_comp.getD (edges.getD e2 default).x 0) 0
          = idx)) sei).flatMap
        (fun e2 =>
          let e := edges.getD e2 default
          edge_contrib z_lower z_upper (vert_z.getD e.x 0) (vert_z.getD e.y 0)
            (vert_xy.getD e.x default) (vert_xy.getD e.y default)) := by
      rw [List.filter_append, List.flatMap_append, List.filter_singleton]
      by_cases hkeep : cid_to_index.getD (vertex_comp.getD (edges.getD ei default).x 0) 0
          = idx
      · simp only [decide_eq_true hkeep, cond_true, List.flatMap_cons, List.flatMap_nil,
          List.append_nil]
        rw [hcontrib, List.append_nil]
      · simp only [decide_eq_false hkeep, cond_false, List.flatMap_nil, List.append_nil]
    rw [heq]

/-- Witness for C10 on a concrete slice: one genuine edge plus a
near-horizontal duplicate of it in the bucket. -/
theorem near_horizontal_edge_no_points_witness :
    edge_contrib 0 1 (1/2) (1/2 + 1/300000000) ⟨0, 0⟩ ⟨1, 1⟩ = [] ∧
      build_slice_islands [⟨0, 0⟩] [0] [⟨0, 0⟩] ([0] ++ [0]) 0 1 [0] [0] [0] 1 =
        build_slice_islands [⟨0, 0⟩] [0] [⟨0, 0⟩] [0] 0 1 [0] [0] [0] 1 := by
  exact near_horizontal_edge_no_points 0 1 (1/2) (1/2 + 1/300000000) ⟨0, 0⟩ ⟨1, 1⟩
    [⟨0, 0⟩] [0] [⟨0, 0⟩] [0] [0] [0] [0] 1 0
    (by norm_num [slice_EPS, abs_lt]) (by norm_num [List.getD, slice_EPS, abs_lt]) (by simp)

/-- C5, counterexample: a zero-height box with a non-zero minimum corner.
The degenerate return is `(0, 0, min_corner.z)`, which is neither the
object's minimum corner nor the zero vector. -/
theorem calc_cog_zero_height_value :
    calc_cog_volume_edges_intersections [⟨1, 2, 3⟩] [⟨0, 0⟩] ⟨⟨1, 2, 3⟩, ⟨1, 2, 3⟩⟩ 1 =
        ⟨0, 0, 3⟩ ∧
      (⟨0, 0, 3⟩ : Vec3) ≠ ⟨1, 2, 3⟩ ∧ (⟨0, 0, 3⟩ : Vec3) ≠ ⟨0, 0, 0⟩ := by
  refine ⟨?_, by simp, by simp⟩
  unfold calc_cog_volume_edges_intersections
  rw [if_neg (by norm_num), if_pos (by norm_num)]

/-- C5, amended: on every degenerate input the estimator returns a sentinel
and never signals an error — the zero vector for empty vertices, empty
edges or non-positive slice height, and `(0, 0, min_corner.z)` for a
non-positive height span. -/
theorem calc_cog_degenerate (verts : List Vec3) (edges : List uVec2i)
    (full_box : BoundingBox3D) (slice_height : ℚ) :
    (verts = [] ∨ edges = [] ∨ slice_height ≤ 0 →
      calc_cog_volume_edges_intersections verts edges full_box slice_height = ⟨0, 0, 0⟩) ∧
    (¬ (verts = [] ∨ edges = [] ∨ slice_height ≤ 0) →
      full_box.max_corner.z - full_box.min_corner.z ≤ 0 →
      calc_cog_volume_edges_intersections verts edges full_box slice_height =
        ⟨0, 0, full_box.min_corner.z⟩) := by
  constructor
  · intro h
    unfold calc_cog_volume_edges_intersections
    rw [if_pos h]
  · intro h hh
    unfold calc_cog_volume_edges_intersections
    rw [if_neg h]
    simp only [if_pos hh]

/-- Witness for C5's amended theorem: empty input and a flat box. -/
theorem calc_cog_degenerate_witness :
    calc_cog_volume_edges_intersections [] [] ⟨⟨0, 0, 0⟩, ⟨0, 0, 0⟩⟩ 1 = ⟨0, 0, 0⟩ ∧
      calc_cog_volume_edges_intersections [⟨1, 2, 3⟩] [⟨0, 0⟩] ⟨⟨1, 2, 3⟩, ⟨1, 2, 3⟩⟩ 1 =
        ⟨0, 0, 3⟩ := by
  constructor
  · exact (calc_cog_degenerate [] [] ⟨⟨0, 0, 0⟩, ⟨0, 0, 0⟩⟩ 1).1 (Or.inl rfl)
  · exact (calc_cog_degenerate [⟨1, 2, 3⟩] [⟨0, 0⟩] ⟨⟨1, 2, 3⟩, ⟨1, 2, 3⟩⟩ 1).2
      (by norm_num) (by norm_num)

/-- C8: with a positive height span and positive slice height, the number
of slices the estimator creates (and iterates over) is exactly
`min(255, ceil(height span / slice height))`; in particular it never
exceeds 255. -/
theorem calc_cog_slice_count (verts : List Vec3) (edges : List uVec2i)
    (full_box : BoundingBox3D) (slice_height : ℚ)
    (hh : 0 < full_box.max_corner.z - full_box.min_corner.z) (hs : 0 < slice_height) :
    (calc_cog_slices verts edges full_box slice_height).length =
      min 255 ⌈(full_box.max_corner.z - full_box.min_corner.z) / slice_height⌉₊ ∧
    (calc_cog_slices verts edges full_box slice_height).length ≤ 255 := by
  unfold calc_cog_slices
  rw [List.length_map, List.length_range]
  exact ⟨Nat.min_comm _ _, Nat.min_le_right _ _⟩

/-- Witness for C8: a span of 10 sliced at height 3 gives
`min 255 ⌈10/3⌉ = 4` slices. -/
theorem calc_cog_slice_count_witness :
    0 < (10 : ℚ) - 0 ∧ (0 : ℚ) < 3 ∧
      (calc_cog_slices [⟨0, 0, 0⟩] [⟨0, 0⟩] ⟨⟨0, 0, 0⟩, ⟨0, 0, 10⟩⟩ 3).length =
        min 255 ⌈((10 : ℚ) - 0) / 3⌉₊ := by
  refine ⟨by norm_num, by norm_num, ?_⟩
  exact (calc_cog_slice_count [⟨0, 0, 0⟩] [⟨0, 0⟩] ⟨⟨0, 0, 0⟩, ⟨0, 0, 10⟩⟩ 3
    (by norm_num) (by norm_num)).1

/-! ## Minimum bounding box — `engine.cpp` `calc_rot_to_forward`,
`bounds.cpp` `rotate_points_2D` / `compute_aabb_2D` / `get_edge_angles_2D`

The float calls `std::cos`, `std::sin`, `std::atan2` are embedded as
arbitrary rational-valued oracles (`cosf`, `sinf`, `atan2f`): every theorem
below holds for every choice of oracle, so nothing depends on trigonometric
identities. -/

/-- `FLT_MAX`, the value of `std::numeric_limits<float>::max()` used by the
default `BoundingBox2D` constructor. -/
def flt_max : ℚ := 2 ^ 128 - 2 ^ 104

/-- `BoundingBox2D` from `geo2d.h`; the default constructor sets
`area = FLT_MAX` and `rotation_angle = 0`. -/
structure BoundingBox2D where
  min_corner : Vec2
  max_corner : Vec2
  area : ℚ
  rotation_angle : ℚ
deriving DecidableEq, Repr

instance : Inhabited BoundingBox2D := ⟨⟨⟨0, 0⟩, ⟨0, 0⟩, flt_max, 0⟩⟩

/-- `rotate_points_2D` from `bounds.cpp`, with the trig oracle. -/
def rotate_points_2D (cosf sinf : ℚ → ℚ) (points : List Vec2) (angle : ℚ) : List Vec2 :=
  points.map (fun p =>
    ⟨p.x * cosf angle - p.y * sinf angle, p.x * sinf angle + p.y * cosf angle⟩)

/-- `compute_aabb_2D` from `bounds.cpp`: empty input returns the
default-constructed box; otherwise min/max fold with
`area = (max_x - min_x) * (max_y - min_y)`. -/
def compute_aabb_2D (points : List Vec2) (rotation_angle : ℚ) : BoundingBox2D :=
  match points with
  | [] => default
  | p :: _ =>
    let min_x := points.foldl (fun m q => min m q.x) p.x
    let max_x := points.foldl (fun m q => max m q.x) p.x
    let min_y := points.foldl (fun m q => min m q.y) p.y
    let max_y := points.foldl (fun m q => max m q.y) p.y
    ⟨⟨min_x, min_y⟩, ⟨max_x, max_y⟩, (max_x - min_x) * (max_y - min_y), rotation_angle⟩

/-- `get_edge_angles_2D` from `bounds.cpp`: the direction angle of every
non-degenerate hull edge (`length_squared > 1e-8`), in hull-edge order. -/
def get_edge_angles_2D (atan2f : ℚ → ℚ → ℚ) (hull : List Vec2) : List ℚ :=
  (List.range hull.length).filterMap (fun i =>
    let next := (i + 1) % hull.length
    let edge := hull.getD next default - hull.getD i default
    if edge.length_squared > 1 / 100000000 then some (atan2f edge.y edge.x) else none)

/-- The candidate box tested by one loop iteration of `calc_rot_to_forward`
(`engine.cpp`): the axis-aligned box of the hull rotated by the negative of
the edge angle, stamped with that rotation. -/
def candidate_box (cosf sinf : ℚ → ℚ) (hull : List Vec2) (angle : ℚ) : BoundingBox2D :=
  { compute_aabb_2D (rotate_points_2D cosf sinf hull (-angle)) 0 with
      rotation_angle := -angle }

/-- The strict-improvement selection step of the loop
(`if (box.area < best_box.area) best_box = box`).  The C++ starts from a
sentinel with `area = infinity`, which every (finite) candidate beats;
`none` plays that role here, so the first candidate always replaces it. -/
def best_box_step (best : Option BoundingBox2D) (box : BoundingBox2D) :
    Option BoundingBox2D :=
  match best with
  | none => some box
  | some b => if box.area < b.area then some box else some b

/-- The selection loop of `calc_rot_to_forward` over all edge angles. -/
def calc_rot_to_forward_best (cosf sinf : ℚ → ℚ) (atan2f : ℚ → ℚ → ℚ)
    (hull : List Vec2) : Option BoundingBox2D :=
  (get_edge_angles_2D atan2f hull).foldl
    (fun best angle => best_box_step best (candidate_box cosf sinf hull angle)) none

/-- `calc_rot_to_forward` from `engine.cpp`: the winning rotation angle
(0 — the default box's rotation — when no candidate exists). -/
def calc_rot_to_forward (cosf sinf : ℚ → ℚ) (atan2f : ℚ → ℚ → ℚ)
    (hull : List Vec2) : ℚ :=
  match calc_rot_to_forward_best cosf sinf atan2f hull with
  | none => 0
  | some b => b.rotation_angle

theorem best_box_fold_first_min (b : BoundingBox2D) (l : List BoundingBox2D) :
    ∃ c, l.foldl best_box_step (some b) = some c ∧
      ((c = b ∧ ∀ k, k < l.length → b.area ≤ (l.getD k default).area) ∨
        (∃ i, i < l.length ∧ c = l.getD i default ∧ c.area < b.area ∧
          (∀ k, k < l.length → c.area ≤ (l.getD k default).area) ∧
          (∀ k, k < i → c.area < (l.getD k default).area))) := by
  induction l generalizing b with
  | nil => exact ⟨b, rfl, Or.inl ⟨rfl, fun k hk => absurd hk (by simp)⟩⟩
  | cons x xs ih =>
    rw [List.foldl_cons]
    by_cases hx : x.area < b.area
    · have hstep : best_box_step (some b) x = some x := by
        show (if x.area < b.area then some x else some b) = some x
        rw [if_pos hx]
      rw [hstep]
      obtain ⟨c, hc, hcase⟩ := ih x
      refine ⟨c, hc, Or.inr ?_⟩
      rcases hcase with ⟨rfl, hall⟩ | ⟨i, hi, hci, hlt, hall, hfirst⟩
      · refine ⟨0, by simp, by simp, hx, ?_, by simp⟩
        intro k hk
        match k with
        | 0 => simp
        | k + 1 =>
          rw [List.getD_cons_succ]
          exact hall k (by simpa using hk)
      · refine ⟨i + 1, by simpa using hi, by simpa using hci, hlt.trans hx, ?_, ?_⟩
        · intro k hk
          match k with
          | 0 => simpa using hlt.le
          | k + 1 =>
            rw [List.getD_cons_succ]
            exact hall k (by simpa using hk)
        · intro k hk
          match k with
          | 0 => simpa using hlt
          | k + 1 =>
            rw [List.getD_cons_succ]
            exact hfirst k (by simpa using hk)
    · have hstep : best_box_step (some b) x = some b := by
        show (if x.area < b.area then some x else some b) = some b
        rw [if_neg hx]
      rw [hstep]
      obtain ⟨c, hc, hcase⟩ := ih b
      refine ⟨c, hc, ?_⟩
      rcases hcase with ⟨rfl, hall⟩ | ⟨i, hi, hci, hlt, hall, hfirst⟩
      · refine Or.inl ⟨rfl, ?_⟩
        intro k hk
        match k with
        | 0 => simpa using le_of_not_lt hx
        | k + 1 =>
          rw [List.getD_cons_succ]
          exact hall k (by simpa using hk)
      · refine Or.inr ⟨i + 1, by simpa using hi, by simpa using hci, hlt, ?_, ?_⟩
        · intro k hk
          match k with
          | 0 => simpa using (hlt.trans_le (le_of_not_lt hx)).le
          | k + 1 =>
            rw [List.getD_cons_succ]
            exact hall k (by simpa using hk)
        · intro k hk
          match k with
          | 0 => simpa using hlt.trans_le (le_of_not_lt hx)
          | k + 1 =>
            rw [List.getD_cons_succ]
            exact hfirst k (by simpa using hk)

theorem best_box_fold_spec (l : List BoundingBox2D) (hne : l ≠ []) :
    ∃ i, i < l.length ∧ l.foldl best_box_step none = some (l.getD i default) ∧
      (∀ k, k < l.length → (l.getD i default).area ≤ (l.getD k default).area) ∧
      (∀ k, k < i → (l.getD i default).area < (l.getD k default).area) := by
  match l with
  | [] => exact absurd rfl hne
  | x :: xs =>
    rw [List.foldl_cons]
    have hstep : best_box_step none x = some x := rfl
    rw [hstep]
    obtain ⟨c, hc, hcase⟩ := best_box_fold_first_min x xs
    rcases hcase with ⟨rfl, hall⟩ | ⟨i, hi, hci, hlt, hall, hfirst⟩
    · refine ⟨0, by simp, by simpa using hc, ?_, by simp⟩
      intro k hk
      match k with
      | 0 => simp
      | k + 1 =>
        rw [List.getD_cons_succ]
        exact hall k (by simpa using hk)
    · refine ⟨i + 1, by simpa using hi, by rw [hc, List.getD_cons_succ, ← hci], ?_, ?_⟩
      · intro k hk
        rw [List.getD_cons_succ, ← hci]
        match k with
        | 0 => simpa using hlt.le
        | k + 1 =>
          rw [List.getD_cons_succ]
          exact hall k (by simpa using hk)
      · intro k hk
        rw [List.getD_cons_succ, ← hci]
        match k with
        | 0 => simpa using hlt
        | k + 1 =>
          rw [List.getD_cons_succ]
          exact hfirst k (by simpa using hk)

/-- C2: for every hull with at least one non-degenerate edge (and every
trig oracle), the minimum-bounding-box search returns one of the candidate
boxes — the axis-aligned box of the hull rotated by the negative of a hull
edge's direction angle — whose area is ≤ the area of **every** such
candidate, and it is the **first** minimal-area candidate in hull-edge
order (all strictly earlier candidates have strictly larger area); the
returned rotation is that candidate's. -/
theorem calc_rot_to_forward_min_box (cosf sinf : ℚ → ℚ) (atan2f : ℚ → ℚ → ℚ)
    (hull : List Vec2) (hne : get_edge_angles_2D atan2f hull ≠ []) :
    ∃ i, i < (get_edge_angles_2D atan2f hull).length ∧
      calc_rot_to_forward_best cosf sinf atan2f hull =
        some ((((get_edge_angles_2D atan2f hull).map
          (candidate_box cosf sinf hull)).getD i default)) ∧
      (∀ k, k < (get_edge_angles_2D atan2f hull).length →
        (((get_edge_angles_2D atan2f hull).map
          (candidate_box cosf sinf hull)).getD i default).area ≤
        (((get_edge_angles_2D atan2f hull).map
          (candidate_box cosf sinf hull)).getD k default).area) ∧
      (∀ k, k < i →
        (((get_edge_angles_2D atan2f hull).map
          (candidate_box cosf sinf hull)).getD i default).area <
        (((get_edge_angles_2D atan2f hull).map
          (candidate_box cosf sinf hull)).getD k default).area) ∧
      calc_rot_to_forward cosf sinf atan2f hull =
        (((get_edge_angles_2D atan2f hull).map
          (candidate_box cosf sinf hull)).getD i default).rotation_angle := by
  have hfold : calc_rot_to_forward_best cosf sinf atan2f hull =
      ((get_edge_angles_2D atan2f hull).map (candidate_box cosf sinf hull)).foldl
        best_box_step none := by
    unfold calc_rot_to_forward_best
    rw [List.foldl_map]
  have hmapne : (get_edge_angles_2D atan2f hull).map (candidate_box cosf sinf hull) ≠ [] := by
    simpa using hne
  obtain ⟨i, hi, hsome, hall, hfirst⟩ := best_box_fold_spec _ hmapne
  refine ⟨i, by simpa using hi, by rw [hfold]; exact hsome, ?_, ?_, ?_⟩
  · intro k hk
    exact hall k (by simpa using hk)
  · intro k hk
    exact hfirst k hk
  · unfold calc_rot_to_forward
    rw [hfold, hsome]

/-- Witness for C2: a concrete triangle hull with the identity-like oracle
`cos = 1`, `sin = 0`, `atan2 = 0`. -/
theorem calc_rot_to_forward_min_box_witness :
    get_edge_angles_2D (fun _ _ => 0) [⟨0, 0⟩, ⟨1, 0⟩, ⟨0, 1⟩] ≠ [] ∧
      ∃ i, i < (get_edge_angles_2D (fun _ _ => 0) [⟨0, 0⟩, ⟨1, 0⟩, ⟨0, 1⟩]).length ∧
        calc_rot_to_forward_best (fun _ => 1) (fun _ => 0) (fun _ _ => 0)
            [⟨0, 0⟩, ⟨1, 0⟩, ⟨0, 1⟩] =
          some (((get_edge_angles_2D (fun _ _ => 0) [⟨0, 0⟩, ⟨1, 0⟩, ⟨0, 1⟩]).map
            (candidate_box (fun _ => 1) (fun _ => 0) [⟨0, 0⟩, ⟨1, 0⟩, ⟨0, 1⟩])).getD i
              default) := by
  have hne : get_edge_angles_2D (fun _ _ => (0 : ℚ)) [⟨0, 0⟩, ⟨1, 0⟩, ⟨0, 1⟩] ≠ [] := by
    unfold get_edge_angles_2D
    norm_num [List.range, List.range.loop, List.filterMap, List.getD, Vec2.length_squared,
      Vec2.sub_def]
    simp
  obtain ⟨i, hi, hsome, _, _, _⟩ := calc_rot_to_forward_min_box (fun _ => 1) (fun _ => 0)
    (fun _ _ => 0) [⟨0, 0⟩, ⟨1, 0⟩, ⟨0, 1⟩] hne
  exact ⟨hne, i, hi, hsome⟩

/-! ## Wire detector, connected-component pass — `bounds.cpp`, `elim_wires`

The pass at `bounds.cpp:370-415`: a flood fill over the wire-marked
vertices of the current mask; a discovered group is reverted to structural
when it has fewer than 10 members **and** at least one adjacent non-wire
boundary vertex, and kept otherwise (its boundary vertices are recorded
for the regrowth stage, which is outside this pass). -/

/-- The body of the BFS's `for neighbor : adj_verts[idx]` loop: a wire,
unvisited neighbour is marked visited and enqueued; a non-wire neighbour
not yet recorded is appended to `current_bounds`. -/
def wire_bfs_neighbor_step (is_wire : List Bool) (st : List ℕ × List Bool × List ℕ)
    (nb : ℕ) : List ℕ × List Bool × List ℕ :=
  if is_wire.getD nb false = true ∧ ¬ st.2.1.getD nb false = true then
    (st.1 ++ [nb], st.2.1.set nb true, st.2.2)
  else if ¬ is_wire.getD nb false = true ∧ nb ∉ st.2.2 then
    (st.1, st.2.1, st.2.2 ++ [nb])
  else st

/-- The flood-fill's `while (!queue.empty())` loop, fuelled (the C++ loop
terminates because every vertex is enqueued at most once; any fuel above
`2 * vertCount` is enough, as proved below).  Returns
`(group, current_bounds, group_visited)`. -/
def wire_bfs (adj : List (List ℕ)) (is_wire : List Bool) :
    ℕ → List ℕ → List Bool → List ℕ → List ℕ → (List ℕ × List ℕ × List Bool)
  | 0, _queue, visited, group, bounds => (group, bounds, visited)
  | _fuel + 1, [], visited, group, bounds => (group, bounds, visited)
  | fuel + 1, idx :: queue, visited, group, bounds =>
    let st := (adj.getD idx []).foldl (wire_bfs_neighbor_step is_wire)
      (queue, visited, bounds)
    wire_bfs adj is_wire fuel st.1 st.2.1 (group ++ [idx]) st.2.2

/-- One iteration of the outer `for (i : 0..vertCount)` loop of the pass:
state is `(is_wire, group_visited, boundary_indices)`. -/
def elim_wires_cc_step (adj : List (List ℕ)) (st : List Bool × List Bool × List ℕ)
    (i : ℕ) : List Bool × List Bool × List ℕ :=
  if st.1.getD i false = true ∧ ¬ st.2.1.getD i false = true then
    if (wire_bfs adj st.1 (2 * st.1.length + 1) [i] (st.2.1.set i true) [] []).1.length < 10 ∧
        (wire_bfs adj st.1 (2 * st.1.length + 1) [i] (st.2.1.set i true) [] []).2.1 ≠ [] then
      ((wire_bfs adj st.1 (2 * st.1.length + 1) [i] (st.2.1.set i true) [] []).1.foldl
          (fun w idx => w.set idx false) st.1,
        (wire_bfs adj st.1 (2 * st.1.length + 1) [i] (st.2.1.set i true) [] []).2.2, st.2.2)
    else
      (st.1, (wire_bfs adj st.1 (2 * st.1.length + 1) [i] (st.2.1.set i true) [] []).2.2,
        st.2.2 ++ (wire_bfs adj st.1 (2 * st.1.length + 1) [i] (st.2.1.set i true) [] []).2.1)
  else st

/-- The connected-component pass of `elim_wires` (`bounds.cpp:370-415`),
taking the initial wire mask produced by the linearity stage and returning
the pruned mask together with the recorded boundary indices. -/
def elim_wires_cc (adj : List (List ℕ)) (is_wire : List Bool) : List Bool × List ℕ :=
  let st := (List.range is_wire.length).foldl (elim_wires_cc_step adj)
    (is_wire, List.replicate is_wire.length false, [])
  (st.1, st.2.2)

/-- One wire-to-wire adjacency step of a mask `w`. -/
def wire_adj (adj : List (List ℕ)) (w : List Bool) (u v : ℕ) : Prop :=
  w.getD u false = true ∧ w.getD v false = true ∧ v ∈ adj.getD u []

/-- The connected component of `s` in the graph restricted to wire-marked
vertices of mask `w` (reflexive-transitive closure of `wire_adj`). -/
def wire_reach (adj : List (List ℕ)) (w : List Bool) (s u : ℕ) : Prop :=
  Relation.ReflTransGen (wire_adj adj w) s u

/-- One neighbour-expansion step of the executable component computation. -/
def comp_step (adj : List (List ℕ)) (w : List Bool) (S : Finset ℕ) : Finset ℕ :=
  S ∪ S.biUnion (fun u => ((adj.getD u []).filter (fun v => w.getD v false)).toFinset)

/-- Executable connected component: `w.length` expansion steps from `{v}`
(enough to saturate, as proved below). -/
def wire_comp (adj : List (List ℕ)) (w : List Bool) (v : ℕ) : Finset ℕ :=
  Nat.iterate (comp_step adj w) w.length {v}

/-- The component's adjacent non-wire boundary vertices. -/
def wire_bound (adj : List (List ℕ)) (w : List Bool) (v : ℕ) : Finset ℕ :=
  (wire_comp adj w v).biUnion
    (fun u => ((adj.getD u []).filter (fun b => ¬ w.getD b false)).toFinset)

/-- Wellformedness of an adjacency graph over `n` vertices, as guaranteed
by `build_adj_vertices`: `n` sorted, deduplicated neighbour lists with
in-range entries, symmetric because every pair is inserted in both
directions. -/
structure AdjWF (adj : List (List ℕ)) (n : ℕ) : Prop where
  len : adj.length = n
  inRange : ∀ u, u < n → ∀ v ∈ adj.getD u [], v < n
  nodup : ∀ u, u < n → (adj.getD u []).Nodup
  symm : ∀ u, u < n → ∀ v, v < n → v ∈ adj.getD u [] → u ∈ adj.getD v []

theorem lt_length_of_getD_true {w : List Bool} {u : ℕ} (h : w.getD u false = true) :
    u < w.length := by
  by_contra hc
  rw [List.getD_eq_default _ _ (Nat.le_of_not_lt hc)] at h
  simp at h

theorem wire_reach_wire {adj : List (List ℕ)} {w : List Bool} {v u : ℕ}
    (hv : w.getD v false = true) (h : wire_reach adj w v u) : w.getD u false = true := by
  induction h with
  | refl => exact hv
  | tail _ hstep _ => exact hstep.2.1

theorem wire_adj_symm (adj : List (List ℕ)) (w : List Bool) (hwf : AdjWF adj w.length) :
    Symmetric (wire_adj adj w) := by
  intro u v h
  obtain ⟨hu, hv, hmem⟩ := h
  exact ⟨hv, hu, hwf.symm u (lt_length_of_getD_true hu) v (lt_length_of_getD_true hv) hmem⟩

theorem wire_reach_symm (adj : List (List ℕ)) (w : List Bool) (hwf : AdjWF adj w.length) :
    Symmetric (wire_reach adj w) :=
  Relation.ReflTransGen.symmetric (wire_adj_symm adj w hwf)

theorem comp_iter_sound (adj : List (List ℕ)) (w : List Bool) (v : ℕ)
    (hv : w.getD v false = true) :
    ∀ k u, u ∈ Nat.iterate (comp_step adj w) k {v} → wire_reach adj w v u := by
  intro k
  induction k with
  | zero =>
    intro u hu
    rw [Function.iterate_zero_apply, Finset.mem_singleton] at hu
    subst hu
    exact Relation.ReflTransGen.refl
  | succ k ih =>
    intro u hu
    rw [Function.iterate_succ_apply'] at hu
    unfold comp_step at hu
    rw [Finset.mem_union] at hu
    rcases hu with hu | hu
    · exact ih u hu
    · rw [Finset.mem_biUnion] at hu
      obtain ⟨x, hx, hmem⟩ := hu
      rw [List.mem_toFinset, List.mem_filter] at hmem
      have hreach := ih x hx
      exact Relation.ReflTransGen.tail hreach
        ⟨wire_reach_wire hv hreach, hmem.2, hmem.1⟩

theorem comp_iter_succ_subset (adj : List (List ℕ)) (w : List Bool) (v : ℕ) (k : ℕ) :
    Nat.iterate (comp_step adj w) k {v} ⊆ Nat.iterate (comp_step adj w) (k + 1) {v} := by
  rw [Function.iterate_succ_apply']
  exact Finset.subset_union_left

theorem comp_iter_mono (adj : List (List ℕ)) (w : List Bool) (v : ℕ) :
    ∀ k m, k ≤ m →
      Nat.iterate (comp_step adj w) k {v} ⊆ Nat.iterate (comp_step adj w) m {v} := by
  intro k m hkm
  induction m with
  | zero =>
    rw [Nat.le_zero.mp hkm]
  | succ m ih =>
    rcases Nat.lt_or_ge k (m + 1) with hlt | hge
    · exact (ih (Nat.lt_succ_iff.mp hlt)).trans (comp_iter_succ_subset adj w v m)
    · rw [Nat.le_antisymm hkm hge]

theorem comp_iter_stab (adj : List (List ℕ)) (w : List Bool) (v : ℕ) (k : ℕ)
    (h : Nat.iterate (comp_step adj w) (k + 1) {v} = Nat.iterate (comp_step adj w) k {v}) :
    ∀ m, Nat.iterate (comp_step adj w) (k + m) {v} = Nat.iterate (comp_step adj w) k {v} := by
  intro m
  induction m with
  | zero => rfl
  | succ m ih =>
    have : k + (m + 1) = (k + m) + 1 := by omega
    rw [this, Function.iterate_succ_apply', ih,
      ← Function.iterate_succ_apply' (comp_step adj w) k {v}, h]

theorem comp_iter_closed (adj : List (List ℕ)) (w : List Bool) (v : ℕ)
    (hv : w.getD v false = true) :
    comp_step adj w (wire_comp adj w v) = wire_comp adj w v := by
  have hrange : ∀ k, Nat.iterate (comp_step adj w) k {v} ⊆ Finset.range w.length := by
    intro k u hu
    rw [Finset.mem_range]
    exact lt_length_of_getD_true (wire_reach_wire hv (comp_iter_sound adj w v hv k u hu))
  have hstable : ∃ k, k ≤ w.length ∧
      Nat.iterate (comp_step adj w) (k + 1) {v} = Nat.iterate (comp_step adj w) k {v} := by
    by_contra hne
    push_neg at hne
    have hcard : ∀ k, k ≤ w.length → k + 1 ≤ (Nat.iterate (comp_step adj w) k {v}).card := by
      intro k
      induction k with
      | zero => intro _; simp
      | succ k ih =>
        intro hk
        have h1 := ih (Nat.le_of_succ_le hk)
        have hss : Nat.iterate (comp_step adj w) k {v} ⊂
            Nat.iterate (comp_step adj w) (k + 1) {v} :=
          Finset.ssubset_iff_subset_ne.mpr
            ⟨comp_iter_succ_subset adj w v k, fun he => hne k (Nat.le_of_succ_le hk) he.symm⟩
        have := Finset.card_lt_card hss
        omega
    have h1 := hcard w.length (le_refl _)
    have h2 := Finset.card_le_card (hrange w.length)
    rw [Finset.card_range] at h2
    omega
  obtain ⟨k, hk, hkeq⟩ := hstable
  have heq : wire_comp adj w v = Nat.iterate (comp_step adj w) k {v} := by
    unfold wire_comp
    have : w.length = k + (w.length - k) := by omega
    rw [this, comp_iter_stab adj w v k hkeq]
  rw [heq, ← Function.iterate_succ_apply' (comp_step adj w) k {v}, hkeq]

/-- `wire_comp` computes exactly the `wire_reach` connected component. -/
theorem wire_comp_eq_reach (adj : List (List ℕ)) (w : List Bool) (v : ℕ)
    (hv : w.getD v false = true) (u : ℕ) :
    u ∈ wire_comp adj w v ↔ wire_reach adj w v u := by
  constructor
  · exact comp_iter_sound adj w v hv w.length u
  · intro h
    induction h with
    | refl =>
      exact comp_iter_mono adj w v 0 w.length (Nat.zero_le _)
        (by rw [Function.iterate_zero_apply]; exact Finset.mem_singleton_self v)
    | tail hreach hstep ih =>
      rw [← comp_iter_closed adj w v hv]
      unfold comp_step
      rw [Finset.mem_union]
      right
      rw [Finset.mem_biUnion]
      exact ⟨_, ih, by rw [List.mem_toFinset, List.mem_filter]; exact ⟨hstep.2.2, hstep.2.1⟩⟩

/-- The flood-fill invariant of `wire_bfs`, minus the closure of processed
vertices: the discovered vertices (`group ++ queue`) are distinct reachable
wire vertices; `visited` is the start snapshot `vis0` plus exactly the
discovered vertices; `bounds` holds distinct non-wire neighbours of
processed vertices. -/
structure BfsPre (adj : List (List ℕ)) (w vis0 : List Bool) (i : ℕ)
    (queue : List ℕ) (visited : List Bool) (group bounds : List ℕ) : Prop where
  nodup : (group ++ queue).Nodup
  reach : ∀ u ∈ group ++ queue, wire_reach adj w i u
  vlen : visited.length = vis0.length
  vchar : ∀ u, visited.getD u false = (vis0.getD u false || decide (u ∈ group ++ queue))
  bnd_nodup : bounds.Nodup
  bnd_src : ∀ b ∈ bounds, ∃ u ∈ group, b ∈ adj.getD u [] ∧ w.getD b false = false
  start_mem : i ∈ group ++ queue

/-- Closure of a processed vertex: every wire neighbour is discovered,
every non-wire neighbour is recorded. -/
def ClosedAt (adj : List (List ℕ)) (w : List Bool) (queue group bounds : List ℕ)
    (u : ℕ) : Prop :=
  ∀ v ∈ adj.getD u [], (w.getD v false = true → v ∈ group ++ queue) ∧
    (w.getD v false = false → v ∈ bounds)

theorem nodup_snoc {α : Type} (l : List α) (a : α) (hl : l.Nodup) (ha : a ∉ l) :
    (l ++ [a]).Nodup := by
  simp [List.nodup_append, hl, ha]

theorem wire_bfs_fold_spec (adj : List (List ℕ)) (w vis0 : List Bool) (i idx : ℕ)
    (hvlen : vis0.length = w.length) (hwi : w.getD i false = true)
    (hvis0 : ∀ u, wire_reach adj w i u → vis0.getD u false = false)
    (hidx : wire_reach adj w i idx) :
    ∀ (nbs : List ℕ), (∀ v ∈ nbs, v ∈ adj.getD idx []) →
    ∀ queue visited bounds group,
      idx ∈ group →
      BfsPre adj w vis0 i queue visited group bounds →
      BfsPre adj w vis0 i
          (nbs.foldl (wire_bfs_neighbor_step w) (queue, visited, bounds)).1
          (nbs.foldl (wire_bfs_neighbor_step w) (queue, visited, bounds)).2.1
          group
          (nbs.foldl (wire_bfs_neighbor_step w) (queue, visited, bounds)).2.2 ∧
        (∃ qext, (nbs.foldl (wire_bfs_neighbor_step w) (queue, visited, bounds)).1 =
          queue ++ qext) ∧
        (∃ bext, (nbs.foldl (wire_bfs_neighbor_step w) (queue, visited, bounds)).2.2 =
          bounds ++ bext) ∧
        ∀ v ∈ nbs,
          (w.getD v false = true →
            v ∈ group ++ (nbs.foldl (wire_bfs_neighbor_step w) (queue, visited, bounds)).1) ∧
          (w.getD v false = false →
            v ∈ (nbs.foldl (wire_bfs_neighbor_step w) (queue, visited, bounds)).2.2) := by
  intro nbs
  induction nbs with
  | nil =>
    intro _ queue visited bounds group _ hpre
    exact ⟨hpre, ⟨[], by simp⟩, ⟨[], by simp⟩, by simp⟩
  | cons nb rest ih =>
    intro hsub queue visited bounds group hgidx hpre
    have hmem : nb ∈ adj.getD idx [] := hsub nb (List.mem_cons_self _ _)
    have hsub' : ∀ v ∈ rest, v ∈ adj.getD idx [] :=
      fun v hv => hsub v (List.mem_cons_of_mem _ hv)
    rw [List.foldl_cons]
    by_cases hwnb : w.getD nb false = true
    · by_cases hvnb : visited.getD nb false = true
      · -- wire, already visited: no state change
        have hstep : wire_bfs_neighbor_step w (queue, visited, bounds) nb =
            (queue, visited, bounds) := by
          unfold wire_bfs_neighbor_step
          rw [if_neg (fun hc => hc.2 hvnb), if_neg (fun hc => hc.1 hwnb)]
        rw [hstep]
        obtain ⟨hpre', hq, hb, hrest⟩ := ih hsub' queue visited bounds group hgidx hpre
        refine ⟨hpre', hq, hb, ?_⟩
        intro v hv
        rcases List.mem_cons.mp hv with rfl | hv'
        · refine ⟨fun _ => ?_, fun hf => by rw [hwnb] at hf; exact Bool.noConfusion hf⟩
          have hreach_nb : wire_reach adj w i v :=
            Relation.ReflTransGen.tail hidx ⟨wire_reach_wire hwi hidx, hwnb, hmem⟩
          have hv0 : vis0.getD v false = false := hvis0 v hreach_nb
          have := hpre.vchar v
          rw [hvnb, hv0, Bool.false_or] at this
          have hmemgq : v ∈ group ++ queue := of_decide_eq_true this.symm
          obtain ⟨qext, hqe⟩ := hq
          rw [hqe]
          rcases List.mem_append.mp hmemgq with h | h
          · exact List.mem_append.mpr (Or.inl h)
          · exact List.mem_append.mpr (Or.inr (List.mem_append.mpr (Or.inl h)))
        · exact hrest v hv'
      · -- wire, unvisited: mark and enqueue
        have hstep : wire_bfs_neighbor_step w (queue, visited, bounds) nb =
            (queue ++ [nb], visited.set nb true, bounds) := by
          unfold wire_bfs_neighbor_step
          rw [if_pos ⟨hwnb, hvnb⟩]
        rw [hstep]
        have hreach_nb : wire_reach adj w i nb :=
          Relation.ReflTransGen.tail hidx ⟨wire_reach_wire hwi hidx, hwnb, hmem⟩
        have hnbnotmem : nb ∉ group ++ queue := by
          intro hc
          have := hpre.vchar nb
          rw [decide_eq_true hc, Bool.or_true] at this
          exact hvnb this
        have hnblt : nb < visited.length := by
          rw [hpre.vlen, hvlen]
          exact lt_length_of_getD_true hwnb
        have hpre2 : BfsPre adj w vis0 i (queue ++ [nb]) (visited.set nb true) group
            bounds := by
          refine ⟨?_, ?_, ?_, ?_, hpre.bnd_nodup, hpre.bnd_src, ?_⟩
          · rw [← List.append_assoc]
            exact nodup_snoc _ _ hpre.nodup hnbnotmem
          · intro u hu
            rw [← List.append_assoc] at hu
            rcases List.mem_append.mp hu with h | h
            · exact hpre.reach u h
            · rw [List.mem_singleton.mp h]
              exact hreach_nb
          · rw [List.length_set]
            exact hpre.vlen
          · intro u
            by_cases hu : u = nb
            · subst hu
              rw [getD_set_self _ _ _ _ hnblt]
              have : u ∈ group ++ (queue ++ [u]) := by simp
              rw [decide_eq_true this, Bool.or_true]
            · rw [getD_set_ne _ _ _ _ _ hu, hpre.vchar u]
              have : (u ∈ group ++ (queue ++ [nb])) ↔ (u ∈ group ++ queue) := by
                simp [hu]
              by_cases hm : u ∈ group ++ queue
              · rw [decide_eq_true hm, decide_eq_true (this.mpr hm)]
              · rw [decide_eq_false hm, decide_eq_false (fun hc => hm (this.mp hc))]
          · rcases List.mem_append.mp hpre.start_mem with h | h
            · exact List.mem_append.mpr (Or.inl h)
            · exact List.mem_append.mpr (Or.inr (List.mem_append.mpr (Or.inl h)))
        obtain ⟨hpre', hq, hb, hrest⟩ := ih hsub' (queue ++ [nb]) (visited.set nb true)
          bounds group hgidx hpre2
        obtain ⟨qext, hqe⟩ := hq
        refine ⟨hpre', ⟨[nb] ++ qext, by rw [hqe, List.append_assoc]⟩, hb, ?_⟩
        intro v hv
        rcases List.mem_cons.mp hv with rfl | hv'
        · refine ⟨fun _ => ?_, fun hf => by rw [hwnb] at hf; exact Bool.noConfusion hf⟩
          rw [hqe]
          exact List.mem_append.mpr (Or.inr (List.mem_append.mpr (Or.inl (by simp))))
        · exact hrest v hv'
    · -- non-wire neighbour
      have hwnbf : w.getD nb false = false := by
        cases h : w.getD nb false
        · rfl
        · exact absurd h hwnb
      by_cases hbin : nb ∈ bounds
      · have hstep : wire_bfs_neighbor_step w (queue, visited, bounds) nb =
            (queue, visited, bounds) := by
          unfold wire_bfs_neighbor_step
          rw [if_neg (fun hc => hwnb hc.1), if_neg (fun hc => hc.2 hbin)]
        rw [hstep]
        obtain ⟨hpre', hq, hb, hrest⟩ := ih hsub' queue visited bounds group hgidx hpre
        refine ⟨hpre', hq, hb, ?_⟩
        intro v hv
        rcases List.mem_cons.mp hv with rfl | hv'
        · refine ⟨fun ht => absurd ht hwnb, fun _ => ?_⟩
          obtain ⟨bext, hbe⟩ := hb
          rw [hbe]
          exact List.mem_append.mpr (Or.inl hbin)
        · exact hrest v hv'
      · have hstep : wire_bfs_neighbor_step w (queue, visited, bounds) nb =
            (queue, visited, bounds ++ [nb]) := by
          unfold wire_bfs_neighbor_step
          rw [if_neg (fun hc => hwnb hc.1), if_pos ⟨hwnb, hbin⟩]
        rw [hstep]
        have hpre2 : BfsPre adj w vis0 i queue visited group (bounds ++ [nb]) := by
          refine ⟨hpre.nodup, hpre.reach, hpre.vlen, hpre.vchar, ?_, ?_, hpre.start_mem⟩
          · exact nodup_snoc _ _ hpre.bnd_nodup hbin
          · intro b hbm
            rcases List.mem_append.mp hbm with h | h
            · exact hpre.bnd_src b h
            · rw [List.mem_singleton.mp h]
              exact ⟨idx, hgidx, hmem, hwnbf⟩
        obtain ⟨hpre', hq, hb, hrest⟩ := ih hsub' queue visited (bounds ++ [nb]) group
          hgidx hpre2
        obtain ⟨bext, hbe⟩ := hb
        refine ⟨hpre', hq, ⟨[nb] ++ bext, by rw [hbe, List.append_assoc]⟩, ?_⟩
        intro v hv
        rcases List.mem_cons.mp hv with rfl | hv'
        · refine ⟨fun ht => absurd ht hwnb, fun _ => ?_⟩
          rw [hbe]
          exact List.mem_append.mpr (Or.inl (by simp))
        · exact hrest v hv'

theorem nodup_lt_length_le (l : List ℕ) (n : ℕ) (hl : l.Nodup) (hm : ∀ u ∈ l, u < n) :
    l.length ≤ n := by
  have hsub : l.toFinset ⊆ Finset.range n := by
    intro u hu
    rw [Finset.mem_range]
    exact hm u (List.mem_toFinset.mp hu)
  have := Finset.card_le_card hsub
  rwa [List.toFinset_card_of_nodup hl, Finset.card_range] at this

theorem wire_bfs_spec (adj : List (List ℕ)) (w vis0 : List Bool) (i : ℕ)
    (hvlen : vis0.length = w.length) (hwi : w.getD i false = true)
    (hvis0 : ∀ u, wire_reach adj w i u → vis0.getD u false = false) :
    ∀ fuel queue visited group bounds,
      BfsPre adj w vis0 i queue visited group bounds →
      (∀ u ∈ group, ClosedAt adj w queue group bounds u) →
      2 * w.length < fuel + 2 * group.length + queue.length →
      BfsPre adj w vis0 i [] (wire_bfs adj w fuel queue visited group bounds).2.2
          (wire_bfs adj w fuel queue visited group bounds).1
          (wire_bfs adj w fuel queue visited group bounds).2.1 ∧
        ∀ u ∈ (wire_bfs adj w fuel queue visited group bounds).1,
          ClosedAt adj w [] (wire_bfs adj w fuel queue visited group bounds).1
            (wire_bfs adj w fuel queue visited group bounds).2.1 u := by
  intro fuel
  induction fuel with
  | zero =>
    intro queue visited group bounds hpre _ hcount
    exfalso
    have hlen : (group ++ queue).length ≤ w.length := by
      refine nodup_lt_length_le _ _ hpre.nodup ?_
      intro u hu
      exact lt_length_of_getD_true (wire_reach_wire hwi (hpre.reach u hu))
    rw [List.length_append] at hlen
    omega
  | succ fuel ih =>
    intro queue visited group bounds hpre hclosed hcount
    match queue with
    | [] =>
      exact ⟨hpre, hclosed⟩
    | idx :: rest =>
      have hassoc : group ++ idx :: rest = (group ++ [idx]) ++ rest := by simp
      have hidxreach : wire_reach adj w i idx :=
        hpre.reach idx (List.mem_append.mpr (Or.inr (List.mem_cons_self _ _)))
      have hpre1 : BfsPre adj w vis0 i rest visited (group ++ [idx]) bounds := by
        refine ⟨?_, ?_, hpre.vlen, ?_, hpre.bnd_nodup, ?_, ?_⟩
        · rw [← hassoc]
          exact hpre.nodup
        · intro u hu
          rw [← hassoc] at hu
          exact hpre.reach u hu
        · intro u
          rw [← hassoc]
          exact hpre.vchar u
        · intro b hb
          obtain ⟨u, hu, h1, h2⟩ := hpre.bnd_src b hb
          exact ⟨u, List.mem_append.mpr (Or.inl hu), h1, h2⟩
        · rw [← hassoc]
          exact hpre.start_mem
      obtain ⟨hpre', ⟨qext, hqe⟩, ⟨bext, hbe⟩, hclose_idx⟩ :=
        wire_bfs_fold_spec adj w vis0 i idx hvlen hwi hvis0 hidxreach
          (adj.getD idx []) (fun v hv => hv) rest visited bounds (group ++ [idx])
          (List.mem_append.mpr (Or.inr (List.mem_singleton_self _))) hpre1
      have hclosed' : ∀ u ∈ group ++ [idx],
          ClosedAt adj w
            ((adj.getD idx []).foldl (wire_bfs_neighbor_step w) (rest, visited, bounds)).1
            (group ++ [idx])
            ((adj.getD idx []).foldl (wire_bfs_neighbor_step w) (rest, visited, bounds)).2.2
            u := by
        intro u hu
        rcases List.mem_append.mp hu with hu' | hu'
        · intro v hv
          obtain ⟨h1, h2⟩ := hclosed u hu' v hv
          constructor
          · intro hw
            have := h1 hw
            rw [hassoc] at this
            rcases List.mem_append.mp this with h | h
            · exact List.mem_append.mpr (Or.inl h)
            · rw [hqe]
              exact List.mem_append.mpr (Or.inr (List.mem_append.mpr (Or.inl h)))
          · intro hw
            rw [hbe]
            exact List.mem_append.mpr (Or.inl (h2 hw))
        · rw [List.mem_singleton.mp hu']
          intro v hv
          exact hclose_idx v hv
      have hcount' : 2 * w.length < fuel + 2 * (group ++ [idx]).length +
          ((adj.getD idx []).foldl (wire_bfs_neighbor_step w) (rest, visited, bounds)).1.length := by
        rw [List.length_append, List.length_singleton, hqe, List.length_append]
        simp only [List.length_cons] at hcount
        omega
      have hun : wire_bfs adj w (fuel + 1) (idx :: rest) visited group bounds =
          wire_bfs adj w fuel
            ((adj.getD idx []).foldl (wire_bfs_neighbor_step w) (rest, visited, bounds)).1
            ((adj.getD idx []).foldl (wire_bfs_neighbor_step w) (rest, visited, bounds)).2.1
            (group ++ [idx])
            ((adj.getD idx []).foldl (wire_bfs_neighbor_step w) (rest, visited, bounds)).2.2 :=
        rfl
      rw [hun]
      exact ih _ _ _ _ hpre' hclosed' hcount'

/-- Full characterisation of one flood fill as run by the pass: the group
is exactly the wire component of `i` (without duplicates), the bounds are
exactly its adjacent non-wire vertices, and the visited set grows by
exactly the group. -/
theorem wire_bfs_run (adj : List (List ℕ)) (w vis : List Bool) (i : ℕ)
    (hvlen : vis.length = w.length) (hwi : w.getD i false = true)
    (hvis : ∀ u, wire_reach adj w i u → vis.getD u false = false) :
    (wire_bfs adj w (2 * w.length + 1) [i] (vis.set i true) [] []).1.Nodup ∧
      (∀ u, u ∈ (wire_bfs adj w (2 * w.length + 1) [i] (vis.set i true) [] []).1 ↔
        wire_reach adj w i u) ∧
      (∀ b, b ∈ (wire_bfs adj w (2 * w.length + 1) [i] (vis.set i true) [] []).2.1 ↔
        ∃ u, wire_reach adj w i u ∧ b ∈ adj.getD u [] ∧ w.getD b false = false) ∧
      (wire_bfs adj w (2 * w.length + 1) [i] (vis.set i true) [] []).2.2.length =
        vis.length ∧
      (∀ u, (wire_bfs adj w (2 * w.length + 1) [i] (vis.set i true) [] []).2.2.getD u false
        = (vis.getD u false ||
            decide (u ∈ (wire_bfs adj w (2 * w.length + 1) [i] (vis.set i true) [] []).1))) := by
  have hilt : i < vis.length := by
    rw [hvlen]
    exact lt_length_of_getD_true hwi
  have hpre0 : BfsPre adj w vis i [i] (vis.set i true) [] [] := by
    refine ⟨by simp, ?_, by rw [List.length_set], ?_, by simp, by simp, by simp⟩
    · intro u hu
      rw [List.nil_append, List.mem_singleton] at hu
      subst hu
      exact Relation.ReflTransGen.refl
    · intro u
      by_cases hu : u = i
      · subst hu
        rw [getD_set_self _ _ _ _ hilt]
        rw [decide_eq_true (by simp : u ∈ ([] : List ℕ) ++ [u]), Bool.or_true]
      · rw [getD_set_ne _ _ _ _ _ hu]
        rw [decide_eq_false (by simp [hu]), Bool.or_false]
  obtain ⟨hpreF, hclosedF⟩ := wire_bfs_spec adj w vis i hvlen hwi hvis
    (2 * w.length + 1) [i] (vis.set i true) [] [] hpre0 (by simp [ClosedAt])
    (by simp; omega)
  have hmem_iff : ∀ u,
      u ∈ (wire_bfs adj w (2 * w.length + 1) [i] (vis.set i true) [] []).1 ↔
        wire_reach adj w i u := by
    intro u
    constructor
    · intro hu
      exact hpreF.reach u (by simpa using hu)
    · intro hu
      induction hu with
      | refl => simpa using hpreF.start_mem
      | tail hr hstep ih =>
        have := (hclosedF _ ih _ hstep.2.2).1 hstep.2.1
        simpa using this
  refine ⟨by simpa using hpreF.nodup, hmem_iff, ?_, hpreF.vlen, ?_⟩
  · intro b
    constructor
    · intro hb
      obtain ⟨u, hu, h1, h2⟩ := hpreF.bnd_src b hb
      exact ⟨u, (hmem_iff u).mp hu, h1, h2⟩
    · rintro ⟨u, hu, h1, h2⟩
      exact (hclosedF u ((hmem_iff u).mpr hu) b h1).2 h2
  · intro u
    have := hpreF.vchar u
    simpa using this

/-- The pass's keep condition for a component: kept unless it has fewer
than 10 members **and** a non-empty boundary. -/
def wire_keep (adj : List (List ℕ)) (w0 : List Bool) (v : ℕ) : Prop :=
  ¬ ((wire_comp adj w0 v).card < 10 ∧ wire_bound adj w0 v ≠ ∅)

instance (adj : List (List ℕ)) (w0 : List Bool) (v : ℕ) :
    Decidable (wire_keep adj w0 v) := by
  unfold wire_keep
  infer_instance

theorem wire_comp_congr (adj : List (List ℕ)) (w0 : List Bool)
    (hwf : AdjWF adj w0.length) {v v' : ℕ} (hv : w0.getD v false = true)
    (h : wire_reach adj w0 v v') : wire_comp adj w0 v = wire_comp adj w0 v' := by
  have hv' : w0.getD v' false = true := wire_reach_wire hv h
  ext u
  rw [wire_comp_eq_reach adj w0 v hv, wire_comp_eq_reach adj w0 v' hv']
  constructor
  · intro hu
    exact Relation.ReflTransGen.trans ((wire_reach_symm adj w0 hwf) h) hu
  · intro hu
    exact Relation.ReflTransGen.trans h hu

theorem wire_keep_congr (adj : List (List ℕ)) (w0 : List Bool)
    (hwf : AdjWF adj w0.length) {v v' : ℕ} (hv : w0.getD v false = true)
    (h : wire_reach adj w0 v v') : wire_keep adj w0 v ↔ wire_keep adj w0 v' := by
  unfold wire_keep wire_bound
  rw [wire_comp_congr adj w0 hwf hv h]

theorem wire_reach_agree (adj : List (List ℕ)) (w w0 : List Bool) (i : ℕ)
    (hle : ∀ u, w.getD u false = true → w0.getD u false = true)
    (hagree : ∀ u, wire_reach adj w0 i u → w.getD u false = w0.getD u false) :
    ∀ u, wire_reach adj w i u ↔ wire_reach adj w0 i u := by
  intro u
  constructor
  · intro h
    induction h with
    | refl => exact Relation.ReflTransGen.refl
    | tail _ hstep ih =>
      exact Relation.ReflTransGen.tail ih ⟨hle _ hstep.1, hle _ hstep.2.1, hstep.2.2⟩
  · intro h
    induction h with
    | refl => exact Relation.ReflTransGen.refl
    | tail hr hstep ih =>
      refine Relation.ReflTransGen.tail ih ⟨?_, ?_, hstep.2.2⟩
      · rw [hagree _ hr]
        exact hstep.1
      · rw [hagree _ (Relation.ReflTransGen.tail hr hstep)]
        exact hstep.2.1

theorem set_false_getD_self (w : List Bool) (u : ℕ) : (w.set u false).getD u false = false := by
  by_cases h : u < w.length
  · exact getD_set_self _ _ _ _ h
  · rw [List.set_eq_of_length_le (Nat.le_of_not_lt h),
      List.getD_eq_default _ _ (Nat.le_of_not_lt h)]

theorem foldl_set_false_getD (l : List ℕ) (w : List Bool) (u : ℕ) :
    (l.foldl (fun w idx => w.set idx false) w).getD u false =
      if u ∈ l then false else w.getD u false := by
  induction l generalizing w with
  | nil => simp
  | cons a l ih =>
    rw [List.foldl_cons, ih]
    by_cases hu : u ∈ l
    · simp [hu]
    · by_cases hua : u = a
      · subst hua
        rw [if_neg hu, if_pos (List.mem_cons_self _ _)]
        exact set_false_getD_self w u
      · rw [if_neg hu, if_neg (by simp [hua, hu]), getD_set_ne _ _ _ _ _ hua]

theorem foldl_set_false_length (l : List ℕ) (w : List Bool) :
    (l.foldl (fun w idx => w.set idx false) w).length = w.length := by
  induction l generalizing w with
  | nil => rfl
  | cons a l ih => rw [List.foldl_cons, ih, List.length_set]

/-- The outer-loop invariant of the connected-component pass after the
first `i` iterations: for every component of the initial mask `w0`, if a
member has been reached by the loop counter the whole component is visited
and its mask value is decided by the keep rule; otherwise it is untouched
and unvisited. -/
def PassInv (adj : List (List ℕ)) (w0 : List Bool) (i : ℕ)
    (st : List Bool × List Bool × List ℕ) : Prop :=
  st.1.length = w0.length ∧ st.2.1.length = w0.length ∧
  (∀ u, w0.getD u false = false → st.1.getD u false = false) ∧
  ∀ v, w0.getD v false = true →
    ((∃ m, wire_reach adj w0 v m ∧ m < i) →
      ∀ u, wire_reach adj w0 v u → st.2.1.getD u false = true ∧
        st.1.getD u false = (if wire_keep adj w0 v then true else false)) ∧
    ((∀ m, wire_reach adj w0 v m → i ≤ m) →
      ∀ u, wire_reach adj w0 v u → st.2.1.getD u false = false ∧
        st.1.getD u false = true)

theorem elim_wires_cc_step_inv (adj : List (List ℕ)) (w0 : List Bool)
    (hwf : AdjWF adj w0.length) (i : ℕ) (st : List Bool × List Bool × List ℕ)
    (hinv : PassInv adj w0 i st) : PassInv adj w0 (i + 1) (elim_wires_cc_step adj st i) := by
  obtain ⟨hlen1, hlen2, hw0f, hcomp⟩ := hinv
  unfold elim_wires_cc_step
  by_cases hg : st.1.getD i false = true ∧ ¬ st.2.1.getD i false = true
  case neg =>
    rw [if_neg hg]
    refine ⟨hlen1, hlen2, hw0f, ?_⟩
    intro v hv
    refine ⟨?_, ?_⟩
    · rintro ⟨m, hm, hmlt⟩
      by_cases hp : ∃ m', wire_reach adj w0 v m' ∧ m' < i
      · exact (hcomp v hv).1 hp
      · push_neg at hp
        have hmi : m = i := by
          have := hp m hm
          omega
        subst hmi
        obtain ⟨hvisF, hwT⟩ := (hcomp v hv).2 (fun m' hm' => hp m' hm') m hm
        exact absurd ⟨hwT, fun hc => by rw [hvisF] at hc; exact Bool.noConfusion hc⟩ hg
    · intro hall
      exact (hcomp v hv).2 (fun m hm => Nat.le_of_succ_le (hall m hm))
  case pos =>
    rw [if_pos hg]
    obtain ⟨hgw, hgv⟩ := hg
    have hw0i : w0.getD i false = true := by
      by_contra hc
      have h0 : w0.getD i false = false := by
        cases h : w0.getD i false
        · rfl
        · exact absurd h hc
      rw [hw0f i h0] at hgw
      exact Bool.noConfusion hgw
    have hiunproc : ∀ m, wire_reach adj w0 i m → i ≤ m := by
      intro m hm
      by_contra hlt
      push_neg at hlt
      obtain ⟨hvisT, _⟩ := (hcomp i hw0i).1 ⟨m, hm, hlt⟩ i Relation.ReflTransGen.refl
      rw [hvisT] at hgv
      exact hgv rfl
    have hagree : ∀ u, wire_reach adj w0 i u →
        st.1.getD u false = w0.getD u false ∧ st.2.1.getD u false = false := by
      intro u hu
      obtain ⟨h1, h2⟩ := (hcomp i hw0i).2 hiunproc u hu
      exact ⟨by rw [h2, wire_reach_wire hw0i hu], h1⟩
    have hle : ∀ u, st.1.getD u false = true → w0.getD u false = true := by
      intro u hu
      by_contra hc
      have h0 : w0.getD u false = false := by
        cases h : w0.getD u false
        · rfl
        · exact absurd h hc
      rw [hw0f u h0] at hu
      exact Bool.noConfusion hu
    have hreach_iff : ∀ u, wire_reach adj st.1 i u ↔ wire_reach adj w0 i u :=
      wire_reach_agree adj st.1 w0 i hle (fun u hu => (hagree u hu).1)
    obtain ⟨hnodupG, hmemG, hmemB, hvlenF, hvcharF⟩ :=
      wire_bfs_run adj st.1 st.2.1 i (hlen2.trans hlen1.symm) hgw
        (fun u hu => (hagree u ((hreach_iff u).mp hu)).2)
    set r := wire_bfs adj st.1 (2 * st.1.length + 1) [i] (st.2.1.set i true) [] [] with hr
    have hmemG0 : ∀ u, u ∈ r.1 ↔ wire_reach adj w0 i u :=
      fun u => (hmemG u).trans (hreach_iff u)
    have hmemB0 : ∀ b, b ∈ r.2.1 ↔ b ∈ wire_bound adj w0 i := by
      intro b
      rw [hmemB b]
      unfold wire_bound
      rw [Finset.mem_biUnion]
      constructor
      · rintro ⟨u, hu, h1, h2⟩
        have hu0 := (hreach_iff u).mp hu
        refine ⟨u, (wire_comp_eq_reach adj w0 i hw0i u).mpr hu0, ?_⟩
        rw [List.mem_toFinset, List.mem_filter]
        refine ⟨h1, decide_eq_true ?_⟩
        intro hb0
        have hreachb : wire_reach adj w0 i b :=
          Relation.ReflTransGen.tail hu0 ⟨wire_reach_wire hw0i hu0, hb0, h1⟩
        have := (hagree b hreachb).1
        rw [h2, hb0] at this
        exact Bool.noConfusion this
      · rintro ⟨u, hu, hmem⟩
        rw [List.mem_toFinset, List.mem_filter] at hmem
        have hu0 := (wire_comp_eq_reach adj w0 i hw0i u).mp hu
        refine ⟨u, (hreach_iff u).mpr hu0, hmem.1, ?_⟩
        have hb0 : ¬ w0.getD b false = true := of_decide_eq_true hmem.2
        by_cases hsb : st.1.getD b false = true
        · exact absurd (hle b hsb) hb0
        · cases h : st.1.getD b false
          · rfl
          · exact absurd h hsb
    have hlenG : r.1.length = (wire_comp adj w0 i).card := by
      rw [← List.toFinset_card_of_nodup hnodupG]
      congr 1
      ext u
      rw [List.mem_toFinset, hmemG0 u, wire_comp_eq_reach adj w0 i hw0i]
    have heq_empty : r.2.1 = [] ↔ wire_bound adj w0 i = ∅ := by
      constructor
      · intro h
        rw [Finset.eq_empty_iff_forall_not_mem]
        intro b hb
        have := (hmemB0 b).mpr hb
        rw [h] at this
        simp at this
      · intro h
        rw [List.eq_nil_iff_forall_not_mem]
        intro b hb
        have := (hmemB0 b).mp hb
        rw [h] at this
        simp at this
    have hcond_iff : (r.1.length < 10 ∧ r.2.1 ≠ []) ↔ ¬ wire_keep adj w0 i := by
      unfold wire_keep
      rw [not_not, hlenG]
      exact and_congr Iff.rfl (not_congr heq_empty)
    by_cases hcond : r.1.length < 10 ∧ r.2.1 ≠ []
    · -- revert branch
      rw [if_pos hcond]
      have hkeep_i : ¬ wire_keep adj w0 i := hcond_iff.mp hcond
      refine ⟨by rw [foldl_set_false_length]; exact hlen1,
        by rw [hvlenF]; exact hlen2, ?_, ?_⟩
      · intro u h0
        rw [foldl_set_false_getD]
        by_cases hm : u ∈ r.1
        · rw [if_pos hm]
        · rw [if_neg hm]
          exact hw0f u h0
      · intro v hv
        by_cases hvi : wire_reach adj w0 v i
        · have hreach_vu : ∀ u, wire_reach adj w0 v u ↔ wire_reach adj w0 i u := by
            intro u
            constructor
            · intro hu
              exact Relation.ReflTransGen.trans ((wire_reach_symm adj w0 hwf) hvi) hu
            · intro hu
              exact Relation.ReflTransGen.trans hvi hu
          refine ⟨?_, ?_⟩
          · intro _ u hu
            have hui : wire_reach adj w0 i u := (hreach_vu u).mp hu
            have hmemu : u ∈ r.1 := (hmemG0 u).mpr hui
            refine ⟨?_, ?_⟩
            · rw [hvcharF u, decide_eq_true hmemu, Bool.or_true]
            · rw [foldl_set_false_getD, if_pos hmemu]
              have hkv : ¬ wire_keep adj w0 v :=
                fun hk => hkeep_i ((wire_keep_congr adj w0 hwf hv hvi).mp hk)
              rw [if_neg hkv]
          · intro hall
            exfalso
            have := hall i hvi
            omega
        · have hdisj : ∀ u, wire_reach adj w0 v u → ¬ wire_reach adj w0 i u := by
            intro u hu hc
            exact hvi (Relation.ReflTransGen.trans hu ((wire_reach_symm adj w0 hwf) hc))
          have hmask_eq : ∀ u, wire_reach adj w0 v u →
              (r.1.foldl (fun w idx => w.set idx false) st.1).getD u false =
                st.1.getD u false := by
            intro u hu
            rw [foldl_set_false_getD, if_neg (fun hm => hdisj u hu ((hmemG0 u).mp hm))]
          have hvis_eq : ∀ u, wire_reach adj w0 v u →
              r.2.2.getD u false = st.2.1.getD u false := by
            intro u hu
            rw [hvcharF u, decide_eq_false (fun hm => hdisj u hu ((hmemG0 u).mp hm)),
              Bool.or_false]
          refine ⟨?_, ?_⟩
          · rintro ⟨m, hm, hmlt⟩
            have hmlt' : m < i := by
              rcases Nat.lt_succ_iff_lt_or_eq.mp hmlt with h | h
              · exact h
              · exact absurd (h ▸ hm) hvi
            intro u hu
            obtain ⟨h1, h2⟩ := (hcomp v hv).1 ⟨m, hm, hmlt'⟩ u hu
            rw [hvis_eq u hu, hmask_eq u hu]
            exact ⟨h1, h2⟩
          · intro hall
            intro u hu
            obtain ⟨h1, h2⟩ := (hcomp v hv).2
              (fun m hm => Nat.le_of_succ_le (hall m hm)) u hu
            rw [hvis_eq u hu, hmask_eq u hu]
            exact ⟨h1, h2⟩
    · -- keep branch
      rw [if_neg hcond]
      have hkeep_i : wire_keep adj w0 i := by
        by_contra hk
        exact hcond (hcond_iff.mpr hk)
      refine ⟨hlen1, by rw [hvlenF]; exact hlen2, hw0f, ?_⟩
      intro v hv
      by_cases hvi : wire_reach adj w0 v i
      · have hreach_vu : ∀ u, wire_reach adj w0 v u ↔ wire_reach adj w0 i u := by
          intro u
          constructor
          · intro hu
            exact Relation.ReflTransGen.trans ((wire_reach_symm adj w0 hwf) hvi) hu
          · intro hu
            exact Relation.ReflTransGen.trans hvi hu
        refine ⟨?_, ?_⟩
        · intro _ u hu
          have hui : wire_reach adj w0 i u := (hreach_vu u).mp hu
          have hmemu : u ∈ r.1 := (hmemG0 u).mpr hui
          refine ⟨?_, ?_⟩
          · rw [hvcharF u, decide_eq_true hmemu, Bool.or_true]
          · have hkv : wire_keep adj w0 v :=
              (wire_keep_congr adj w0 hwf hv hvi).mpr hkeep_i
            rw [if_pos hkv, (hagree u hui).1]
            exact wire_reach_wire hw0i hui
        · intro hall
          exfalso
          have := hall i hvi
          omega
      · have hdisj : ∀ u, wire_reach adj w0 v u → ¬ wire_reach adj w0 i u := by
          intro u hu hc
          exact hvi (Relation.ReflTransGen.trans hu ((wire_reach_symm adj w0 hwf) hc))
        have hvis_eq : ∀ u, wire_reach adj w0 v u →
            r.2.2.getD u false = st.2.1.getD u false := by
          intro u hu
          rw [hvcharF u, decide_eq_false (fun hm => hdisj u hu ((hmemG0 u).mp hm)),
            Bool.or_false]
        refine ⟨?_, ?_⟩
        · rintro ⟨m, hm, hmlt⟩
          have hmlt' : m < i := by
            rcases Nat.lt_succ_iff_lt_or_eq.mp hmlt with h | h
            · exact h
            · exact absurd (h ▸ hm) hvi
          intro u hu
          obtain ⟨h1, h2⟩ := (hcomp v hv).1 ⟨m, hm, hmlt'⟩ u hu
          rw [hvis_eq u hu]
          exact ⟨h1, h2⟩
        · intro hall
          intro u hu
          obtain ⟨h1, h2⟩ := (hcomp v hv).2
            (fun m hm => Nat.le_of_succ_le (hall m hm)) u hu
          rw [hvis_eq u hu]
          exact ⟨h1, h2⟩

theorem elim_wires_cc_inv (adj : List (List ℕ)) (w0 : List Bool)
    (hwf : AdjWF adj w0.length) :
    ∀ k, PassInv adj w0 k ((List.range k).foldl (elim_wires_cc_step adj)
      (w0, List.replicate w0.length false, [])) := by
  intro k
  induction k with
  | zero =>
    simp only [List.range_zero, List.foldl_nil]
    refine ⟨rfl, by rw [List.length_replicate], fun u h => h, ?_⟩
    intro v hv
    refine ⟨?_, ?_⟩
    · rintro ⟨m, _, hmlt⟩
      exact absurd hmlt (by omega)
    · intro _ u hu
      refine ⟨?_, wire_reach_wire hv hu⟩
      rw [getD_replicate]
      split <;> rfl
  | succ k ih =>
    rw [List.range_succ, List.foldl_append, List.foldl_cons, List.foldl_nil]
    exact elim_wires_cc_step_inv adj w0 hwf k _ ih

/-- C4: in the connected-component pass of the wire detector, every
connected component of initially wire-marked vertices with fewer than 10
members and at least one adjacent non-wire boundary vertex is reverted
entirely to structural, and every component with 10 or more members, or no
adjacent non-wire boundary vertex at all, stays entirely wire-marked. -/
theorem elim_wires_cc_component_rule (adj : List (List ℕ)) (w0 : List Bool) (v : ℕ)
    (hwf : AdjWF adj w0.length) (hv : w0.getD v false = true) :
    (((wire_comp adj w0 v).card < 10 ∧ wire_bound adj w0 v ≠ ∅) →
      ∀ u ∈ wire_comp adj w0 v, (elim_wires_cc adj w0).1.getD u false = false) ∧
    ((10 ≤ (wire_comp adj w0 v).card ∨ wire_bound adj w0 v = ∅) →
      ∀ u ∈ wire_comp adj w0 v, (elim_wires_cc adj w0).1.getD u false = true) := by
  have hinv := elim_wires_cc_inv adj w0 hwf w0.length
  obtain ⟨_, _, _, hcomp⟩ := hinv
  have hvlt : v < w0.length := lt_length_of_getD_true hv
  have hproc := (hcomp v hv).1 ⟨v, Relation.ReflTransGen.refl, hvlt⟩
  have hmask : ∀ u, wire_reach adj w0 v u →
      (elim_wires_cc adj w0).1.getD u false =
        (if wire_keep adj w0 v then true else false) := by
    intro u hu
    exact (hproc u hu).2
  constructor
  · intro hc u hu
    have hr := (wire_comp_eq_reach adj w0 v hv u).mp hu
    rw [hmask u hr, if_neg (by unfold wire_keep; rw [not_not]; exact hc)]
  · intro hc u hu
    have hr := (wire_comp_eq_reach adj w0 v hv u).mp hu
    rw [hmask u hr, if_pos ?_]
    unfold wire_keep
    rintro ⟨h1, h2⟩
    rcases hc with h | h
    · omega
    · exact h2 h

/-- Witness for C4: vertices `{0, 1}` form a 2-member wire component with
the non-wire boundary vertex `2`; the pass reverts both to structural. -/
theorem elim_wires_cc_component_rule_witness :
    ([true, true, false] : List Bool).getD 0 false = true ∧
      (elim_wires_cc [[1], [0, 2], [1]] [true, true, false]).1.getD 0 false = false := by
  have hwf : AdjWF [[1], [0, 2], [1]] ([true, true, false] : List Bool).length := by
    refine ⟨by decide, ?_, ?_, ?_⟩ <;> decide
  have h := elim_wires_cc_component_rule [[1], [0, 2], [1]] [true, true, false] 0 hwf
    (by decide)
  exact ⟨by decide, h.1 (by decide) 0 (by decide)⟩

/-! ## C1 — convex hull (spec-modelled): groundwork

Order facts about `lexLt`/`lexLe`, the sorted-dedup preprocessing, and the
cross-product cone algebra used by the monotone-chain invariants. -/

theorem Vec2.ext' {a b : Vec2} (hx : a.x = b.x) (hy : a.y = b.y) : a = b := by
  cases a; cases b; cases hx; cases hy; rfl

theorem lexLt_irrefl (a : Vec2) : ¬ lexLt a a := by
  unfold lexLt; rintro (h | ⟨_, h⟩) <;> exact lt_irrefl _ h

theorem ne_of_lexLt {a b : Vec2} (h : lexLt a b) : a ≠ b :=
  fun he => lexLt_irrefl b (he ▸ h)

theorem lexLt_trans {a b c : Vec2} (h1 : lexLt a b) (h2 : lexLt b c) : lexLt a c := by
  unfold lexLt at *
  rcases h1 with h1 | ⟨e1, h1⟩ <;> rcases h2 with h2 | ⟨e2, h2⟩
  · exact Or.inl (by linarith)
  · exact Or.inl (by linarith)
  · exact Or.inl (by linarith)
  · exact Or.inr ⟨e1.trans e2, by linarith⟩

theorem lexLe_trans {a b c : Vec2} (h1 : lexLe a b) (h2 : lexLe b c) : lexLe a c := by
  unfold lexLe at *
  rcases h1 with h1 | ⟨e1, h1⟩ <;> rcases h2 with h2 | ⟨e2, h2⟩
  · exact Or.inl (by linarith)
  · exact Or.inl (by linarith)
  · exact Or.inl (by linarith)
  · exact Or.inr ⟨e1.trans e2, by linarith⟩

theorem lexLe_refl (a : Vec2) : lexLe a a := Or.inr ⟨rfl, le_refl _⟩

theorem lexLe_total (a b : Vec2) : lexLe a b ∨ lexLe b a := by
  unfold lexLe
  rcases lt_trichotomy a.x b.x with h | h | h
  · exact Or.inl (Or.inl h)
  · rcases le_total a.y b.y with hy | hy
    · exact Or.inl (Or.inr ⟨h, hy⟩)
    · exact Or.inr (Or.inr ⟨h.symm, hy⟩)
  · exact Or.inr (Or.inl h)

theorem lexLe_antisymm {a b : Vec2} (h1 : lexLe a b) (h2 : lexLe b a) : a = b := by
  unfold lexLe at *
  rcases h1 with h1 | ⟨e1, h1⟩ <;> rcases h2 with h2 | ⟨e2, h2⟩
  · exact absurd h2 (by linarith)
  · exact absurd e2 (by linarith)
  · exact absurd e1 (by linarith)
  · exact Vec2.ext' e1 (le_antisymm h1 h2)

theorem lexLe_of_lexLt {a b : Vec2} (h : lexLt a b) : lexLe a b := by
  rcases h with h | ⟨e, h⟩
  · exact Or.inl h
  · exact Or.inr ⟨e, le_of_lt h⟩

theorem lexLt_of_not_lexLe {a b : Vec2} (h : ¬ lexLe a b) : lexLt b a := by
  unfold lexLe at h
  unfold lexLt
  push_neg at h
  obtain ⟨h1, h2⟩ := h
  rcases eq_or_lt_of_le h1 with he | hlt
  · exact Or.inr ⟨he, h2 he.symm⟩
  · exact Or.inl hlt

theorem lexLt_of_lexLe_ne {a b : Vec2} (h : lexLe a b) (hne : a ≠ b) : lexLt a b := by
  rcases h with h | ⟨e, hy⟩
  · exact Or.inl h
  · rcases lt_or_eq_of_le hy with h | h
    · exact Or.inr ⟨e, h⟩
    · exact absurd (Vec2.ext' e h) hne

theorem lexLt_of_lexLe_of_lexLt {a b c : Vec2} (h1 : lexLe a b) (h2 : lexLt b c) :
    lexLt a c := by
  rcases h1 with h | ⟨e, h⟩ <;> rcases h2 with h2 | ⟨e2, h2⟩
  · exact Or.inl (by linarith)
  · exact Or.inl (by linarith)
  · exact Or.inl (by linarith)
  · exact Or.inr ⟨e.trans e2, by linarith⟩

instance : IsTotal Vec2 lexLe := ⟨lexLe_total⟩

instance : IsTrans Vec2 lexLe := ⟨fun _ _ _ => lexLe_trans⟩

instance : IsAntisymm Vec2 lexLt :=
  ⟨fun a _ h1 h2 => absurd (lexLt_trans h1 h2) (lexLt_irrefl a)⟩

/-- The sorted, deduplicated point list is strictly `lexLt`-sorted. -/
theorem sortedDedup_sorted (pts : List Vec2) : List.Pairwise lexLt (sortedDedup pts) := by
  have hs : List.Sorted lexLe (pts.insertionSort lexLe) := List.sorted_insertionSort lexLe pts
  have hsd : List.Pairwise lexLe (sortedDedup pts) :=
    List.Pairwise.sublist (List.dedup_sublist _) hs
  have hnd : (sortedDedup pts).Nodup := List.nodup_dedup _
  exact (List.Pairwise.and hsd hnd).imp (fun h => lexLt_of_lexLe_ne h.1 h.2)

theorem sortedDedup_nodup (pts : List Vec2) : (sortedDedup pts).Nodup :=
  List.nodup_dedup _

theorem mem_sortedDedup {x : Vec2} {pts : List Vec2} : x ∈ sortedDedup pts ↔ x ∈ pts := by
  unfold sortedDedup
  rw [List.mem_dedup, (List.perm_insertionSort lexLe pts).mem_iff]

/-- Two strictly sorted lists with the same members are equal. -/
theorem eq_of_sorted_lexLt {l1 l2 : List Vec2} (h1 : List.Pairwise lexLt l1)
    (h2 : List.Pairwise lexLt l2) (hm : ∀ x, x ∈ l1 ↔ x ∈ l2) : l1 = l2 := by
  have hn1 : l1.Nodup := h1.imp (fun h => ne_of_lexLt h)
  have hn2 : l2.Nodup := h2.imp (fun h => ne_of_lexLt h)
  have hp : l1.Perm l2 := by
    refine List.perm_of_nodup_nodup_toFinset_eq hn1 hn2 ?_
    ext a
    simp only [List.mem_toFinset]
    exact hm a
  exact List.eq_of_perm_of_sorted hp h1 h2

/-! Vector kit: negation, scaling, and the lexicographic sign cone. -/

def negV (p : Vec2) : Vec2 := ⟨-p.x, -p.y⟩

def scaleV (c : ℚ) (u : Vec2) : Vec2 := ⟨c * u.x, c * u.y⟩

theorem add_x (a b : Vec2) : (a + b).x = a.x + b.x := rfl

theorem add_y (a b : Vec2) : (a + b).y = a.y + b.y := rfl

theorem negV_negV (a : Vec2) : negV (negV a) = a := by
  refine Vec2.ext' ?_ ?_ <;> simp [negV]

theorem cross3_negV (a b c : Vec2) : cross3 (negV a) (negV b) (negV c) = cross3 a b c := by
  simp only [cross3, negV]
  ring

theorem lexLt_negV {a b : Vec2} : lexLt (negV a) (negV b) ↔ lexLt b a := by
  unfold lexLt
  simp only [negV]
  constructor
  · rintro (h | ⟨e, h⟩)
    · exact Or.inl (by linarith)
    · exact Or.inr ⟨by linarith, by linarith⟩
  · rintro (h | ⟨e, h⟩)
    · exact Or.inl (by linarith)
    · exact Or.inr ⟨by linarith, by linarith⟩

/-- `u` points lexicographically forward (strictly). -/
def lexPos (u : Vec2) : Prop := 0 < u.x ∨ (u.x = 0 ∧ 0 < u.y)

/-- `u` points lexicographically forward or is zero. -/
def lexNonneg (u : Vec2) : Prop := 0 < u.x ∨ (u.x = 0 ∧ 0 ≤ u.y)

theorem lexPos_sub_iff {a b : Vec2} : lexPos (b - a) ↔ lexLt a b := by
  unfold lexPos lexLt
  simp only [Vec2.sub_def]
  constructor
  · rintro (h | ⟨e, h⟩)
    · exact Or.inl (by linarith)
    · exact Or.inr ⟨by linarith, by linarith⟩
  · rintro (h | ⟨e, h⟩)
    · exact Or.inl (by linarith)
    · exact Or.inr ⟨by linarith, by linarith⟩

theorem lexNonneg_sub_iff {a b : Vec2} : lexNonneg (b - a) ↔ lexLe a b := by
  unfold lexNonneg lexLe
  simp only [Vec2.sub_def]
  constructor
  · rintro (h | ⟨e, h⟩)
    · exact Or.inl (by linarith)
    · exact Or.inr ⟨by linarith, by linarith⟩
  · rintro (h | ⟨e, h⟩)
    · exact Or.inl (by linarith)
    · exact Or.inr ⟨by linarith, by linarith⟩

theorem lexNonneg_of_lexPos {u : Vec2} (h : lexPos u) : lexNonneg u := by
  rcases h with h | ⟨e, h⟩
  · exact Or.inl h
  · exact Or.inr ⟨e, le_of_lt h⟩

theorem lexNonneg_add {u v : Vec2} (hu : lexNonneg u) (hv : lexNonneg v) :
    lexNonneg (u + v) := by
  unfold lexNonneg at *
  rw [add_x, add_y]
  rcases hu with h | ⟨e, h⟩ <;> rcases hv with h2 | ⟨e2, h2⟩
  · exact Or.inl (by linarith)
  · exact Or.inl (by linarith)
  · exact Or.inl (by linarith)
  · exact Or.inr ⟨by linarith, by linarith⟩

theorem lexNonneg_add_lexPos {u v : Vec2} (hu : lexNonneg u) (hv : lexPos v) :
    lexPos (u + v) := by
  unfold lexNonneg lexPos at *
  rw [add_x, add_y]
  rcases hu with h | ⟨e, h⟩ <;> rcases hv with h2 | ⟨e2, h2⟩
  · exact Or.inl (by linarith)
  · exact Or.inl (by linarith)
  · exact Or.inl (by linarith)
  · exact Or.inr ⟨by linarith, by linarith⟩

theorem lexPos_scale {c : ℚ} {u : Vec2} (hc : 0 < c) (hu : lexPos u) :
    lexPos (scaleV c u) := by
  unfold lexPos at *
  simp only [scaleV]
  rcases hu with h | ⟨e, h⟩
  · exact Or.inl (mul_pos hc h)
  · exact Or.inr ⟨by rw [e, mul_zero], mul_pos hc h⟩

theorem lexNonneg_scale {c : ℚ} {u : Vec2} (hc : 0 ≤ c) (hu : lexNonneg u) :
    lexNonneg (scaleV c u) := by
  unfold lexNonneg at *
  simp only [scaleV]
  rcases eq_or_lt_of_le hc with h0 | hpos
  · exact Or.inr ⟨by rw [← h0, zero_mul], by rw [← h0, zero_mul]⟩
  · rcases hu with h | ⟨e, h⟩
    · exact Or.inl (mul_pos hpos h)
    · exact Or.inr ⟨by rw [e, mul_zero], mul_nonneg (le_of_lt hpos) h⟩

theorem lexPos_absurd {u : Vec2} (h1 : lexPos u) (h2 : lexNonneg (negV u)) : False := by
  unfold lexPos lexNonneg at *
  simp only [negV] at h2
  rcases h1 with h | ⟨e, h⟩ <;> rcases h2 with h2 | ⟨e2, h2⟩ <;> linarith

theorem lexPos_scale_iff {l : ℚ} {u : Vec2} (hu : lexPos u) :
    lexPos (scaleV l u) ↔ 0 < l := by
  constructor
  · intro h
    by_contra hl
    push_neg at hl
    unfold lexPos at h hu
    simp only [scaleV] at h
    rcases hu with hx | ⟨e, hy⟩ <;> rcases h with h | ⟨e2, h2⟩
    · have h3 := mul_le_mul_of_nonneg_right hl hx.le
      rw [zero_mul] at h3
      linarith
    · rcases mul_eq_zero.mp e2 with h3 | h3
      · rw [h3, zero_mul] at h2
        linarith
      · linarith
    · rw [e, mul_zero] at h
      linarith
    · have h3 := mul_le_mul_of_nonneg_right hl hy.le
      rw [zero_mul] at h3
      linarith
  · intro hl
    exact lexPos_scale hl hu

theorem negV_scaleV (l : ℚ) (u : Vec2) : negV (scaleV l u) = scaleV (-l) u := by
  refine Vec2.ext' ?_ ?_ <;> simp only [negV, scaleV] <;> ring

theorem lexPos_scale_neg_iff {l : ℚ} {u : Vec2} (hu : lexPos u) :
    lexPos (negV (scaleV l u)) ↔ l < 0 := by
  rw [negV_scaleV]
  rw [lexPos_scale_iff hu]
  constructor <;> intro h <;> linarith

/-- Cone lemma A: with `u`, `v` lex-forward and `w` lex-backward, if `v` is
strictly counter-clockwise of `u` and `w` is weakly counter-clockwise of `u`,
then `w` is weakly counter-clockwise of `v`. -/
theorem cone_A {u v w : Vec2} (hu : lexPos u) (hv : lexPos v) (hw : lexNonneg (negV w))
    (huv : 0 < u.cross v) (huw : 0 ≤ u.cross w) : 0 ≤ v.cross w := by
  by_contra hvw
  push_neg at hvw
  have hid : scaleV (u.cross v) w = scaleV (u.cross w) v + scaleV (-(v.cross w)) u := by
    refine Vec2.ext' ?_ ?_ <;> simp only [add_x, add_y, scaleV, Vec2.cross] <;> ring
  have hR : lexPos (scaleV (u.cross w) v + scaleV (-(v.cross w)) u) :=
    lexNonneg_add_lexPos (lexNonneg_scale huw (lexNonneg_of_lexPos hv))
      (lexPos_scale (by linarith) hu)
  have hL : lexPos (scaleV (u.cross v) w) := by rw [hid]; exact hR
  have hLneg : lexNonneg (negV (scaleV (u.cross v) w)) := by
    have he : negV (scaleV (u.cross v) w) = scaleV (u.cross v) (negV w) := by
      refine Vec2.ext' ?_ ?_ <;> simp only [negV, scaleV] <;> ring
    rw [he]
    exact lexNonneg_scale (le_of_lt huv) hw
  exact lexPos_absurd hL hLneg

/-- Cone lemma B: with `u`, `x` lex-forward and `y` lex-forward-or-zero, if
`x` is weakly clockwise of `u` and `y` weakly counter-clockwise of `u`, then
`y` is weakly counter-clockwise of `x`. -/
theorem cone_B {u x y : Vec2} (hu : lexPos u) (hx : lexPos x) (hy : lexNonneg y)
    (hux : u.cross x ≤ 0) (huy : 0 ≤ u.cross y) : 0 ≤ x.cross y := by
  by_contra hxy
  push_neg at hxy
  have hid : scaleV (x.cross y) u = scaleV (u.cross y) x + scaleV (-(u.cross x)) y := by
    refine Vec2.ext' ?_ ?_ <;> simp only [add_x, add_y, scaleV, Vec2.cross] <;> ring
  have hR : lexNonneg (scaleV (u.cross y) x + scaleV (-(u.cross x)) y) :=
    lexNonneg_add (lexNonneg_scale huy (lexNonneg_of_lexPos hx))
      (lexNonneg_scale (by linarith) hy)
  have hL : lexNonneg (scaleV (x.cross y) u) := by rw [hid]; exact hR
  have hLneg : lexPos (negV (scaleV (x.cross y) u)) :=
    (lexPos_scale_neg_iff hu).mpr hxy
  exact lexPos_absurd hLneg (by rw [negV_negV]; exact hL)

/-- Cone lemma C (impossibility): `A`, `B` lex-forward, `C` lex-backward,
with `C` strictly clockwise of `A`, `B` weakly counter-clockwise of `C`, and
`B` weakly counter-clockwise of `A` — an empty cone. -/
theorem cone_C {A B C : Vec2} (hA : lexPos A) (hB : lexPos B) (hC : lexPos (negV C))
    (hAC : 0 < A.cross C) (hCB : 0 ≤ C.cross B) (hAB : 0 ≤ A.cross B) : False := by
  have hid : scaleV (A.cross C) B = scaleV (A.cross B) C + scaleV (B.cross C) A := by
    refine Vec2.ext' ?_ ?_ <;> simp only [add_x, add_y, scaleV, Vec2.cross] <;> ring
  have hBC : B.cross C ≤ 0 := by
    have h : B.cross C = -(C.cross B) := by simp only [Vec2.cross]; ring
    rw [h]
    linarith
  have hRneg : lexNonneg (negV (scaleV (A.cross B) C + scaleV (B.cross C) A)) := by
    have he : negV (scaleV (A.cross B) C + scaleV (B.cross C) A) =
        scaleV (A.cross B) (negV C) + scaleV (-(B.cross C)) A := by
      refine Vec2.ext' ?_ ?_ <;> simp only [negV, add_x, add_y, scaleV] <;> ring
    rw [he]
    exact lexNonneg_add (lexNonneg_scale hAB (lexNonneg_of_lexPos hC))
      (lexNonneg_scale (by linarith) (lexNonneg_of_lexPos hA))
  have hL : lexPos (scaleV (A.cross C) B) := lexPos_scale hAC hB
  exact lexPos_absurd hL (by rw [hid]; exact hRneg)

/-- A vector with vanishing cross against a lex-forward vector is a scalar
multiple of it. -/
theorem collinear_scale {u v : Vec2} (h : u.cross v = 0) (hu : lexPos u) :
    ∃ l : ℚ, v = scaleV l u := by
  have h' : u.x * v.y - u.y * v.x = 0 := h
  rcases hu with hx | ⟨hx0, hy⟩
  · refine ⟨v.x / u.x, Vec2.ext' ?_ ?_⟩
    · simp only [scaleV]
      rw [div_mul_cancel₀ _ (ne_of_gt hx)]
    · simp only [scaleV]
      rw [div_mul_eq_mul_div, eq_div_iff (ne_of_gt hx)]
      linear_combination h'
  · refine ⟨v.y / u.y, Vec2.ext' ?_ ?_⟩
    · simp only [scaleV, hx0, mul_zero]
      rw [hx0] at h'
      have h2 : u.y * v.x = 0 := by linarith
      rcases mul_eq_zero.mp h2 with h3 | h3
      · exact absurd h3 (ne_of_gt hy)
      · exact h3
    · simp only [scaleV]
      rw [div_mul_cancel₀ _ (ne_of_gt hy)]

/-! Cross-product identities and collinearity propagation. -/

theorem cross3_cyclic (a b c : Vec2) : cross3 a b c = cross3 b c a := by
  simp only [cross3]; ring

theorem cross3_swap (a b c : Vec2) : cross3 b a c = -(cross3 a b c) := by
  simp only [cross3]; ring

theorem cross3_cocycle (a b p q : Vec2) :
    cross3 a p q = cross3 b p q + cross3 a b q - cross3 a b p := by
  simp only [cross3]; ring

theorem cross3_first_eq (a c : Vec2) : cross3 a a c = 0 := by
  simp only [cross3]; ring

theorem cross3_last_eq (a b : Vec2) : cross3 a b b = 0 := by
  simp only [cross3]; ring

theorem cross3_outer_eq (a b : Vec2) : cross3 a b a = 0 := by
  simp only [cross3]; ring

theorem cross3_sub_left (a b q : Vec2) : (b - a).cross (q - a) = cross3 a b q := rfl

theorem cross3_sub_mid (a b q : Vec2) : (b - a).cross (q - b) = cross3 a b q := by
  simp only [Vec2.cross, Vec2.sub_def, cross3]; ring

theorem negV_sub (a b : Vec2) : negV (a - b) = b - a := by
  refine Vec2.ext' ?_ ?_ <;> simp only [negV, Vec2.sub_def] <;> ring

/-- All points with vanishing cross against a fixed non-degenerate segment
are mutually collinear. -/
theorem all_on_line {a b x y z : Vec2} (hab : lexPos (b - a))
    (hx : cross3 a b x = 0) (hy : cross3 a b y = 0) (hz : cross3 a b z = 0) :
    cross3 x y z = 0 := by
  have hx' : (b - a).cross (x - a) = 0 := hx
  have hy' : (b - a).cross (y - a) = 0 := hy
  have hz' : (b - a).cross (z - a) = 0 := hz
  obtain ⟨lx, hlx⟩ := collinear_scale hx' hab
  obtain ⟨ly, hly⟩ := collinear_scale hy' hab
  obtain ⟨lz, hlz⟩ := collinear_scale hz' hab
  have ex1 := congrArg Vec2.x hlx
  have ex2 := congrArg Vec2.y hlx
  have ey1 := congrArg Vec2.x hly
  have ey2 := congrArg Vec2.y hly
  have ez1 := congrArg Vec2.x hlz
  have ez2 := congrArg Vec2.y hlz
  simp only [Vec2.sub_def, scaleV] at ex1 ex2 ey1 ey2 ez1 ez2
  have h1 : y - x = scaleV (ly - lx) (b - a) := by
    refine Vec2.ext' ?_ ?_
    · simp only [Vec2.sub_def, scaleV]
      linear_combination ey1 - ex1
    · simp only [Vec2.sub_def, scaleV]
      linear_combination ey2 - ex2
  have h2 : z - x = scaleV (lz - lx) (b - a) := by
    refine Vec2.ext' ?_ ?_
    · simp only [Vec2.sub_def, scaleV]
      linear_combination ez1 - ex1
    · simp only [Vec2.sub_def, scaleV]
      linear_combination ez2 - ex2
  rw [← cross3_sub_left x y z, h1, h2]
  simp only [Vec2.cross, scaleV]
  ring

/-- At a hull junction around the lex-maximum `b`: if the incoming edge
`a → b` and outgoing edge `b → c` are collinear while supporting every
point, the whole input is flat against `a → b`. -/
theorem junction_max {a b c : Vec2} (hcol : cross3 a b c = 0) (h1 : lexPos (b - a))
    (h2 : lexPos (b - c)) {q : Vec2} (hs1 : 0 ≤ cross3 a b q) (hs2 : 0 ≤ cross3 b c q) :
    cross3 a b q = 0 := by
  have h' : (b.x - a.x) * (c.y - a.y) - (b.y - a.y) * (c.x - a.x) = 0 := hcol
  have hc : (b - a).cross (c - b) = 0 := by
    simp only [Vec2.cross, Vec2.sub_def]
    linear_combination h'
  obtain ⟨l, hl⟩ := collinear_scale hc h1
  have hlneg : l < 0 := by
    refine (lexPos_scale_neg_iff h1).mp ?_
    have he : negV (scaleV l (b - a)) = b - c := by
      rw [← hl]
      exact negV_sub c b
    rw [he]
    exact h2
  have e1 := congrArg Vec2.x hl
  have e2 := congrArg Vec2.y hl
  simp only [Vec2.sub_def, scaleV] at e1 e2
  have hrel : cross3 b c q = l * cross3 a b q := by
    simp only [cross3]
    linear_combination (q.y - b.y) * e1 - (q.x - b.x) * e2
  rcases eq_or_lt_of_le hs1 with h0 | hpos
  · exact h0.symm
  · exfalso
    have hneg := mul_neg_of_neg_of_pos hlneg hpos
    rw [hrel] at hs2
    linarith

/-- At a hull junction around the lex-minimum `b`: same flatness conclusion
with both edges pointing lexicographically up from `b`. -/
theorem junction_min {a b c : Vec2} (hcol : cross3 a b c = 0) (h1 : lexPos (a - b))
    (h2 : lexPos (c - b)) {q : Vec2} (hs1 : 0 ≤ cross3 a b q) (hs2 : 0 ≤ cross3 b c q) :
    cross3 a b q = 0 := by
  have h' : (b.x - a.x) * (c.y - a.y) - (b.y - a.y) * (c.x - a.x) = 0 := hcol
  have hc : (a - b).cross (c - b) = 0 := by
    simp only [Vec2.cross, Vec2.sub_def]
    linear_combination -h'
  obtain ⟨l, hl⟩ := collinear_scale hc h1
  have hlpos : 0 < l := (lexPos_scale_iff h1).mp (by rw [← hl]; exact h2)
  have e1 := congrArg Vec2.x hl
  have e2 := congrArg Vec2.y hl
  simp only [Vec2.sub_def, scaleV] at e1 e2
  have hrel : cross3 b c q = -(l * cross3 a b q) := by
    simp only [cross3]
    linear_combination (q.y - b.y) * e1 - (q.x - b.x) * e2
  rcases eq_or_lt_of_le hs1 with h0 | hpos
  · exact h0.symm
  · exfalso
    have hneg := mul_pos hlpos hpos
    rw [hrel] at hs2
    linarith

/-- On an all-collinear input every monotone chain keeps at most two points. -/
theorem buildChain_collapse (S : List Vec2)
    (hcol : ∀ x ∈ S, ∀ y ∈ S, ∀ z ∈ S, cross3 x y z = 0) :
    ∀ (rest s : List Vec2), (∀ x ∈ rest, x ∈ S) → (∀ x ∈ s, x ∈ S) →
      s.length ≤ 2 →
      ((rest.foldl (fun chain p => p :: popBad p chain) s).length ≤ 2 ∧
        ∀ x ∈ rest.foldl (fun chain p => p :: popBad p chain) s, x ∈ S) := by
  intro rest
  induction rest with
  | nil => intro s hr hs hlen; exact ⟨hlen, hs⟩
  | cons p rest ih =>
    intro s hr hs hlen
    simp only [List.foldl_cons]
    have hpS : p ∈ S := hr p (List.mem_cons_self _ _)
    have hpop_len : (popBad p s).length ≤ 1 := by
      match s, hlen with
      | [], _ => simp [popBad]
      | [x], _ => simp [popBad]
      | [b, a], _ =>
        have hc : cross3 a b p ≤ 0 :=
          le_of_eq (hcol a (hs a (by simp)) b (hs b (by simp)) p hpS)
        simp only [popBad, if_pos hc]
        simp [popBad]
    have hpop_mem : ∀ x ∈ popBad p s, x ∈ S := by
      intro x hx
      refine hs x ?_
      clear hpop_len hlen
      induction s with
      | nil => simpa [popBad] using hx
      | cons b tail ihs =>
        match tail with
        | [] => simpa [popBad] using hx
        | a :: rest2 =>
          by_cases hc : cross3 a b p ≤ 0
          · simp only [popBad, if_pos hc] at hx
            have := ihs (fun y hy => hs y (List.mem_cons_of_mem _ hy)) ?_
            · exact List.mem_cons_of_mem _ this
            · simpa [popBad] using hx
          · simp only [popBad, if_neg hc] at hx
            exact hx
    refine ih _ (fun x hx => hr x (List.mem_cons_of_mem _ hx)) ?_ ?_
    · intro x hx
      rcases List.mem_cons.mp hx with h | h
      · exact h ▸ hpS
      · exact hpop_mem x h
    · simp only [List.length_cons]
      omega

/-! Stack invariants for the monotone chain.  The chain is kept as a stack
(head = most recently pushed point); `StackLt` says it strictly decreases
lexicographically downward, `StackConvex` that consecutive triples turn
counter-clockwise (read bottom-up), `SupportsPt q` that `q` lies on or left
of every chain edge (directed bottom-up). -/

def StackLt : List Vec2 → Prop
  | b :: a :: rest => lexLt a b ∧ StackLt (a :: rest)
  | _ => True

def StackConvex : List Vec2 → Prop
  | c :: b :: a :: rest => 0 < cross3 a b c ∧ StackConvex (b :: a :: rest)
  | _ => True

def SupportsPt (q : Vec2) : List Vec2 → Prop
  | b :: a :: rest => 0 ≤ cross3 a b q ∧ SupportsPt q (a :: rest)
  | _ => True

theorem stackLt_tail : ∀ {l : List Vec2} {x : Vec2}, StackLt (x :: l) → StackLt l := by
  intro l x h
  match l with
  | [] => simp [StackLt]
  | y :: m =>
    simp only [StackLt] at h
    exact h.2

theorem stackConvex_tail : ∀ {l : List Vec2} {x : Vec2},
    StackConvex (x :: l) → StackConvex l := by
  intro l x h
  match l with
  | [] => simp [StackConvex]
  | [y] => simp [StackConvex]
  | y :: z :: m =>
    simp only [StackConvex] at h
    exact h.2

theorem supportsPt_tail {q : Vec2} : ∀ {l : List Vec2} {x : Vec2},
    SupportsPt q (x :: l) → SupportsPt q l := by
  intro l x h
  match l with
  | [] => simp [SupportsPt]
  | y :: m =>
    simp only [SupportsPt] at h
    exact h.2

theorem popBad_mem (p : Vec2) : ∀ (s : List Vec2), ∀ x ∈ popBad p s, x ∈ s := by
  intro s
  induction s with
  | nil => intro x hx; simpa [popBad] using hx
  | cons b tail ih =>
    cases tail with
    | nil => intro x hx; simpa [popBad] using hx
    | cons a rest =>
      intro x hx
      by_cases hc : cross3 a b p ≤ 0
      · simp only [popBad, if_pos hc] at hx
        exact List.mem_cons_of_mem _ (ih x hx)
      · simp only [popBad, if_neg hc] at hx
        exact hx

theorem popBad_ne_nil (p : Vec2) : ∀ (s : List Vec2), s ≠ [] → popBad p s ≠ [] := by
  intro s
  induction s with
  | nil => intro h; exact absurd rfl h
  | cons b tail ih =>
    cases tail with
    | nil => intro _; simp [popBad]
    | cons a rest =>
      intro _
      by_cases hc : cross3 a b p ≤ 0
      · simp only [popBad, if_pos hc]
        exact ih (List.cons_ne_nil _ _)
      · simp only [popBad, if_neg hc]
        exact List.cons_ne_nil _ _

theorem popBad_getLastD (p d : Vec2) : ∀ (s : List Vec2),
    (popBad p s).getLastD d = s.getLastD d := by
  intro s
  induction s with
  | nil => rfl
  | cons b tail ih =>
    cases tail with
    | nil => rfl
    | cons a rest =>
      by_cases hc : cross3 a b p ≤ 0
      · simp only [popBad, if_pos hc]
        rw [ih]
        rfl
      · simp only [popBad, if_neg hc]

theorem popBad_stackLt (p : Vec2) : ∀ (s : List Vec2), StackLt s → StackLt (popBad p s) := by
  intro s
  induction s with
  | nil => intro h; exact h
  | cons b tail ih =>
    cases tail with
    | nil => intro h; exact h
    | cons a rest =>
      intro h
      by_cases hc : cross3 a b p ≤ 0
      · simp only [popBad, if_pos hc]
        exact ih (stackLt_tail h)
      · simp only [popBad, if_neg hc]
        exact h

theorem popBad_convex (p : Vec2) : ∀ (s : List Vec2),
    StackConvex s → StackConvex (popBad p s) := by
  intro s
  induction s with
  | nil => intro h; exact h
  | cons b tail ih =>
    cases tail with
    | nil => intro h; exact h
    | cons a rest =>
      intro h
      by_cases hc : cross3 a b p ≤ 0
      · simp only [popBad, if_pos hc]
        exact ih (stackConvex_tail h)
      · simp only [popBad, if_neg hc]
        exact h

theorem popBad_supports (p q : Vec2) : ∀ (s : List Vec2),
    SupportsPt q s → SupportsPt q (popBad p s) := by
  intro s
  induction s with
  | nil => intro h; exact h
  | cons b tail ih =>
    cases tail with
    | nil => intro h; exact h
    | cons a rest =>
      intro h
      by_cases hc : cross3 a b p ≤ 0
      · simp only [popBad, if_pos hc]
        exact ih (supportsPt_tail h)
      · simp only [popBad, if_neg hc]
        exact h

/-- Shape of a popped stack: empty, a singleton, or topped by an edge that
keeps `p` strictly counter-clockwise. -/
theorem popBad_stop (p : Vec2) : ∀ (s : List Vec2),
    popBad p s = [] ∨ (∃ x, popBad p s = [x]) ∨
      ∃ b a rest, popBad p s = b :: a :: rest ∧ 0 < cross3 a b p := by
  intro s
  induction s with
  | nil => exact Or.inl rfl
  | cons b tail ih =>
    cases tail with
    | nil => exact Or.inr (Or.inl ⟨b, rfl⟩)
    | cons a rest =>
      by_cases hc : cross3 a b p ≤ 0
      · simp only [popBad, if_pos hc]
        exact ih
      · simp only [popBad, if_neg hc]
        exact Or.inr (Or.inr ⟨b, a, rest, rfl, lt_of_not_le hc⟩)

/-- Carrying support downward: once the current top supports `q` against
`p`, popping preserves that. -/
theorem popBad_carry (p q : Vec2) : ∀ (s : List Vec2), SupportsPt q s →
    0 ≤ cross3 s.headI p q → 0 ≤ cross3 (popBad p s).headI p q := by
  intro s
  induction s with
  | nil => intro _ h; exact h
  | cons b tail ih =>
    cases tail with
    | nil => intro _ h; exact h
    | cons a rest =>
      intro hsup hbase
      simp only [SupportsPt] at hsup
      by_cases hc : cross3 a b p ≤ 0
      · simp only [popBad, if_pos hc]
        refine ih hsup.2 ?_
        show 0 ≤ cross3 a p q
        rw [cross3_cocycle a b p q]
        have h1 := hsup.1
        have h2 : 0 ≤ cross3 b p q := hbase
        linarith
      · simp only [popBad, if_neg hc]
        exact hbase

/-- Main support lemma: after popping for `p`, the new top edge `top → p`
keeps every already-processed point `q` on its counter-clockwise side. -/
theorem popBad_support_head (p q : Vec2) : ∀ (s : List Vec2), s ≠ [] → StackLt s →
    SupportsPt q s → lexLe (s.getLastD default) q → lexLe q s.headI →
    lexLt s.headI p → 0 ≤ cross3 (popBad p s).headI p q := by
  intro s
  induction s with
  | nil => intro h; exact absurd rfl h
  | cons b tail ih =>
    cases tail with
    | nil =>
      intro _ _ _ hbot htop _
      have hq : q = b := lexLe_antisymm htop hbot
      rw [hq]
      exact le_of_eq (cross3_outer_eq b p).symm
    | cons a rest =>
      intro _ hSL hsup hbot htop hp
      simp only [StackLt] at hSL
      simp only [SupportsPt] at hsup
      by_cases hc : cross3 a b p ≤ 0
      · simp only [popBad, if_pos hc]
        by_cases hqa : lexLe q a
        · refine ih (List.cons_ne_nil _ _) hSL.2 hsup.2 ?_ hqa
            (lexLt_trans hSL.1 hp)
          exact hbot
        · have haq : lexLt a q := lexLt_of_not_lexLe hqa
          have hu : lexPos (b - a) := lexPos_sub_iff.mpr hSL.1
          have hx : lexPos (p - a) := lexPos_sub_iff.mpr (lexLt_trans hSL.1 hp)
          have hy : lexNonneg (q - a) := lexNonneg_of_lexPos (lexPos_sub_iff.mpr haq)
          have hux : (b - a).cross (p - a) ≤ 0 := by rw [cross3_sub_left]; exact hc
          have huy : 0 ≤ (b - a).cross (q - a) := by rw [cross3_sub_left]; exact hsup.1
          have hbase := cone_B hu hx hy hux huy
          exact popBad_carry p q (a :: rest) hsup.2 hbase
      · simp only [popBad, if_neg hc]
        have hu : lexPos (b - a) := lexPos_sub_iff.mpr hSL.1
        have hv : lexPos (p - b) := lexPos_sub_iff.mpr hp
        have hw : lexNonneg (negV (q - b)) := by rw [negV_sub]; exact lexNonneg_sub_iff.mpr htop
        have huv : 0 < (b - a).cross (p - b) := by rw [cross3_sub_mid]; exact lt_of_not_le hc
        have huw : 0 ≤ (b - a).cross (q - b) := by rw [cross3_sub_mid]; exact hsup.1
        exact cone_A hu hv hw huv huw

/-- The pushed point lies on or left of every edge remaining after popping. -/
theorem popBad_supports_self (p : Vec2) : ∀ (s : List Vec2), StackConvex s → StackLt s →
    (∀ x ∈ s, lexLt x p) → (∀ b a rest, s = b :: a :: rest → 0 ≤ cross3 a b p) →
    SupportsPt p s := by
  intro s
  induction s with
  | nil => intro _ _ _ _; simp [SupportsPt]
  | cons b tail ih =>
    cases tail with
    | nil => intro _ _ _ _; simp [SupportsPt]
    | cons a rest =>
      intro hcvx hSL hmem htop
      simp only [StackLt] at hSL
      simp only [SupportsPt]
      refine ⟨htop b a rest rfl, ?_⟩
      refine ih (stackConvex_tail hcvx) hSL.2
        (fun x hx => hmem x (List.mem_cons_of_mem _ hx)) ?_
      rintro b' a' rest' heq
      obtain ⟨hba, hrest⟩ : a = b' ∧ rest = a' :: rest' := by
        constructor
        · exact (List.cons.injEq _ _ _ _).mp heq |>.1
        · exact (List.cons.injEq _ _ _ _).mp heq |>.2
      subst hba
      subst hrest
      simp only [StackConvex] at hcvx
      have hcvx1 : 0 < cross3 a' a b := hcvx.1
      have hu : lexPos (b - a) := lexPos_sub_iff.mpr hSL.1
      have hx : lexPos (a - a') := lexPos_sub_iff.mpr hSL.2.1
      have hy : lexNonneg (p - a) :=
        lexNonneg_of_lexPos (lexPos_sub_iff.mpr (hmem a (by simp)))
      have hux : (b - a).cross (a - a') ≤ 0 := by
        have h1 : (b - a).cross (a - a') = -(cross3 a' a b) := by
          simp only [Vec2.cross, Vec2.sub_def, cross3]
          ring
        rw [h1]
        linarith
      have huy : 0 ≤ (b - a).cross (p - a) := by
        rw [cross3_sub_left]
        exact htop b a (a' :: rest') rfl
      have hres := cone_B hu hx hy hux huy
      have h2 : (a - a').cross (p - a) = cross3 a' a p := cross3_sub_mid a' a p
      rw [h2] at hres
      exact hres

theorem getLastD_mem : ∀ (l : List Vec2) (d : Vec2), l ≠ [] → l.getLastD d ∈ l := by
  intro l
  induction l with
  | nil => intro d h; exact absurd rfl h
  | cons x tail ih =>
    intro d _
    cases tail with
    | nil => simp
    | cons y m =>
      have h1 : (x :: y :: m).getLastD d = (y :: m).getLastD d := by
        simp [List.getLastD]
      rw [h1]
      exact List.mem_cons_of_mem _ (ih d (List.cons_ne_nil _ _))

theorem headI_mem_self : ∀ (l : List Vec2), l ≠ [] → l.headI ∈ l := by
  intro l h
  cases l with
  | nil => exact absurd rfl h
  | cons x tail => exact List.mem_cons_self _ _

/-- Invariant of the monotone-chain fold: `s` is the stack after processing
exactly the points of `P` (in order). -/
structure ChainInv (P s : List Vec2) : Prop where
  lt : StackLt s
  convex : StackConvex s
  supports : ∀ q ∈ P, SupportsPt q s
  mem : ∀ x ∈ s, x ∈ P
  topmax : ∀ q ∈ P, lexLe q s.headI
  botmin : ∀ q ∈ P, lexLe (s.getLastD default) q
  bot : s.getLastD default = P.headI
  nil_iff : s = [] ↔ P = []

/-- Pushing one strictly lex-larger point preserves the chain invariant. -/
theorem chain_push (P s : List Vec2) (p : Vec2) (inv : ChainInv P s)
    (hnew : ∀ q ∈ P, lexLt q p) : ChainInv (P ++ [p]) (p :: popBad p s) := by
  have hmem' : ∀ x ∈ popBad p s, x ∈ P := fun x hx => inv.mem x (popBad_mem p s x hx)
  have hheadlt : ∀ x ∈ popBad p s, lexLt x p := fun x hx => hnew x (hmem' x hx)
  by_cases hsnil : s = []
  · have hP : P = [] := inv.nil_iff.mp hsnil
    subst hsnil
    subst hP
    refine ⟨?_, ?_, ?_, ?_, ?_, ?_, ?_, ?_⟩
    · simp [popBad, StackLt]
    · simp [popBad, StackConvex]
    · intro q hq
      simp only [List.nil_append, List.mem_singleton] at hq
      rw [hq]
      simp [popBad, SupportsPt]
    · intro x hx
      simpa [popBad] using hx
    · intro q hq
      simp only [List.nil_append, List.mem_singleton] at hq
      rw [hq]
      exact lexLe_refl p
    · intro q hq
      simp only [List.nil_append, List.mem_singleton] at hq
      rw [hq]
      simp only [popBad]
      exact lexLe_refl p
    · rfl
    · simp [popBad]
  · have hs'ne : popBad p s ≠ [] := popBad_ne_nil p s hsnil
    have hhp : lexLt s.headI p := hnew _ (inv.mem _ (headI_mem_self s hsnil))
    have hsupport_head : ∀ q ∈ P, 0 ≤ cross3 (popBad p s).headI p q := fun q hq =>
      popBad_support_head p q s hsnil inv.lt (inv.supports q hq) (inv.botmin q hq)
        (inv.topmax q hq) hhp
    have hstop := popBad_stop p s
    have htopedge : ∀ b a rest, popBad p s = b :: a :: rest → 0 ≤ cross3 a b p := by
      intro b a rest heq
      rcases hstop with h | ⟨x, hx⟩ | ⟨b2, a2, rest2, heq2, hcv⟩
      · rw [heq] at h
        exact absurd h (List.cons_ne_nil _ _)
      · rw [heq] at hx
        simp at hx
      · rw [heq] at heq2
        injection heq2 with e1 e2
        injection e2 with e3 e4
        subst e1
        subst e3
        exact le_of_lt hcv
    have hself : SupportsPt p (popBad p s) :=
      popBad_supports_self p _ (popBad_convex p s inv.convex) (popBad_stackLt p s inv.lt)
        hheadlt htopedge
    have hlast : (p :: popBad p s).getLastD default = s.getLastD default := by
      rw [← popBad_getLastD p default s]
      cases hs' : popBad p s with
      | nil => exact absurd hs' hs'ne
      | cons b tail => simp [List.getLastD]
    refine ⟨?_, ?_, ?_, ?_, ?_, ?_, ?_, ?_⟩
    · cases hs' : popBad p s with
      | nil => exact absurd hs' hs'ne
      | cons b tail =>
        simp only [StackLt]
        constructor
        · refine hheadlt b ?_
          rw [hs']
          exact List.mem_cons_self _ _
        · have h := popBad_stackLt p s inv.lt
          rw [hs'] at h
          exact h
    · cases hs' : popBad p s with
      | nil => simp [StackConvex]
      | cons b tail =>
        cases tail with
        | nil => simp [StackConvex]
        | cons a rest =>
          simp only [StackConvex]
          constructor
          · rcases hstop with h | ⟨x, hx⟩ | ⟨b2, a2, rest2, heq2, hcv⟩
            · rw [hs'] at h
              simp at h
            · rw [hs'] at hx
              simp at hx
            · rw [hs'] at heq2
              injection heq2 with e1 e2
              injection e2 with e3 e4
              subst e1
              subst e3
              exact hcv
          · have h := popBad_convex p s inv.convex
            rw [hs'] at h
            exact h
    · intro q hq
      rcases List.mem_append.mp hq with hqP | hqp
      · cases hs' : popBad p s with
        | nil => simp [SupportsPt]
        | cons b tail =>
          simp only [SupportsPt]
          constructor
          · have h := hsupport_head q hqP
            rw [hs'] at h
            exact h
          · have h := popBad_supports p q s (inv.supports q hqP)
            rw [hs'] at h
            exact h
      · have hqp' : q = p := by simpa using hqp
        rw [hqp']
        cases hs' : popBad p s with
        | nil => simp [SupportsPt]
        | cons b tail =>
          simp only [SupportsPt]
          constructor
          · exact le_of_eq (cross3_last_eq b p).symm
          · have h := hself
            rw [hs'] at h
            exact h
    · intro x hx
      rcases List.mem_cons.mp hx with h | h
      · exact List.mem_append.mpr (Or.inr (by simp [h]))
      · exact List.mem_append.mpr (Or.inl (hmem' x h))
    · intro q hq
      rcases List.mem_append.mp hq with hqP | hqp
      · exact lexLe_of_lexLt (hnew q hqP)
      · have h : q = p := by simpa using hqp
        rw [h]
        exact lexLe_refl p
    · intro q hq
      rw [hlast]
      rcases List.mem_append.mp hq with hqP | hqp
      · exact inv.botmin q hqP
      · have h : q = p := by simpa using hqp
        rw [h]
        exact lexLe_of_lexLt (hnew _ (inv.mem _ (getLastD_mem s default hsnil)))
    · have hPne : P ≠ [] := fun h => hsnil (inv.nil_iff.mpr h)
      have h1 : (P ++ [p]).headI = P.headI := by
        cases P with
        | nil => exact absurd rfl hPne
        | cons x l => rfl
      rw [h1, ← inv.bot]
      exact hlast
    · constructor
      · intro h
        exact absurd h (List.cons_ne_nil _ _)
      · intro h
        exact absurd h (by simp)

/-- Folding a strictly sorted batch of new points preserves the invariant. -/
theorem chain_fold : ∀ (rest P s : List Vec2), ChainInv P s →
    (∀ q ∈ P, ∀ r ∈ rest, lexLt q r) → List.Pairwise lexLt rest →
    ChainInv (P ++ rest) (rest.foldl (fun chain p => p :: popBad p chain) s) := by
  intro rest
  induction rest with
  | nil =>
    intro P s inv _ _
    simpa using inv
  | cons p rest ih =>
    intro P s inv hsep hpw
    simp only [List.foldl_cons]
    have hpw' := List.pairwise_cons.mp hpw
    have h1 : ChainInv (P ++ [p]) (p :: popBad p s) :=
      chain_push P s p inv (fun q hq => hsep q hq p (List.mem_cons_self _ _))
    have hsep' : ∀ q ∈ P ++ [p], ∀ r ∈ rest, lexLt q r := by
      intro q hq r hr
      rcases List.mem_append.mp hq with h | h
      · exact hsep q h r (List.mem_cons_of_mem _ hr)
      · have hqp : q = p := by simpa using h
        rw [hqp]
        exact hpw'.1 r hr
    have h2 := ih (P ++ [p]) _ h1 hsep' hpw'.2
    rw [List.append_assoc] at h2
    exact h2

/-- The chain built over a strictly sorted list satisfies the invariant. -/
theorem buildChain_inv (S : List Vec2) (hS : List.Pairwise lexLt S) :
    ChainInv S (buildChain S) := by
  have hinit : ChainInv [] ([] : List Vec2) := by
    refine ⟨?_, ?_, ?_, ?_, ?_, ?_, ?_, ?_⟩
    · simp [StackLt]
    · simp [StackConvex]
    · intro q hq
      simp at hq
    · intro x hx
      simp at hx
    · intro q hq
      simp at hq
    · intro q hq
      simp at hq
    · rfl
    · simp
  have h := chain_fold S [] [] hinit (by simp) hS
  simpa [buildChain] using h

/-! Index-form readings of the stack predicates and chain endpoints. -/

theorem supportsPt_idx (q : Vec2) : ∀ (s : List Vec2), SupportsPt q s →
    ∀ i, i + 1 < s.length → 0 ≤ cross3 (s.getD (i + 1) default) (s.getD i default) q := by
  intro s
  induction s with
  | nil =>
    intro _ i hi
    simp at hi
  | cons b tail ih =>
    intro hsup i hi
    cases tail with
    | nil => simp at hi
    | cons a rest =>
      simp only [SupportsPt] at hsup
      cases i with
      | zero => simpa [List.getD_cons_zero, List.getD_cons_succ] using hsup.1
      | succ j =>
        have h := ih hsup.2 j (by simpa using hi)
        simpa [List.getD_cons_succ] using h

theorem stackLt_idx : ∀ (s : List Vec2), StackLt s →
    ∀ i, i + 1 < s.length → lexLt (s.getD (i + 1) default) (s.getD i default) := by
  intro s
  induction s with
  | nil =>
    intro _ i hi
    simp at hi
  | cons b tail ih =>
    intro hlt i hi
    cases tail with
    | nil => simp at hi
    | cons a rest =>
      simp only [StackLt] at hlt
      cases i with
      | zero => simpa [List.getD_cons_zero, List.getD_cons_succ] using hlt.1
      | succ j =>
        have h := ih hlt.2 j (by simpa using hi)
        simpa [List.getD_cons_succ] using h

theorem stackConvex_idx : ∀ (s : List Vec2), StackConvex s →
    ∀ i, i + 2 < s.length →
      0 < cross3 (s.getD (i + 2) default) (s.getD (i + 1) default) (s.getD i default) := by
  intro s
  induction s with
  | nil =>
    intro _ i hi
    simp at hi
  | cons c tail ih =>
    intro hcv i hi
    cases tail with
    | nil => simp at hi
    | cons b tail2 =>
      cases tail2 with
      | nil => simp at hi
      | cons a rest =>
        simp only [StackConvex] at hcv
        cases i with
        | zero => simpa [List.getD_cons_zero, List.getD_cons_succ] using hcv.1
        | succ j =>
          have h := ih hcv.2 j (by simpa using hi)
          simpa [List.getD_cons_succ] using h

theorem stackLt_pairwise : ∀ (s : List Vec2), StackLt s →
    List.Pairwise (fun x y => lexLt y x) s := by
  intro s
  induction s with
  | nil => intro _; simp
  | cons b tail ih =>
    intro hlt
    have hhead : ∀ y ∈ tail, lexLt y b := by
      clear ih
      induction tail generalizing b with
      | nil => intro y hy; simp at hy
      | cons a rest ihr =>
        intro y hy
        simp only [StackLt] at hlt
        rcases List.mem_cons.mp hy with h | h
        · rw [h]; exact hlt.1
        · exact lexLt_trans (ihr a hlt.2 y h) hlt.1
    exact List.pairwise_cons.mpr ⟨hhead, ih (stackLt_tail hlt)⟩

theorem stackLt_nodup (s : List Vec2) (h : StackLt s) : s.Nodup :=
  (stackLt_pairwise s h).imp (fun hab => (ne_of_lexLt hab).symm)

theorem getLastD_irrel : ∀ (l : List Vec2) (d1 d2 : Vec2), l ≠ [] →
    l.getLastD d1 = l.getLastD d2 := by
  intro l
  induction l with
  | nil => intro _ _ h; exact absurd rfl h
  | cons x tail ih =>
    intro d1 d2 _
    cases tail with
    | nil => rfl
    | cons y m =>
      have h1 : (x :: y :: m).getLastD d1 = (y :: m).getLastD d1 := by simp [List.getLastD]
      have h2 : (x :: y :: m).getLastD d2 = (y :: m).getLastD d2 := by simp [List.getLastD]
      rw [h1, h2]
      exact ih d1 d2 (List.cons_ne_nil _ _)

theorem headI_append_left (l1 l2 : List Vec2) (h : l1 ≠ []) :
    (l1 ++ l2).headI = l1.headI := by
  cases l1 with
  | nil => exact absurd rfl h
  | cons x m => rfl

theorem reverse_getLastD (l : List Vec2) (h : l ≠ []) :
    l.reverse.getLastD default = l.headI := by
  cases l with
  | nil => exact absurd rfl h
  | cons x tail =>
    rw [List.reverse_cons, List.getLastD_concat]
    rfl

theorem reverse_headI : ∀ (l : List Vec2), l ≠ [] →
    l.reverse.headI = l.getLastD default := by
  intro l
  induction l with
  | nil => intro h; exact absurd rfl h
  | cons x tail ih =>
    intro _
    cases htail : tail with
    | nil => rfl
    | cons y m =>
      subst htail
      rw [List.reverse_cons, headI_append_left _ _ (by simp), ih (List.cons_ne_nil _ _)]
      have h1 : (x :: y :: m).getLastD default = (y :: m).getLastD x := by simp [List.getLastD]
      rw [h1]
      exact getLastD_irrel (y :: m) default x (List.cons_ne_nil _ _)

theorem getD_zero_headI (l : List Vec2) (h : l ≠ []) : l.getD 0 default = l.headI := by
  cases l with
  | nil => exact absurd rfl h
  | cons x m => rfl

theorem getD_last (l : List Vec2) : ∀ (h : l ≠ []),
    l.getD (l.length - 1) default = l.getLastD default := by
  induction l with
  | nil => intro h; exact absurd rfl h
  | cons x tail ih =>
    intro _
    cases htail : tail with
    | nil => rfl
    | cons y m =>
      subst htail
      have hlen : (x :: y :: m).length - 1 = (y :: m).length - 1 + 1 := by
        simp
      rw [hlen, List.getD_cons_succ, ih (List.cons_ne_nil _ _)]
      simp [List.getLastD]

theorem sorted_head_min (S : List Vec2) (hS : List.Pairwise lexLt S) :
    ∀ q ∈ S, lexLe S.headI q := by
  intro q hq
  cases S with
  | nil => simp at hq
  | cons x tail =>
    rcases List.mem_cons.mp hq with h | h
    · rw [h]
      exact lexLe_refl x
    · exact lexLe_of_lexLt ((List.pairwise_cons.mp hS).1 q h)

theorem sorted_last_max : ∀ (S : List Vec2), List.Pairwise lexLt S →
    ∀ q ∈ S, lexLe q (S.getLastD default) := by
  intro S
  induction S with
  | nil => intro _ q hq; simp at hq
  | cons x tail ih =>
    intro hS q hq
    cases htail : tail with
    | nil =>
      subst htail
      have : q = x := by simpa using hq
      rw [this]
      exact lexLe_refl x
    | cons y m =>
      subst htail
      have hcol : (x :: y :: m).getLastD default = (y :: m).getLastD default := by
        simp [List.getLastD]
      rw [hcol]
      rcases List.mem_cons.mp hq with h | h
      · rw [h]
        have hmem : (y :: m).getLastD default ∈ y :: m :=
          getLastD_mem _ _ (List.cons_ne_nil _ _)
        exact lexLe_of_lexLt ((List.pairwise_cons.mp hS).1 _ hmem)
      · exact ih (List.pairwise_cons.mp hS).2 q h

/-- The top of the chain is the lex-maximum, i.e. the last sorted point. -/
theorem chain_top (S C : List Vec2) (hS : List.Pairwise lexLt S) (inv : ChainInv S C)
    (hne : S ≠ []) : C.headI = S.getLastD default := by
  have hCne : C ≠ [] := fun h => hne (inv.nil_iff.mp h)
  have h1 : C.headI ∈ S := inv.mem _ (headI_mem_self C hCne)
  have h2 : S.getLastD default ∈ S := getLastD_mem S default hne
  exact lexLe_antisymm (sorted_last_max S hS _ h1) (inv.topmax _ h2)

/-- With at least two distinct sorted points the chain keeps at least two. -/
theorem chain_two_le (S C : List Vec2) (hS : List.Pairwise lexLt S) (inv : ChainInv S C)
    (h2 : 2 ≤ S.length) : 2 ≤ C.length := by
  have hne : S ≠ [] := by
    intro h
    rw [h] at h2
    simp at h2
  have hCne : C ≠ [] := fun h => hne (inv.nil_iff.mp h)
  have hne2 : S.headI ≠ S.getLastD default := by
    cases S with
    | nil => simp at h2
    | cons x tail =>
      cases tail with
      | nil => simp at h2
      | cons y m =>
        have hcol : (x :: y :: m).getLastD default = (y :: m).getLastD default := by
          simp [List.getLastD]
        have hmem : (x :: y :: m).getLastD default ∈ y :: m := by
          rw [hcol]
          exact getLastD_mem _ _ (List.cons_ne_nil _ _)
        exact ne_of_lexLt ((List.pairwise_cons.mp hS).1 _ hmem)
  by_contra hlt
  push_neg at hlt
  have h1 : C.length = 1 := by
    have h0 : C.length ≠ 0 := fun h => hCne (List.length_eq_zero.mp h)
    omega
  obtain ⟨z, hz⟩ := List.length_eq_one.mp h1
  have ht := chain_top S C hS inv hne
  have hb := inv.bot
  rw [hz] at ht hb
  simp only [List.headI_cons] at ht
  have hb' : z = S.headI := hb
  exact hne2 (by rw [← hb', ht])

/-! Negation transfer: the upper chain is the lower chain of the negated
point set. -/

theorem popBad_map_neg (p : Vec2) : ∀ (s : List Vec2),
    popBad (negV p) (s.map negV) = (popBad p s).map negV := by
  intro s
  induction s with
  | nil => rfl
  | cons b tail ih =>
    cases tail with
    | nil => rfl
    | cons a rest =>
      have hc3 : cross3 (negV a) (negV b) (negV p) = cross3 a b p := cross3_negV a b p
      by_cases hc : cross3 a b p ≤ 0
      · have hc2 : cross3 (negV a) (negV b) (negV p) ≤ 0 := by rw [hc3]; exact hc
        simp only [List.map_cons, popBad, if_pos hc, if_pos hc2]
        simpa using ih
      · have hc2 : ¬ cross3 (negV a) (negV b) (negV p) ≤ 0 := by rw [hc3]; exact hc
        simp only [List.map_cons, popBad, if_neg hc, if_neg hc2]

theorem chainFold_map_neg : ∀ (l s : List Vec2),
    (l.map negV).foldl (fun chain p => p :: popBad p chain) (s.map negV) =
      (l.foldl (fun chain p => p :: popBad p chain) s).map negV := by
  intro l
  induction l with
  | nil => intro s; simp
  | cons p rest ih =>
    intro s
    simp only [List.map_cons, List.foldl_cons]
    rw [popBad_map_neg]
    have hcons : negV p :: (popBad p s).map negV = (p :: popBad p s).map negV := by
      simp
    rw [hcons]
    exact ih (p :: popBad p s)

theorem buildChain_map_neg (l : List Vec2) :
    buildChain (l.map negV) = (buildChain l).map negV := by
  unfold buildChain
  have h := chainFold_map_neg l []
  simpa using h

theorem map_negV_negV (l : List Vec2) : (l.map negV).map negV = l := by
  rw [List.map_map]
  have h : (negV ∘ negV) = id := by
    funext x
    exact negV_negV x
  rw [h, List.map_id]

theorem reverse_eq_map_neg (S : List Vec2) :
    S.reverse = ((S.map negV).reverse).map negV := by
  rw [← List.map_reverse, map_negV_negV]

theorem pairwise_neg_reverse (S : List Vec2) (hS : List.Pairwise lexLt S) :
    List.Pairwise lexLt ((S.map negV).reverse) := by
  rw [List.pairwise_reverse, List.pairwise_map]
  exact hS.imp (fun h => lexLt_negV.mpr h)

theorem getD_map_negV (l : List Vec2) (k : ℕ) (h : k < l.length) :
    (l.map negV).getD k default = negV (l.getD k default) := by
  rw [List.getD_eq_getElem?_getD, List.getD_eq_getElem?_getD, List.getElem?_map,
    List.getElem?_eq_getElem h]
  rfl

theorem headI_map_negV (l : List Vec2) (h : l ≠ []) :
    (l.map negV).headI = negV l.headI := by
  cases l with
  | nil => exact absurd rfl h
  | cons x m => rfl

theorem getLastD_map_negV : ∀ (l : List Vec2), l ≠ [] →
    (l.map negV).getLastD default = negV (l.getLastD default) := by
  intro l
  induction l with
  | nil => intro h; exact absurd rfl h
  | cons x tail ih =>
    intro _
    cases htail : tail with
    | nil => rfl
    | cons y m =>
      subst htail
      have h1 : ((x :: y :: m).map negV).getLastD default =
          ((y :: m).map negV).getLastD default := by
        simp [List.getLastD]
      have h2 : (x :: y :: m).getLastD default = (y :: m).getLastD default := by
        simp [List.getLastD]
      rw [h1, h2]
      exact ih (List.cons_ne_nil _ _)

theorem cross3_negV2 (a b q : Vec2) : cross3 (negV a) (negV b) q = cross3 a b (negV q) := by
  simp only [cross3, negV]
  ring

theorem negV_injective : Function.Injective negV := by
  intro a b h
  rw [← negV_negV a, h, negV_negV]

/-- The upper chain as the negated lower chain of the negated points. -/
theorem upper_eq_map_neg (S : List Vec2) :
    buildChain S.reverse = (buildChain ((S.map negV).reverse)).map negV := by
  conv_lhs => rw [reverse_eq_map_neg S]
  exact buildChain_map_neg _

theorem upper_length (S : List Vec2) :
    (buildChain S.reverse).length = (buildChain ((S.map negV).reverse)).length := by
  rw [upper_eq_map_neg, List.length_map]

theorem upper_supports (S : List Vec2) (hS : List.Pairwise lexLt S) :
    ∀ q ∈ S, ∀ k, k + 1 < (buildChain S.reverse).length →
      0 ≤ cross3 ((buildChain S.reverse).getD (k + 1) default)
        ((buildChain S.reverse).getD k default) q := by
  intro q hq k hk
  have invW := buildChain_inv _ (pairwise_neg_reverse S hS)
  have hqW : negV q ∈ (S.map negV).reverse :=
    List.mem_reverse.mpr (List.mem_map_of_mem negV hq)
  have hk' : k + 1 < (buildChain ((S.map negV).reverse)).length := by
    rw [← upper_length]
    exact hk
  have h := supportsPt_idx (negV q) _ (invW.supports (negV q) hqW) k hk'
  rw [upper_eq_map_neg, getD_map_negV _ _ hk', getD_map_negV _ _ (by omega), cross3_negV2]
  exact h

theorem upper_lt (S : List Vec2) (hS : List.Pairwise lexLt S) :
    ∀ k, k + 1 < (buildChain S.reverse).length →
      lexLt ((buildChain S.reverse).getD k default)
        ((buildChain S.reverse).getD (k + 1) default) := by
  intro k hk
  have invW := buildChain_inv _ (pairwise_neg_reverse S hS)
  have hk' : k + 1 < (buildChain ((S.map negV).reverse)).length := by
    rw [← upper_length]
    exact hk
  have h := stackLt_idx _ invW.lt k hk'
  rw [upper_eq_map_neg, getD_map_negV _ _ hk', getD_map_negV _ _ (by omega)]
  exact lexLt_negV.mpr h

theorem upper_convex_idx (S : List Vec2) (hS : List.Pairwise lexLt S) :
    ∀ k, k + 2 < (buildChain S.reverse).length →
      0 < cross3 ((buildChain S.reverse).getD (k + 2) default)
        ((buildChain S.reverse).getD (k + 1) default)
        ((buildChain S.reverse).getD k default) := by
  intro k hk
  have invW := buildChain_inv _ (pairwise_neg_reverse S hS)
  have hk' : k + 2 < (buildChain ((S.map negV).reverse)).length := by
    rw [← upper_length]
    exact hk
  have h := stackConvex_idx _ invW.convex k hk'
  rw [upper_eq_map_neg, getD_map_negV _ _ hk', getD_map_negV _ _ (by omega),
    getD_map_negV _ _ (by omega), cross3_negV]
  exact h

theorem upper_mem_S (S : List Vec2) (hS : List.Pairwise lexLt S) :
    ∀ x ∈ buildChain S.reverse, x ∈ S := by
  intro x hx
  have invW := buildChain_inv _ (pairwise_neg_reverse S hS)
  rw [upper_eq_map_neg] at hx
  obtain ⟨y, hy, hxy⟩ := List.mem_map.mp hx
  have hyW := invW.mem y hy
  obtain ⟨z, hz, hyz⟩ := List.mem_map.mp (List.mem_reverse.mp hyW)
  rw [← hxy, ← hyz, negV_negV]
  exact hz

theorem upper_nodup (S : List Vec2) (hS : List.Pairwise lexLt S) :
    (buildChain S.reverse).Nodup := by
  have invW := buildChain_inv _ (pairwise_neg_reverse S hS)
  rw [upper_eq_map_neg]
  exact (stackLt_nodup _ invW.lt).map negV_injective

/-- Lengths and the four endpoint values of the two chains. -/
theorem hull_setup (S : List Vec2) (hS : List.Pairwise lexLt S) (h3 : 3 ≤ S.length) :
    2 ≤ (buildChain S).length ∧ 2 ≤ (buildChain S.reverse).length ∧
      (buildChain S).getD 0 default = S.getLastD default ∧
      (buildChain S).getD ((buildChain S).length - 1) default = S.headI ∧
      (buildChain S.reverse).getD 0 default = S.headI ∧
      (buildChain S.reverse).getD ((buildChain S.reverse).length - 1) default =
        S.getLastD default := by
  have hSne : S ≠ [] := by
    intro h
    rw [h] at h3
    simp at h3
  have invL := buildChain_inv S hS
  have hW := pairwise_neg_reverse S hS
  have invW := buildChain_inv _ hW
  have hmapne : S.map negV ≠ [] := by
    intro h
    exact hSne (List.map_eq_nil_iff.mp h)
  have hWne : (S.map negV).reverse ≠ [] := by
    intro h
    exact hmapne (List.reverse_eq_nil_iff.mp h)
  have hWlen : ((S.map negV).reverse).length = S.length := by
    rw [List.length_reverse, List.length_map]
  have hLne : buildChain S ≠ [] := fun h => hSne (invL.nil_iff.mp h)
  have hCWne : buildChain ((S.map negV).reverse) ≠ [] := fun h => hWne (invW.nil_iff.mp h)
  have hL2 : 2 ≤ (buildChain S).length := chain_two_le S _ hS invL (by omega)
  have hCW2 : 2 ≤ (buildChain ((S.map negV).reverse)).length :=
    chain_two_le _ _ hW invW (by omega)
  have hU2 : 2 ≤ (buildChain S.reverse).length := by
    rw [upper_length]
    exact hCW2
  refine ⟨hL2, hU2, ?_, ?_, ?_, ?_⟩
  · rw [getD_zero_headI _ hLne]
    exact chain_top S _ hS invL hSne
  · rw [getD_last _ hLne]
    exact invL.bot
  · have hUne : buildChain S.reverse ≠ [] := by
      intro h
      rw [h] at hU2
      simp at hU2
    rw [getD_zero_headI _ hUne, upper_eq_map_neg, headI_map_negV _ hCWne,
      chain_top _ _ hW invW hWne, reverse_getLastD _ hmapne, headI_map_negV _ hSne,
      negV_negV]
  · have hUne : buildChain S.reverse ≠ [] := by
      intro h
      rw [h] at hU2
      simp at hU2
    have hlen : (buildChain S.reverse).length - 1 =
        (buildChain ((S.map negV).reverse)).length - 1 := by
      rw [upper_length]
    rw [hlen, upper_eq_map_neg]
    have hlen2 : (buildChain ((S.map negV).reverse)).length - 1 =
        ((buildChain ((S.map negV).reverse)).map negV).length - 1 := by
      rw [List.length_map]
    rw [hlen2, getD_last _ (by simpa using hCWne), getLastD_map_negV _ hCWne, invW.bot,
      reverse_headI _ hmapne, getLastD_map_negV _ hSne, negV_negV]

theorem reverse_dropLast (l : List Vec2) : l.reverse.dropLast = l.tail.reverse := by
  cases l with
  | nil => rfl
  | cons x m =>
    rw [List.reverse_cons, List.dropLast_concat]
    rfl

theorem getD_tail_reverse (l : List Vec2) (i : ℕ) (h : i < l.length - 1) :
    l.tail.reverse.getD i default = l.getD (l.length - 1 - i) default := by
  have hlen : l.tail.length = l.length - 1 := List.length_tail l
  have hi : i < l.tail.length := by omega
  rw [List.getD_eq_getElem?_getD, List.getD_eq_getElem?_getD, List.getElem?_reverse hi,
    List.getElem?_tail]
  have he : l.tail.length - 1 - i + 1 = l.length - 1 - i := by omega
  rw [he]

/-- Hull element in the lower-chain range (`m` counts from the hull start,
i.e. from the chain bottom). -/
theorem hull_getD_low (S h : List Vec2)
    (hh : h = (buildChain S).reverse.dropLast ++ (buildChain S.reverse).reverse.dropLast)
    (hS : List.Pairwise lexLt S) (h3 : 3 ≤ S.length) :
    ∀ m, m < (buildChain S).length →
      h.getD m default = (buildChain S).getD ((buildChain S).length - 1 - m) default := by
  obtain ⟨hL2, hU2, hlow0, hlowLast, hup0, hupLast⟩ := hull_setup S hS h3
  have hAlen : ((buildChain S).reverse.dropLast).length = (buildChain S).length - 1 := by
    rw [List.length_dropLast, List.length_reverse]
  intro m hm
  by_cases hml : m < (buildChain S).length - 1
  · rw [hh, List.getD_eq_getElem?_getD, List.getElem?_append, if_pos (by omega),
      ← List.getD_eq_getElem?_getD, reverse_dropLast]
    exact getD_tail_reverse _ m hml
  · have hm1 : m = (buildChain S).length - 1 := by omega
    rw [hh, List.getD_eq_getElem?_getD, List.getElem?_append, if_neg (by omega),
      ← List.getD_eq_getElem?_getD, reverse_dropLast]
    have hm2 : m - ((buildChain S).reverse.dropLast).length = 0 := by omega
    rw [hm2]
    have hult : 0 < (buildChain S.reverse).length - 1 := by omega
    rw [getD_tail_reverse _ 0 hult, hm1]
    have he : (buildChain S.reverse).length - 1 - 0 = (buildChain S.reverse).length - 1 := by
      omega
    rw [he, hupLast]
    have he2 : (buildChain S).length - 1 - ((buildChain S).length - 1) = 0 := by omega
    rw [he2, hlow0]

/-- Hull element in the upper-chain range (`j` counts from the junction at
the lex-maximum; the index is taken cyclically). -/
theorem hull_getD_up (S h : List Vec2)
    (hh : h = (buildChain S).reverse.dropLast ++ (buildChain S.reverse).reverse.dropLast)
    (hS : List.Pairwise lexLt S) (h3 : 3 ≤ S.length) :
    ∀ j, j < (buildChain S.reverse).length →
      h.getD (((buildChain S).length - 1 + j) % h.length) default =
        (buildChain S.reverse).getD ((buildChain S.reverse).length - 1 - j) default := by
  obtain ⟨hL2, hU2, hlow0, hlowLast, hup0, hupLast⟩ := hull_setup S hS h3
  have hAlen : ((buildChain S).reverse.dropLast).length = (buildChain S).length - 1 := by
    rw [List.length_dropLast, List.length_reverse]
  have hBlen : ((buildChain S.reverse).reverse.dropLast).length =
      (buildChain S.reverse).length - 1 := by
    rw [List.length_dropLast, List.length_reverse]
  have hn : h.length = ((buildChain S).length - 1) + ((buildChain S.reverse).length - 1) := by
    rw [hh, List.length_append, hAlen, hBlen]
  intro j hj
  by_cases hju : j < (buildChain S.reverse).length - 1
  · have hidx : ((buildChain S).length - 1 + j) % h.length = (buildChain S).length - 1 + j := by
      apply Nat.mod_eq_of_lt
      omega
    rw [hidx, hh, List.getD_eq_getElem?_getD, List.getElem?_append, if_neg (by omega),
      ← List.getD_eq_getElem?_getD, reverse_dropLast]
    have he : (buildChain S).length - 1 + j - ((buildChain S).reverse.dropLast).length = j := by
      omega
    rw [he]
    exact getD_tail_reverse _ j hju
  · have hj1 : j = (buildChain S.reverse).length - 1 := by omega
    have hidx : ((buildChain S).length - 1 + j) % h.length = 0 := by
      rw [hj1]
      have he : (buildChain S).length - 1 + ((buildChain S.reverse).length - 1) = h.length := by
        omega
      rw [he, Nat.mod_self]
    rw [hidx, hh, List.getD_eq_getElem?_getD, List.getElem?_append, if_pos (by omega),
      ← List.getD_eq_getElem?_getD, reverse_dropLast]
    have hlt0 : 0 < (buildChain S).length - 1 := by omega
    rw [getD_tail_reverse _ 0 hlt0, hj1]
    have he : (buildChain S).length - 1 - 0 = (buildChain S).length - 1 := by omega
    rw [he, hlowLast]
    have he2 : (buildChain S.reverse).length - 1 - ((buildChain S.reverse).length - 1) = 0 := by
      omega
    rw [he2, hup0]

/-- Every cyclic hull edge is a consecutive pair of one of the two chains
(read from the deeper stack entry to the shallower). -/
theorem hull_edge (S h : List Vec2)
    (hh : h = (buildChain S).reverse.dropLast ++ (buildChain S.reverse).reverse.dropLast)
    (hS : List.Pairwise lexLt S) (h3 : 3 ≤ S.length) :
    ∀ i, i < h.length →
      (∃ k, k + 1 < (buildChain S).length ∧
        h.getD i default = (buildChain S).getD (k + 1) default ∧
        h.getD ((i + 1) % h.length) default = (buildChain S).getD k default) ∨
      (∃ k, k + 1 < (buildChain S.reverse).length ∧
        h.getD i default = (buildChain S.reverse).getD (k + 1) default ∧
        h.getD ((i + 1) % h.length) default = (buildChain S.reverse).getD k default) := by
  obtain ⟨hL2, hU2, hlow0, hlowLast, hup0, hupLast⟩ := hull_setup S hS h3
  have hn : h.length = ((buildChain S).length - 1) + ((buildChain S.reverse).length - 1) := by
    rw [hh, List.length_append, List.length_dropLast, List.length_reverse,
      List.length_dropLast, List.length_reverse]
  intro i hi
  by_cases hiL : i < (buildChain S).length - 1
  · left
    refine ⟨(buildChain S).length - 2 - i, by omega, ?_, ?_⟩
    · rw [hull_getD_low S h hh hS h3 i (by omega)]
      congr 1
      omega
    · have hmod : (i + 1) % h.length = i + 1 := Nat.mod_eq_of_lt (by omega)
      rw [hmod, hull_getD_low S h hh hS h3 (i + 1) (by omega)]
      congr 1
      omega
  · right
    refine ⟨(buildChain S.reverse).length - 2 - (i - ((buildChain S).length - 1)),
      by omega, ?_, ?_⟩
    · have hrw := hull_getD_up S h hh hS h3 (i - ((buildChain S).length - 1)) (by omega)
      have he : (buildChain S).length - 1 + (i - ((buildChain S).length - 1)) = i := by
        omega
      rw [he, Nat.mod_eq_of_lt hi] at hrw
      rw [hrw]
      congr 1
      omega
    · have hrw := hull_getD_up S h hh hS h3 (i - ((buildChain S).length - 1) + 1) (by omega)
      have he : (buildChain S).length - 1 + (i - ((buildChain S).length - 1) + 1) = i + 1 := by
        omega
      rw [he] at hrw
      rw [hrw]
      congr 1
      omega

/-- Hull soundness over the strictly sorted distinct points. -/
theorem hull_sound (S h : List Vec2)
    (hh : h = (buildChain S).reverse.dropLast ++ (buildChain S.reverse).reverse.dropLast)
    (hS : List.Pairwise lexLt S) (h3 : 3 ≤ S.length) :
    ∀ q ∈ S, ∀ i, i < h.length →
      0 ≤ cross3 (h.getD i default) (h.getD ((i + 1) % h.length) default) q := by
  intro q hq i hi
  rcases hull_edge S h hh hS h3 i hi with ⟨k, hk, e1, e2⟩ | ⟨k, hk, e1, e2⟩
  · rw [e1, e2]
    exact supportsPt_idx q _ ((buildChain_inv S hS).supports q hq) k hk
  · rw [e1, e2]
    exact upper_supports S hS q hq k hk

/-- Every cyclic hull triple is a chain triple or one of the two junction
triples (around the lex-max and the lex-min). -/
theorem hull_triple (S h : List Vec2)
    (hh : h = (buildChain S).reverse.dropLast ++ (buildChain S.reverse).reverse.dropLast)
    (hS : List.Pairwise lexLt S) (h3 : 3 ≤ S.length) :
    ∀ i, i < h.length →
      (∃ k, k + 2 < (buildChain S).length ∧
        h.getD i default = (buildChain S).getD (k + 2) default ∧
        h.getD ((i + 1) % h.length) default = (buildChain S).getD (k + 1) default ∧
        h.getD ((i + 2) % h.length) default = (buildChain S).getD k default) ∨
      (∃ k, k + 2 < (buildChain S.reverse).length ∧
        h.getD i default = (buildChain S.reverse).getD (k + 2) default ∧
        h.getD ((i + 1) % h.length) default = (buildChain S.reverse).getD (k + 1) default ∧
        h.getD ((i + 2) % h.length) default = (buildChain S.reverse).getD k default) ∨
      (h.getD i default = (buildChain S).getD 1 default ∧
        h.getD ((i + 1) % h.length) default = (buildChain S).getD 0 default ∧
        h.getD ((i + 2) % h.length) default =
          (buildChain S.reverse).getD ((buildChain S.reverse).length - 2) default) ∨
      (h.getD i default = (buildChain S.reverse).getD 1 default ∧
        h.getD ((i + 1) % h.length) default = (buildChain S.reverse).getD 0 default ∧
        h.getD ((i + 2) % h.length) default =
          (buildChain S).getD ((buildChain S).length - 2) default) := by
  obtain ⟨hL2, hU2, hlow0, hlowLast, hup0, hupLast⟩ := hull_setup S hS h3
  have hn : h.length = ((buildChain S).length - 1) + ((buildChain S.reverse).length - 1) := by
    rw [hh, List.length_append, List.length_dropLast, List.length_reverse,
      List.length_dropLast, List.length_reverse]
  intro i hi
  by_cases ha : i + 2 < (buildChain S).length
  · left
    refine ⟨(buildChain S).length - 3 - i, by omega, ?_, ?_, ?_⟩
    · rw [hull_getD_low S h hh hS h3 i (by omega)]
      congr 1
      omega
    · rw [Nat.mod_eq_of_lt (by omega : i + 1 < h.length),
        hull_getD_low S h hh hS h3 (i + 1) (by omega)]
      congr 1
      omega
    · rw [Nat.mod_eq_of_lt (by omega : i + 2 < h.length),
        hull_getD_low S h hh hS h3 (i + 2) (by omega)]
      congr 1
      omega
  · by_cases hb : i = (buildChain S).length - 2
    · right; right; left
      refine ⟨?_, ?_, ?_⟩
      · rw [hull_getD_low S h hh hS h3 i (by omega)]
        congr 1
        omega
      · rw [Nat.mod_eq_of_lt (by omega : i + 1 < h.length),
          hull_getD_low S h hh hS h3 (i + 1) (by omega)]
        congr 1
        omega
      · have hrw := hull_getD_up S h hh hS h3 1 (by omega)
        have he : (buildChain S).length - 1 + 1 = i + 2 := by omega
        rw [he] at hrw
        rw [hrw]
        congr 1
    · by_cases hc : i ≤ h.length - 2
      · right; left
        have hj : (buildChain S).length - 1 ≤ i := by omega
        refine ⟨(buildChain S.reverse).length - 3 - (i - ((buildChain S).length - 1)),
          by omega, ?_, ?_, ?_⟩
        · have hrw := hull_getD_up S h hh hS h3 (i - ((buildChain S).length - 1)) (by omega)
          have he : (buildChain S).length - 1 + (i - ((buildChain S).length - 1)) = i := by
            omega
          rw [he, Nat.mod_eq_of_lt hi] at hrw
          rw [hrw]
          congr 1
          omega
        · have hrw := hull_getD_up S h hh hS h3 (i - ((buildChain S).length - 1) + 1)
            (by omega)
          have he : (buildChain S).length - 1 + (i - ((buildChain S).length - 1) + 1) =
              i + 1 := by omega
          rw [he] at hrw
          rw [hrw]
          congr 1
          omega
        · have hrw := hull_getD_up S h hh hS h3 (i - ((buildChain S).length - 1) + 2)
            (by omega)
          have he : (buildChain S).length - 1 + (i - ((buildChain S).length - 1) + 2) =
              i + 2 := by omega
          rw [he] at hrw
          rw [hrw]
          congr 1
          omega
      · right; right; right
        have hd : i = h.length - 1 := by omega
        refine ⟨?_, ?_, ?_⟩
        · have hrw := hull_getD_up S h hh hS h3 ((buildChain S.reverse).length - 2) (by omega)
          have he : (buildChain S).length - 1 + ((buildChain S.reverse).length - 2) = i := by
            omega
          rw [he, Nat.mod_eq_of_lt hi] at hrw
          rw [hrw]
          congr 1
          omega
        · have hrw := hull_getD_up S h hh hS h3 ((buildChain S.reverse).length - 1) (by omega)
          have he : (buildChain S).length - 1 + ((buildChain S.reverse).length - 1) = i + 1 := by
            omega
          rw [he] at hrw
          rw [hrw]
          congr 1
          omega
        · have he2 : i + 2 = h.length + 1 := by omega
          rw [he2, Nat.add_mod_left, Nat.mod_eq_of_lt (by omega : 1 < h.length),
            hull_getD_low S h hh hS h3 1 (by omega)]
          congr 1

theorem getD_eq_getElem (l : List Vec2) (i : ℕ) (h : i < l.length) :
    l.getD i default = l[i] := by
  rw [List.getD_eq_getElem?_getD, List.getElem?_eq_getElem h]
  rfl

theorem getD_mem_list (l : List Vec2) (i : ℕ) (h : i < l.length) :
    l.getD i default ∈ l := by
  rw [getD_eq_getElem l i h]
  exact List.getElem_mem h

/-- No cyclic hull triple is collinear (hull with at least three vertices). -/
theorem hull_triple_ne (S h : List Vec2)
    (hh : h = (buildChain S).reverse.dropLast ++ (buildChain S.reverse).reverse.dropLast)
    (hS : List.Pairwise lexLt S) (h3 : 3 ≤ S.length) (hn3 : 3 ≤ h.length) :
    ∀ i, i < h.length →
      cross3 (h.getD i default) (h.getD ((i + 1) % h.length) default)
        (h.getD ((i + 2) % h.length) default) ≠ 0 := by
  obtain ⟨hL2, hU2, hlow0, hlowLast, hup0, hupLast⟩ := hull_setup S hS h3
  have hn : h.length = ((buildChain S).length - 1) + ((buildChain S.reverse).length - 1) := by
    rw [hh, List.length_append, List.length_dropLast, List.length_reverse,
      List.length_dropLast, List.length_reverse]
  have hcollapse : (∀ x ∈ S, ∀ y ∈ S, ∀ z ∈ S, cross3 x y z = 0) → False := by
    intro hflat3
    have hcol1 := buildChain_collapse S hflat3 S [] (fun x hx => hx) (by simp) (by simp)
    have hL : (buildChain S).length ≤ 2 := by simpa [buildChain] using hcol1.1
    have hflat3R : ∀ x ∈ S.reverse, ∀ y ∈ S.reverse, ∀ z ∈ S.reverse, cross3 x y z = 0 := by
      intro x hx y hy z hz
      exact hflat3 x (List.mem_reverse.mp hx) y (List.mem_reverse.mp hy) z
        (List.mem_reverse.mp hz)
    have hcol2 := buildChain_collapse S.reverse hflat3R S.reverse [] (fun x hx => hx)
      (by simp) (by simp)
    have hU : (buildChain S.reverse).length ≤ 2 := by simpa [buildChain] using hcol2.1
    omega
  intro i hi
  rcases hull_triple S h hh hS h3 i hi with ⟨k, hk, e1, e2, e3⟩ | ⟨k, hk, e1, e2, e3⟩ |
    ⟨e1, e2, e3⟩ | ⟨e1, e2, e3⟩
  · rw [e1, e2, e3]
    exact ne_of_gt (stackConvex_idx _ (buildChain_inv S hS).convex k hk)
  · rw [e1, e2, e3]
    exact ne_of_gt (upper_convex_idx S hS k hk)
  · rw [e1, e2, e3]
    intro hcol
    have hflat : ∀ q ∈ S,
        cross3 ((buildChain S).getD 1 default) ((buildChain S).getD 0 default) q = 0 := by
      intro q hq
      refine junction_max hcol ?_ ?_ ?_ ?_
      · exact lexPos_sub_iff.mpr (stackLt_idx _ (buildChain_inv S hS).lt 0 (by omega))
      · refine lexPos_sub_iff.mpr ?_
        have h1 := upper_lt S hS ((buildChain S.reverse).length - 2) (by omega)
        have he : (buildChain S.reverse).length - 2 + 1 = (buildChain S.reverse).length - 1 := by
          omega
        rw [he, hupLast, ← hlow0] at h1
        exact h1
      · exact supportsPt_idx q _ ((buildChain_inv S hS).supports q hq) 0 (by omega)
      · have h2 := upper_supports S hS q hq ((buildChain S.reverse).length - 2) (by omega)
        have he : (buildChain S.reverse).length - 2 + 1 = (buildChain S.reverse).length - 1 := by
          omega
        rw [he, hupLast, ← hlow0] at h2
        exact h2
    have hdir : lexPos ((buildChain S).getD 0 default - (buildChain S).getD 1 default) :=
      lexPos_sub_iff.mpr (stackLt_idx _ (buildChain_inv S hS).lt 0 (by omega))
    refine hcollapse ?_
    intro x hx y hy z hz
    exact all_on_line hdir (hflat x hx) (hflat y hy) (hflat z hz)
  · rw [e1, e2, e3]
    intro hcol
    have hflat : ∀ q ∈ S,
        cross3 ((buildChain S.reverse).getD 1 default)
          ((buildChain S.reverse).getD 0 default) q = 0 := by
      intro q hq
      refine junction_min hcol ?_ ?_ ?_ ?_
      · exact lexPos_sub_iff.mpr (upper_lt S hS 0 (by omega))
      · refine lexPos_sub_iff.mpr ?_
        have h1 := stackLt_idx _ (buildChain_inv S hS).lt ((buildChain S).length - 2)
          (by omega)
        have he : (buildChain S).length - 2 + 1 = (buildChain S).length - 1 := by omega
        rw [he, hlowLast, ← hup0] at h1
        exact h1
      · exact upper_supports S hS q hq 0 (by omega)
      · have h2 := supportsPt_idx q _ ((buildChain_inv S hS).supports q hq)
          ((buildChain S).length - 2) (by omega)
        have he : (buildChain S).length - 2 + 1 = (buildChain S).length - 1 := by omega
        rw [he, hlowLast, ← hup0] at h2
        exact h2
    have hdir : lexPos ((buildChain S.reverse).getD 1 default -
        (buildChain S.reverse).getD 0 default) :=
      lexPos_sub_iff.mpr (upper_lt S hS 0 (by omega))
    refine hcollapse ?_
    intro x hx y hy z hz
    refine all_on_line hdir ?_ ?_ ?_
    · rw [cross3_swap, hflat x hx, neg_zero]
    · rw [cross3_swap, hflat y hy, neg_zero]
    · rw [cross3_swap, hflat z hz, neg_zero]

/-- The assembled hull has no duplicate vertices. -/
theorem hull_nodup (S h : List Vec2)
    (hh : h = (buildChain S).reverse.dropLast ++ (buildChain S.reverse).reverse.dropLast)
    (hS : List.Pairwise lexLt S) (h3 : 3 ≤ S.length) : h.Nodup := by
  obtain ⟨hL2, hU2, hlow0, hlowLast, hup0, hupLast⟩ := hull_setup S hS h3
  have invL := buildChain_inv S hS
  have hLnodup : (buildChain S).Nodup := stackLt_nodup _ invL.lt
  have hUnodup : (buildChain S.reverse).Nodup := upper_nodup S hS
  have hA : ((buildChain S).reverse.dropLast).Nodup := by
    rw [reverse_dropLast]
    exact List.nodup_reverse.mpr (List.Nodup.sublist (List.tail_sublist _) hLnodup)
  have hB : ((buildChain S.reverse).reverse.dropLast).Nodup := by
    rw [reverse_dropLast]
    exact List.nodup_reverse.mpr (List.Nodup.sublist (List.tail_sublist _) hUnodup)
  rw [hh, List.nodup_append]
  refine ⟨hA, hB, ?_⟩
  intro x hxA hxB
  rw [reverse_dropLast, List.mem_reverse] at hxA
  rw [reverse_dropLast, List.mem_reverse] at hxB
  obtain ⟨kt, hkt, hxk⟩ := List.mem_iff_getElem.mp hxA
  obtain ⟨jt, hjt, hxj⟩ := List.mem_iff_getElem.mp hxB
  have hktlen : kt < (buildChain S).length - 1 := by
    have := List.length_tail (buildChain S)
    omega
  have hjtlen : jt < (buildChain S.reverse).length - 1 := by
    have := List.length_tail (buildChain S.reverse)
    omega
  have hxlow : (buildChain S).getD (kt + 1) default = x := by
    rw [getD_eq_getElem _ _ (by omega), ← List.getElem_tail _ kt hkt]
    exact hxk
  have hxup : (buildChain S.reverse).getD (jt + 1) default = x := by
    rw [getD_eq_getElem _ _ (by omega), ← List.getElem_tail _ jt hjt]
    exact hxj
  have hxneM : x ≠ S.getLastD default := by
    intro hxe
    cases hc : buildChain S with
    | nil =>
      rw [hc] at hxA
      simp at hxA
    | cons c t =>
      have hcM : c = S.getLastD default := by
        have h0 := hlow0
        rw [hc, List.getD_cons_zero] at h0
        exact h0
      have hnd := hLnodup
      rw [hc, List.nodup_cons] at hnd
      have hxt : x ∈ t := by
        rw [hc] at hxA
        exact hxA
      have hcx : c = x := hcM.trans hxe.symm
      exact hnd.1 (by rw [hcx]; exact hxt)
  have hxnem : x ≠ S.headI := by
    intro hxe
    cases hc : buildChain S.reverse with
    | nil =>
      rw [hc] at hxB
      simp at hxB
    | cons c t =>
      have hcm : c = S.headI := by
        have h0 := hup0
        rw [hc, List.getD_cons_zero] at h0
        exact h0
      have hnd := hUnodup
      rw [hc, List.nodup_cons] at hnd
      have hxt : x ∈ t := by
        rw [hc] at hxB
        exact hxB
      have hcx : c = x := hcm.trans hxe.symm
      exact hnd.1 (by rw [hcx]; exact hxt)
  have hklt : kt + 1 < (buildChain S).length - 1 := by
    by_contra hno
    have hke : kt + 1 = (buildChain S).length - 1 := by omega
    rw [hke, hlowLast] at hxlow
    exact hxnem hxlow.symm
  have hjlt : jt + 1 < (buildChain S.reverse).length - 1 := by
    by_contra hno
    have hje : jt + 1 = (buildChain S.reverse).length - 1 := by omega
    rw [hje, hupLast] at hxup
    exact hxneM hxup.symm
  have hA_ : lexPos ((buildChain S).getD kt default - x) := by
    rw [← hxlow]
    exact lexPos_sub_iff.mpr (stackLt_idx _ invL.lt kt (by omega))
  have hC_ : lexPos (negV ((buildChain S).getD (kt + 2) default - x)) := by
    rw [negV_sub, ← hxlow]
    exact lexPos_sub_iff.mpr (stackLt_idx _ invL.lt (kt + 1) (by omega))
  have hB_ : lexPos ((buildChain S.reverse).getD (jt + 2) default - x) := by
    rw [← hxup]
    exact lexPos_sub_iff.mpr (upper_lt S hS (jt + 1) (by omega))
  have hAC : 0 < ((buildChain S).getD kt default - x).cross
      ((buildChain S).getD (kt + 2) default - x) := by
    have hcv := stackConvex_idx _ invL.convex kt (by omega)
    rw [hxlow] at hcv
    rw [cross3_sub_left]
    rw [cross3_cyclic] at hcv
    exact hcv
  have hCB : 0 ≤ ((buildChain S).getD (kt + 2) default - x).cross
      ((buildChain S.reverse).getD (jt + 2) default - x) := by
    have hq : (buildChain S).getD (kt + 2) default ∈ S :=
      invL.mem _ (getD_mem_list _ _ (by omega))
    have hsup := upper_supports S hS _ hq (jt + 1) (by omega)
    rw [hxup] at hsup
    rw [cross3_sub_left]
    rw [cross3_cyclic] at hsup
    exact hsup
  have hAB : 0 ≤ ((buildChain S).getD kt default - x).cross
      ((buildChain S.reverse).getD (jt + 2) default - x) := by
    have hq : (buildChain S.reverse).getD (jt + 2) default ∈ S :=
      upper_mem_S S hS _ (getD_mem_list _ _ (by omega))
    have hsup := supportsPt_idx _ _ (invL.supports _ hq) kt (by omega)
    rw [hxlow] at hsup
    rw [cross3_sub_left]
    exact hsup
  exact cone_C hA_ hB_ hC_ hAC hCB hAB

/-- C1: for every input point set, every input point lies on or inside the
returned hull (cross-product sign test along each cyclic hull edge is
non-negative), the hull has no three consecutive collinear points (whenever
it has at least three vertices, no cyclic triple is collinear), and it has
no duplicate points.  Modelled from the spec (monotone chain; the
implementation is declared in `geo2d.h` but absent from `src/`). -/
theorem convex_hull_2D_correct (pts : List Vec2) :
    (∀ p ∈ pts, ∀ i, i < (convex_hull_2D pts).length →
      0 ≤ cross3 ((convex_hull_2D pts).getD i default)
        ((convex_hull_2D pts).getD ((i + 1) % (convex_hull_2D pts).length) default) p) ∧
    (3 ≤ (convex_hull_2D pts).length → ∀ i, i < (convex_hull_2D pts).length →
      cross3 ((convex_hull_2D pts).getD i default)
        ((convex_hull_2D pts).getD ((i + 1) % (convex_hull_2D pts).length) default)
        ((convex_hull_2D pts).getD ((i + 2) % (convex_hull_2D pts).length) default) ≠ 0) ∧
    (convex_hull_2D pts).Nodup := by
  have hS := sortedDedup_sorted pts
  by_cases h3 : (sortedDedup pts).length < 3
  · have hhull : convex_hull_2D pts = sortedDedup pts := by
      unfold convex_hull_2D
      rw [if_pos h3]
    refine ⟨?_, ?_, ?_⟩
    · intro p hp i hi
      have hp' : p ∈ sortedDedup pts := mem_sortedDedup.mpr hp
      rw [hhull] at hi ⊢
      cases hS0 : sortedDedup pts with
      | nil =>
        rw [hS0] at hi
        simp at hi
      | cons a tail =>
        rw [hS0] at hi hp'
        cases tail with
        | nil =>
          have hi0 : i = 0 := by
            simp only [List.length_cons, List.length_nil] at hi
            omega
          subst hi0
          have hm : (0 + 1) % (([a] : List Vec2).length) = 0 := by norm_num
          rw [hm]
          have hpa : p = a := by simpa using hp'
          rw [List.getD_cons_zero, hpa]
          exact le_of_eq (cross3_first_eq a a).symm
        | cons b tail2 =>
          cases tail2 with
          | nil =>
            have hp2 : p = a ∨ p = b := by simpa using hp'
            have hi2 : i = 0 ∨ i = 1 := by
              simp only [List.length_cons, List.length_nil] at hi
              omega
            have g0 : ([a, b] : List Vec2).getD 0 default = a := List.getD_cons_zero
            have g1 : ([a, b] : List Vec2).getD 1 default = b := by
              rw [List.getD_cons_succ, List.getD_cons_zero]
            rcases hi2 with h0 | h1
            · subst h0
              have hm : (0 + 1) % (([a, b] : List Vec2).length) = 1 := by norm_num
              rw [hm, g0, g1]
              rcases hp2 with hh2 | hh2 <;> rw [hh2]
              · exact le_of_eq (cross3_outer_eq a b).symm
              · exact le_of_eq (cross3_last_eq a b).symm
            · subst h1
              have hm : (1 + 1) % (([a, b] : List Vec2).length) = 0 := by norm_num
              rw [hm, g0, g1]
              rcases hp2 with hh2 | hh2 <;> rw [hh2]
              · exact le_of_eq (cross3_last_eq b a).symm
              · exact le_of_eq (cross3_outer_eq b a).symm
          | cons c tail3 =>
            exfalso
            rw [hS0] at h3
            simp only [List.length_cons] at h3
            omega
    · intro hn3 i hi
      rw [hhull] at hn3
      exact absurd hn3 (by omega)
    · rw [hhull]
      exact sortedDedup_nodup pts
  · have h3' : 3 ≤ (sortedDedup pts).length := by omega
    have hhull : convex_hull_2D pts =
        (buildChain (sortedDedup pts)).reverse.dropLast ++
          (buildChain (sortedDedup pts).reverse).reverse.dropLast := by
      unfold convex_hull_2D
      rw [if_neg h3]
    refine ⟨?_, ?_, ?_⟩
    · intro p hp i hi
      rw [hhull] at hi ⊢
      exact hull_sound _ _ rfl hS h3' p (mem_sortedDedup.mpr hp) i hi
    · intro hn3 i hi
      rw [hhull] at hn3 hi ⊢
      exact hull_triple_ne _ _ rfl hS h3' hn3 i hi
    · rw [hhull]
      exact hull_nodup _ _ rfl hS h3'

/-- Witness for C1: the hull correctness statement instantiated at a
four-point set whose fourth point lies inside the triangle spanned by the
first three. -/
theorem convex_hull_2D_correct_witness :
    (∀ p ∈ ([⟨0, 0⟩, ⟨4, 0⟩, ⟨0, 4⟩, ⟨1, 1⟩] : List Vec2), ∀ i,
      i < (convex_hull_2D [⟨0, 0⟩, ⟨4, 0⟩, ⟨0, 4⟩, ⟨1, 1⟩]).length →
      0 ≤ cross3 ((convex_hull_2D [⟨0, 0⟩, ⟨4, 0⟩, ⟨0, 4⟩, ⟨1, 1⟩]).getD i default)
        ((convex_hull_2D [⟨0, 0⟩, ⟨4, 0⟩, ⟨0, 4⟩, ⟨1, 1⟩]).getD
          ((i + 1) % (convex_hull_2D [⟨0, 0⟩, ⟨4, 0⟩, ⟨0, 4⟩, ⟨1, 1⟩]).length) default) p) ∧
    (3 ≤ (convex_hull_2D [⟨0, 0⟩, ⟨4, 0⟩, ⟨0, 4⟩, ⟨1, 1⟩]).length →
      ∀ i, i < (convex_hull_2D [⟨0, 0⟩, ⟨4, 0⟩, ⟨0, 4⟩, ⟨1, 1⟩]).length →
      cross3 ((convex_hull_2D [⟨0, 0⟩, ⟨4, 0⟩, ⟨0, 4⟩, ⟨1, 1⟩]).getD i default)
        ((convex_hull_2D [⟨0, 0⟩, ⟨4, 0⟩, ⟨0, 4⟩, ⟨1, 1⟩]).getD
          ((i + 1) % (convex_hull_2D [⟨0, 0⟩, ⟨4, 0⟩, ⟨0, 4⟩, ⟨1, 1⟩]).length) default)
        ((convex_hull_2D [⟨0, 0⟩, ⟨4, 0⟩, ⟨0, 4⟩, ⟨1, 1⟩]).getD
          ((i + 2) % (convex_hull_2D [⟨0, 0⟩, ⟨4, 0⟩, ⟨0, 4⟩, ⟨1, 1⟩]).length) default) ≠ 0) ∧
    (convex_hull_2D [⟨0, 0⟩, ⟨4, 0⟩, ⟨0, 4⟩, ⟨1, 1⟩]).Nodup :=
  convex_hull_2D_correct [⟨0, 0⟩, ⟨4, 0⟩, ⟨0, 4⟩, ⟨1, 1⟩]

end Splatter
